import Mathlib

/-!
# ftp-sync: one-way incremental upload of a local tree over FTP

A shallow embedding of `main.go` (functions `main`, `traverse`, `upload`,
`fatal`) together with the pieces of the Go standard library and of the FTP
client library that the program calls.

* Go strings are lists of characters (`GoString`).
* The FTP session `*ftp.ServerConn` is a record of four transition functions
  over an arbitrary server state `σ`; every call returns the new state and the
  Go result.
* `filepath.WalkDir` is the sequence of calls the callback receives.
* The recursion of `inorder` is bounded by a budget (`fuel`); a run whose
  budget is exhausted is reported as such and never as a normal return.
-/

namespace FtpSync

/-! ## Go values -/

/-- A Go string, as the list of its characters. -/
abbrev GoString := List Char

/-- A Go `error` value: `errors.New`-like leaves and `fmt.Errorf(... %w ...)` wrappers. -/
inductive GoError
  | errorString (s : GoString)
  | wrapError (msg : GoString) (err : GoError)
deriving DecidableEq, Repr

/-- The method `Error()`: the message of an error. -/
def GoError.Error : GoError → GoString
  | .errorString s => s
  | .wrapError msg _ => msg

/-- The method `Unwrap()`: the wrapped cause, if any. -/
def GoError.Unwrap : GoError → Option GoError
  | .errorString _ => none
  | .wrapError _ err => some err

/-- The call `fmt.Errorf(pre + "%s: %w", s, err)`. -/
def Errorf (pre s : GoString) (err : GoError) : GoError :=
  .wrapError (pre ++ s ++ ": ".toList ++ err.Error) err

/-- The call `strings.HasSuffix(s, suffix)`. -/
def HasSuffix (s suffix : GoString) : Bool :=
  suffix.reverse.isPrefixOf s.reverse

/-! ## `path/filepath` on a Unix host (separator `/`, no volume names) -/

/-- The call `strings.Split(path, "/")`: the elements between separators. -/
def splitPath : GoString → List GoString
  | [] => [[]]
  | c :: cs =>
    if c = '/' then [] :: splitPath cs
    else match splitPath cs with
      | [] => [[c]]
      | x :: xs => (c :: x) :: xs

/-- The call `strings.Join(elems, "/")`. -/
def joinSlash : List GoString → GoString
  | [] => []
  | [x] => x
  | x :: y :: ys => x ++ '/' :: joinSlash (y :: ys)

/-- One element of `filepath.Clean`'s loop, on the elements written so far:
empty and `.` elements are dropped, `..` removes the last real element (it is
dropped at the root and kept in front of a relative path), any other element
is appended. -/
def cleanStep (rooted : Bool) (out : List GoString) (c : GoString) : List GoString :=
  if c = [] ∨ c = ['.'] then out
  else if c = ['.', '.'] then
    match out.getLast? with
    | some l => if l = ['.', '.'] then out ++ [c] else out.dropLast
    | none => if rooted then out else out ++ [c]
  else out ++ [c]

/-- The elements `filepath.Clean` keeps. -/
def cleanElems (path : GoString) : List GoString :=
  (splitPath path).foldl (cleanStep (path.head? = some '/')) []

/-- The function `filepath.Clean`. -/
def Clean (path : GoString) : GoString :=
  if path.head? = some '/' then '/' :: joinSlash (cleanElems path)
  else if cleanElems path = [] then ['.']
  else joinSlash (cleanElems path)

/-- The function `filepath.Join` at two elements: the first non-empty element
onwards is joined with the separator and cleaned. -/
def Join (a b : GoString) : GoString :=
  if a ≠ [] then Clean (a ++ '/' :: b)
  else if b ≠ [] then Clean b
  else []

/-- The part of `path` up to and including its last separator. -/
def upToLastSlash (path : GoString) : GoString :=
  (path.reverse.dropWhile (fun c => c ≠ '/')).reverse

/-- The function `filepath.Dir`. -/
def Dir (path : GoString) : GoString :=
  Clean (upToLastSlash path)

/-- The elements of a cleaned path that `filepath.Rel` compares (`.` counts as
no element; the empty element in front of a rooted path is left out on both
sides). -/
def relElems (cleaned : GoString) : List GoString :=
  if cleaned = ['.'] then [] else cleanElems cleaned

/-- The loop of `filepath.Rel` that skips the elements base and target share;
it stops as soon as either side is used up. -/
def dropShared : List GoString → List GoString → List GoString × List GoString
  | b :: bs, t :: ts => if t = b then dropShared bs ts else (b :: bs, t :: ts)
  | bs, ts => (bs, ts)

/-- The function `filepath.Rel`. -/
def Rel (basepath targpath : GoString) : Except GoError GoString :=
  let base := Clean basepath
  let targ := Clean targpath
  let cannot : GoError := .errorString
    ("Rel: can't make ".toList ++ targpath ++ " relative to ".toList ++ basepath)
  if targ = base then .ok ['.']
  else if (base.head? = some '/') ≠ (targ.head? = some '/') then .error cannot
  else
    match dropShared (relElems base) (if targ = ['.'] then [targ] else cleanElems targ) with
    | ([], ts) => .ok (joinSlash ts)
    | (b :: bs, []) => .ok (joinSlash ((b :: bs).map (fun _ => ['.', '.'])))
    | (b :: bs, t :: ts) =>
      if b = ['.', '.'] then .error cannot
      else .ok (joinSlash ((b :: bs).map (fun _ => ['.', '.']) ++ t :: ts))

/-! ## The FTP client library (`github.com/jlaffaye/ftp`) -/

/-- The type `ftp.EntryType` (an `int`). -/
abbrev EntryType := Nat

/-- The constant `ftp.EntryTypeFile`. -/
def EntryTypeFile : EntryType := 0

/-- The constant `ftp.EntryTypeFolder`. -/
def EntryTypeFolder : EntryType := 1

/-- The constant `ftp.EntryTypeLink`. -/
def EntryTypeLink : EntryType := 2

/-- The fields of `ftp.Entry` the program reads. -/
structure Entry where
  Name : GoString
  Type_ : EntryType
deriving DecidableEq, Repr

/-- An open local file (`*os.File`), identified by the name it was opened under. -/
structure File where
  name : GoString
deriving DecidableEq, Repr

/-- The session `*ftp.ServerConn` over a server in state `σ`: each method takes
the state before the call and returns the state after it with the Go result. -/
structure ServerConn (σ : Type) where
  ChangeDir : σ → GoString → σ × Option GoError
  MakeDir : σ → GoString → σ × Option GoError
  Stor : σ → GoString → File → σ × Option GoError
  List : σ → GoString → σ × Except GoError (List Entry)

/-! ## The local file system -/

/-- One call of the `fs.WalkDirFunc`: `(path, info.IsDir(), err)`. -/
structure WalkStep where
  path : GoString
  IsDir : Bool
  err : Option GoError
deriving DecidableEq, Repr

/-- What the program reads of the local machine: the calls `filepath.WalkDir`
makes for a root (in its lexical order, as long as the callback returns `nil`)
and `os.Open`. -/
structure LocalFS where
  Walk : GoString → List WalkStep
  Open : GoString → Except GoError File

/-- The function `filepath.WalkDir` for a callback that returns `nil` or an
error other than `SkipDir`/`SkipAll`: the walk stops at the first error. -/
def WalkDir {α : Type} (fn : WalkStep → α → α × Option GoError) :
    List WalkStep → α → α × Option GoError
  | [], st => (st, none)
  | x :: xs, st =>
    match fn x st with
    | (st1, none) => WalkDir fn xs st1
    | (st1, some err) => (st1, some err)

/-! ## The program (`main.go`) -/

/-- The keys of the map `seen` (`map[string]bool`; every stored value is `true`). -/
abbrev SeenMap := List GoString

/-- The statement `if _, ok := seen[k]; !ok { seen[k] = true }`. -/
def SeenMap.add (seen : SeenMap) (k : GoString) : SeenMap :=
  if k ∈ seen then seen else seen ++ [k]

/-- How a call of the closure `inorder` ends: it returns its `error` result,
or the recursion budget is used up before it returns. -/
inductive Ret
  | returned (err : Option GoError)
  | exhausted
deriving DecidableEq, Repr

/-- The loop `for _, entry := range entries` in the closure `inorder`; `rec` is
the recursive call `inorder(entryPath)`. -/
def forEntries {σ : Type} (rec : GoString → σ × SeenMap → (σ × SeenMap) × Ret)
    (path : GoString) : List Entry → σ × SeenMap → (σ × SeenMap) × Ret
  | [], st => (st, .returned none)
  | entry :: entries, st =>
    if entry.Name = ".".toList ∨ entry.Name = "..".toList then
      forEntries rec path entries st
    else
      let entryPath := Join path entry.Name
      if entry.Type_ = EntryTypeFile then
        forEntries rec path entries (st.1, st.2.add entryPath)
      else if entry.Type_ = EntryTypeFolder then
        match rec entryPath st with
        | (st1, .returned none) => forEntries rec path entries st1
        | (st1, r) => (st1, r)
      else forEntries rec path entries st

/-- The closure `inorder` of `traverse`; `dir` is the argument of `traverse`
that the closure captures. -/
def inorder {σ : Type} (conn : ServerConn σ) (dir : GoString) :
    Nat → GoString → σ × SeenMap → (σ × SeenMap) × Ret
  | 0, _, st => (st, .exhausted)
  | fuel + 1, path, st =>
    match conn.ChangeDir st.1 path with
    | (s1, some err) =>
      ((s1, st.2), .returned (some (Errorf "failed to change to directory ".toList dir err)))
    | (s1, none) =>
      match conn.List s1 ".".toList with
      | (s2, .error err) =>
        ((s2, st.2), .returned (some (Errorf "failed to list directory ".toList dir err)))
      | (s2, .ok entries) => forEntries (inorder conn dir fuel) path entries (s2, st.2)

/-- The function `traverse`: the server state afterwards and, unless the
budget is used up, the pair `(map, error)` it returns (`none` is the nil map). -/
def traverse {σ : Type} (conn : ServerConn σ) (fuel : Nat) (dir : GoString) (s : σ) :
    σ × Option (Option SeenMap × Option GoError) :=
  match inorder conn dir fuel dir (s, []) with
  | (st, .exhausted) => (st.1, none)
  | (st, .returned (some err)) => (st.1, some (none, some err))
  | (st, .returned none) => (st.1, some (some st.2, none))

/-- The function `upload`. -/
def upload {σ : Type} (conn : ServerConn σ) (lfs : LocalFS) (localPath remote : GoString)
    (s : σ) : σ × Option GoError :=
  match lfs.Open localPath with
  | .error err => (s, some (Errorf "failed to open file ".toList localPath err))
  | .ok file =>
    let dir := Dir remote
    match conn.MakeDir s dir with
    | (s1, err) =>
      match err.filter (fun e => e.Error ≠ "550 Already exists".toList) with
      | some e => (s1, some (Errorf "failed to change to directory ".toList dir e))
      | none =>
        match conn.Stor s1 remote file with
        | (s2, some err2) => (s2, some (Errorf "failed to store ".toList remote err2))
        | (s2, none) => (s2, none)

/-- What `main` has done so far: the server state, the lines written to
standard output and the counter `uploaded` (a Go `int`; it counts files, far
below `2^63`). -/
structure Progress (σ : Type) where
  conn : σ
  stdout : List GoString
  uploaded : Nat

/-- The callback `main` passes to `filepath.WalkDir`. -/
def walkFn {σ : Type} (conn : ServerConn σ) (lfs : LocalFS) (source dest : GoString)
    (seen : SeenMap) (step : WalkStep) (st : Progress σ) : Progress σ × Option GoError :=
  match step.err with
  | some err => (st, some err)
  | none =>
    if !step.IsDir then
      match Rel source step.path with
      | .error err => (st, some err)
      | .ok rel =>
        let remotePath := dest ++ rel
        if remotePath ∉ seen then
          match upload conn lfs step.path remotePath st.conn with
          | (c, some err) => (⟨c, st.stdout, st.uploaded⟩, some err)
          | (c, none) => (⟨c, st.stdout ++ [remotePath], st.uploaded + 1⟩, none)
        else (st, none)
    else (st, none)

/-- How the process ends: `os.Exit(1)` from `fatal`, a return from `main`, or
a scan that used up the recursion budget. -/
inductive Status
  | exit0
  | exit1
  | exhausted
deriving DecidableEq, Repr

/-- The process after `main`: server state, both output streams, the counter
`uploaded`, and how the process ended. -/
structure Process (σ : Type) where
  conn : σ
  stdout : List GoString
  stderr : List GoString
  uploaded : Nat
  status : Status

/-- The function `fatal` at a non-nil error: one line on standard error, exit status 1. -/
def fatal {σ : Type} (p : Progress σ) (err : GoError) : Process σ :=
  ⟨p.conn, p.stdout, ["error: ".toList ++ err.Error], p.uploaded, .exit1⟩

/-- The destination root after `main` has appended the separator it lacks. -/
def normDest (dest : GoString) : GoString :=
  if !HasSuffix dest "/".toList then dest ++ "/".toList else dest

/-- The function `main` from the logged-in session on (`source` and `dest` are
`args[1]` and `args[2]`). -/
def main {σ : Type} (conn : ServerConn σ) (lfs : LocalFS) (fuel : Nat)
    (source dest : GoString) (s : σ) : Process σ :=
  let dest := normDest dest
  match traverse conn fuel dest s with
  | (s1, none) => ⟨s1, ["scanning...".toList], [], 0, .exhausted⟩
  | (s1, some (_, some err)) => fatal ⟨s1, ["scanning...".toList], 0⟩ err
  | (s1, some (seen, none)) =>
    match WalkDir (walkFn conn lfs source dest (seen.getD [])) (lfs.Walk source)
        ⟨s1, ["scanning...".toList], 0⟩ with
    | (p, some err) => fatal p err
    | (p, none) =>
      if p.uploaded = 0 then ⟨p.conn, p.stdout ++ ["no changes".toList], [], p.uploaded, .exit0⟩
      else ⟨p.conn, p.stdout, [], p.uploaded, .exit0⟩

/-! ## The call log

What the program asks of the server is read off a session that records its
calls; the program itself is not changed. -/

deriving instance DecidableEq for Except

/-- One call on the session with its result. -/
inductive Call
  | ChangeDir (path : GoString) (err : Option GoError)
  | ListDir (path : GoString) (res : Except GoError (List Entry))
  | MakeDir (path : GoString) (err : Option GoError)
  | Stor (path : GoString) (file : File) (err : Option GoError)
deriving DecidableEq

/-- A session that records every call, in order, next to the server state. -/
def logged {σ : Type} (conn : ServerConn σ) : ServerConn (σ × List Call) where
  ChangeDir := fun s p =>
    let r := conn.ChangeDir s.1 p
    ((r.1, s.2 ++ [Call.ChangeDir p r.2]), r.2)
  MakeDir := fun s p =>
    let r := conn.MakeDir s.1 p
    ((r.1, s.2 ++ [Call.MakeDir p r.2]), r.2)
  Stor := fun s p f =>
    let r := conn.Stor s.1 p f
    ((r.1, s.2 ++ [Call.Stor p f r.2]), r.2)
  List := fun s p =>
    let r := conn.List s.1 p
    ((r.1, s.2 ++ [Call.ListDir p r.2]), r.2)

/-- A `ChangeDir` or `List` call. -/
def Call.isScan : Call → Bool
  | .ChangeDir _ _ => true
  | .ListDir _ _ => true
  | _ => false

/-- A `ChangeDir` or `List` call that returned an error. -/
def Call.scanFailed : Call → Bool
  | .ChangeDir _ (some _) => true
  | .ListDir _ (.error _) => true
  | _ => false

/-- A `MakeDir` call. -/
def Call.isMakeDir : Call → Bool
  | .MakeDir _ _ => true
  | _ => false

/-- A `Stor` call. -/
def Call.isStor : Call → Bool
  | .Stor _ _ _ => true
  | _ => false

/-- The path of a `Stor` call that succeeded. -/
def Call.storedPath : Call → Option GoString
  | .Stor p _ none => some p
  | _ => none

/-- The remote paths stored successfully, in call order. -/
def okStors (log : List Call) : List GoString :=
  log.filterMap Call.storedPath

/-- A call that makes `upload` return an error: a `MakeDir` that failed with
anything but `550 Already exists`, or a `Stor` that failed. -/
def Call.aborting : Call → Bool
  | .MakeDir _ (some e) => e.Error ≠ "550 Already exists".toList
  | .Stor _ _ (some _) => true
  | _ => false

/-- A request on the session, without its result. -/
inductive Req
  | ChangeDir (path : GoString)
  | ListDir (path : GoString)
  | MakeDir (path : GoString)
  | Stor (path : GoString)
deriving DecidableEq, Repr

/-- The request of a call. -/
def Call.req : Call → Req
  | .ChangeDir p _ => .ChangeDir p
  | .ListDir p _ => .ListDir p
  | .MakeDir p _ => .MakeDir p
  | .Stor p _ _ => .Stor p

/-- The mapped path `dest + Rel(source, p)` of a local entry that is not a directory. -/
def mappedPath (source dest : GoString) (w : WalkStep) : Option GoString :=
  if w.IsDir then none
  else match Rel source w.path with
    | .ok rel => some (dest ++ rel)
    | .error _ => none

/-- The mapped paths of the local files of a walk that are not keys of `seen`,
in walk order. -/
def missingPaths (source dest : GoString) (seen : SeenMap) (steps : List WalkStep) :
    List GoString :=
  (steps.filterMap (mappedPath source dest)).filter (fun rp => rp ∉ seen)

/-- The requests one upload makes: `MakeDir` on the parent, then `Stor`. -/
def uploadReqs (rp : GoString) : List Req :=
  [Req.MakeDir (Dir rp), Req.Stor rp]

/-- What the log of a scan step looks like: the log grows by calls `d`, all of
them `ChangeDir`/`List`, and a failed call among them makes the step return an
error. -/
def ScanStep {σ : Type}
    (f : (σ × List Call) × SeenMap → ((σ × List Call) × SeenMap) × Ret) : Prop :=
  ∀ s log seen, ∃ d, (f ((s, log), seen)).1.1.2 = log ++ d ∧
    (∀ c ∈ d, c.isScan = true) ∧
    ((∃ c ∈ d, c.scanFailed = true) → ∃ e, (f ((s, log), seen)).2 = .returned (some e))

/-- The four ways a call of `upload` goes, read off the calls `d` it adds to
the log and its result `r`. -/
def UploadShape (rp : GoString) (d : List Call) (r : Option GoError) : Prop :=
  (d = [] ∧ r ≠ none) ∨
  (∃ e, d = [Call.MakeDir (Dir rp) (some e)] ∧
    e.Error ≠ "550 Already exists".toList ∧ r ≠ none) ∨
  (∃ m f e, d = [Call.MakeDir (Dir rp) m, Call.Stor rp f (some e)] ∧
    (Call.MakeDir (Dir rp) m).aborting = false ∧ r ≠ none) ∨
  (∃ m f, d = [Call.MakeDir (Dir rp) m, Call.Stor rp f none] ∧
    (Call.MakeDir (Dir rp) m).aborting = false ∧ r = none)

/-- A call that returned an error. -/
def Call.failed : Call → Bool
  | .ChangeDir _ (some _) => true
  | .ListDir _ (.error _) => true
  | .MakeDir _ (some _) => true
  | .Stor _ _ (some _) => true
  | _ => false

/-- Whether a local operation that the run performs on the walked entry `w`
fails: the walk reports an error for it, `filepath.Rel` fails on it, or it is
a file whose mapped path is not a key of `seen` and `os.Open` fails on it. -/
def localFailure (lfs : LocalFS) (source dest : GoString) (seen : SeenMap) (w : WalkStep) :
    Bool :=
  w.err.isSome ||
    (!w.IsDir &&
      match Rel source w.path with
      | .error _ => true
      | .ok rel =>
        decide (dest ++ rel ∉ seen) &&
          match lfs.Open w.path with
          | .error _ => true
          | .ok _ => false)

/-- The calls that the diff owes a walked entry: none for a directory and none
for a file whose mapped path is a key of `seen`; for any other file, `MakeDir`
on the parent of its mapped path and `Stor` of that very file, as `os.Open`
gives it, at its mapped path, both without error. -/
def expectedCalls (lfs : LocalFS) (source dest : GoString) (seen : SeenMap) (w : WalkStep) :
    List Call :=
  match mappedPath source dest w, lfs.Open w.path with
  | some rp, .ok file =>
    if rp ∈ seen then [] else [Call.MakeDir (Dir rp) none, Call.Stor rp file none]
  | _, _ => []

/-! ## Servers

`pathServer` answers from a table of listings indexed by the path handed to
`ChangeDir`. `refServer` is a small RFC 959 server over a directory tree with
a working-directory cursor: rooted paths are resolved from the root, other
paths from the cursor; `MKD` and `STOR` need the parent directory to exist.
`linkServer` and `wordyServer` are two one-directory servers. -/

/-- A server whose directories are addressed by the very path given to
`ChangeDir`: `listing p` is what `LIST` shows there, or the error that entering
or listing it gives. The state is the directory last entered. -/
def pathServer (listing : GoString → Except GoError (List Entry)) :
    ServerConn (Option GoString) where
  ChangeDir := fun s p =>
    match listing p with
    | .ok _ => (some p, none)
    | .error e => (s, some e)
  MakeDir := fun s _ => (s, none)
  Stor := fun s _ _ => (s, none)
  List := fun s _ =>
    match s with
    | some p => (s, listing p)
    | none => (s, .ok [])

/-- The state of the reference server: the directories (other than the root)
and the files, each as the list of its elements from the root, and the cursor. -/
structure Remote where
  dirs : List (List GoString)
  files : List (List GoString)
  cwd : List GoString
deriving DecidableEq, Repr

/-- The directory or file a path names: a rooted path is read from the root,
any other path from the cursor. -/
def Remote.resolve (r : Remote) (p : GoString) : List GoString :=
  if p.head? = some '/' then cleanElems p
  else (splitPath p).foldl (cleanStep true) r.cwd

/-- Whether the element list names a directory. -/
def Remote.isDir (r : Remote) (d : List GoString) : Bool :=
  d = [] ∨ d ∈ r.dirs

/-- The entries `LIST` shows for directory `d`: its folders, then its files. -/
def Remote.ls (r : Remote) (d : List GoString) : List Entry :=
  (r.dirs.filter (fun x => x ≠ [] ∧ x.dropLast = d)).map
      (fun x => ⟨x.getLast?.getD [], EntryTypeFolder⟩) ++
    (r.files.filter (fun x => x ≠ [] ∧ x.dropLast = d)).map
      (fun x => ⟨x.getLast?.getD [], EntryTypeFile⟩)

/-- The reference server. -/
def refServer : ServerConn Remote where
  ChangeDir := fun r p =>
    if r.isDir (r.resolve p) then (⟨r.dirs, r.files, r.resolve p⟩, none)
    else (r, some (.errorString "550 Failed to change directory.".toList))
  MakeDir := fun r p =>
    if r.isDir (r.resolve p) ∨ r.resolve p ∈ r.files then
      (r, some (.errorString "550 Already exists".toList))
    else if r.isDir (r.resolve p).dropLast then
      (⟨r.dirs ++ [r.resolve p], r.files, r.cwd⟩, none)
    else (r, some (.errorString "550 No such file or directory.".toList))
  Stor := fun r p _ =>
    if r.isDir (r.resolve p) then
      (r, some (.errorString "553 Could not create file.".toList))
    else if r.isDir (r.resolve p).dropLast then
      (⟨r.dirs, if r.resolve p ∈ r.files then r.files else r.files ++ [r.resolve p], r.cwd⟩,
        none)
    else (r, some (.errorString "553 Could not create file.".toList))
  List := fun r p =>
    if r.isDir (r.resolve p) then (r, .ok (r.ls (r.resolve p)))
    else (r, .error (.errorString "550 No such directory.".toList))

/-- A new session on the same server: the cursor is back at the login directory. -/
def Remote.login (r : Remote) (home : List GoString) : Remote :=
  ⟨r.dirs, r.files, home⟩

/-- The tree on the reference server as a table of listings: what `LIST` shows
in the directory that `p` names, a rooted path read from the root and any other
path from the login directory `r.cwd`, or the refusal to enter it. -/
def Remote.table (r : Remote) (p : GoString) : Except GoError (List Entry) :=
  if r.isDir (r.resolve p) then .ok (r.ls (r.resolve p))
  else .error (.errorString "550 Failed to change directory.".toList)

/-- A server whose directory `/site` shows one entry, the symbolic link
`a.txt`: `MKD` answers that the directory exists, and `STOR` on `a.txt` writes
through the link to the file it points to, so the listing never changes. -/
def linkServer : ServerConn Unit where
  ChangeDir := fun s _ => (s, none)
  MakeDir := fun s _ => (s, some (.errorString "550 Already exists".toList))
  Stor := fun s _ _ => (s, none)
  List := fun s _ => (s, .ok [⟨"a.txt".toList, EntryTypeLink⟩])

/-- A server on which the directory asked for exists already and `MKD` says so
in the words `550 Directory already exists`. -/
def wordyServer : ServerConn Unit where
  ChangeDir := fun s _ => (s, none)
  MakeDir := fun s _ => (s, some (.errorString "550 Directory already exists".toList))
  Stor := fun s _ _ => (s, none)
  List := fun s _ => (s, .ok [])

/-! ## The remote tree behind a table of listings -/

/-- An entry the loop of `inorder` does not skip by its name. -/
def Entry.visible (e : Entry) : Bool :=
  !decide (e.Name = ".".toList ∨ e.Name = "..".toList)

/-- The directories of the tree under `p`: `p` itself and, through any chain
of visible entries of kind `Folder`, the joined path of each. -/
inductive Visits (listing : GoString → Except GoError (List Entry)) :
    GoString → GoString → Prop
  | root (p : GoString) : Visits listing p p
  | step {p q : GoString} {es : List Entry} {e : Entry} :
    listing p = .ok es → e ∈ es → e.visible = true → e.Type_ = EntryTypeFolder →
    Visits listing (Join p e.Name) q → Visits listing p q

/-- The files of the tree under `p`: `Below listing p k` says that `k` is the
joined path of a visible entry of kind `File` that is listed in `p` or in a
directory reached from `p` through a chain of visible entries of kind `Folder`. -/
inductive Below (listing : GoString → Except GoError (List Entry)) :
    GoString → GoString → Prop
  | file {p : GoString} {es : List Entry} {e : Entry} :
    listing p = .ok es → e ∈ es → e.visible = true → e.Type_ = EntryTypeFile →
    Below listing p (Join p e.Name)
  | folder {p k : GoString} {es : List Entry} {e : Entry} :
    listing p = .ok es → e ∈ es → e.visible = true → e.Type_ = EntryTypeFolder →
    Below listing (Join p e.Name) k → Below listing p k

/-- The tree under `p` is finite, of depth at most `n`, and each of its
directories can be entered and listed. -/
def scannable (listing : GoString → Except GoError (List Entry)) : Nat → GoString → Bool
  | 0, _ => false
  | n + 1, p =>
    match listing p with
    | .ok es =>
      es.all (fun e =>
        !e.visible || !decide (e.Type_ = EntryTypeFolder) || scannable listing n (Join p e.Name))
    | .error _ => false

/-- The files under `p` that the entries `l` of `p` account for. -/
def BelowEntries (listing : GoString → Except GoError (List Entry)) (p : GoString)
    (l : List Entry) (k : GoString) : Prop :=
  ∃ e ∈ l, e.visible = true ∧
    ((e.Type_ = EntryTypeFile ∧ k = Join p e.Name) ∨
      (e.Type_ = EntryTypeFolder ∧ Below listing (Join p e.Name) k))

/-- The directories under `p` that the entries `l` of `p` account for. -/
def VisitsEntries (listing : GoString → Except GoError (List Entry)) (p : GoString)
    (l : List Entry) (q : GoString) : Prop :=
  ∃ e ∈ l, e.visible = true ∧ e.Type_ = EntryTypeFolder ∧ Visits listing (Join p e.Name) q

/-- A session shows the tree `listing` at rooted paths: from every state that
satisfies `Inv`, whatever the cursor, `ChangeDir` to a rooted path `p` that the
tree lists succeeds, and `List(".")` right after it returns `listing p` and
leaves a state that satisfies `Inv`. -/
def Shows {σ : Type} (conn : ServerConn σ) (Inv : σ → Prop)
    (listing : GoString → Except GoError (List Entry)) : Prop :=
  ∀ s p es, Inv s → p.head? = some '/' → listing p = .ok es →
    (conn.ChangeDir s p).2 = none ∧
    (conn.List (conn.ChangeDir s p).1 ".".toList).2 = .ok es ∧
    Inv (conn.List (conn.ChangeDir s p).1 ".".toList).1

/-! ## Re-anchoring -/

mutual
/-- The relation `Scan P p log b` says that `log` is the call log of a scan of
the directory with accumulated path `p`. The scan is cut short before it starts (`cut`, the budget
is used up), or `ChangeDir p` is refused, or `ChangeDir p` succeeds and the
very next call is `List(".")`, whose result `r` satisfies `P p r`; when that
result is a listing, the calls that follow are the scan of its entries. The
flag `b` says that the scan went through. -/
inductive Scan (P : GoString → Except GoError (List Entry) → Prop) :
    GoString → List Call → Bool → Prop
  | cut (p : GoString) : Scan P p [] false
  | refused (p : GoString) (e : GoError) : Scan P p [Call.ChangeDir p (some e)] false
  | unlisted (p : GoString) (e : GoError) :
    P p (.error e) →
    Scan P p [Call.ChangeDir p none, Call.ListDir ".".toList (.error e)] false
  | listed {p : GoString} {es : List Entry} {rest : List Call} {b : Bool} :
    P p (.ok es) → ScanEntries P p es rest b →
    Scan P p (Call.ChangeDir p none :: Call.ListDir ".".toList (.ok es) :: rest) b
/-- The relation `ScanEntries P p es log b` says that `log` is the call log of
the loop over the entries `es` listed in the directory with accumulated path `p`: no call for an
entry that is named `.` or `..` or is not of kind `Folder`; for any other
entry `e` the scan of the directory with accumulated path `Join p e.Name`, and
the loop goes on to the next entry only when that scan went through. -/
inductive ScanEntries (P : GoString → Except GoError (List Entry) → Prop) :
    GoString → List Entry → List Call → Bool → Prop
  | done (p : GoString) : ScanEntries P p [] [] true
  | skip {p : GoString} {e : Entry} {es : List Entry} {log : List Call} {b : Bool} :
    ¬ (e.visible = true ∧ e.Type_ = EntryTypeFolder) → ScanEntries P p es log b →
    ScanEntries P p (e :: es) log b
  | enter {p : GoString} {e : Entry} {es : List Entry} {l1 l2 : List Call} {b : Bool} :
    e.visible = true → e.Type_ = EntryTypeFolder → Scan P (Join p e.Name) l1 true →
    ScanEntries P p es l2 b → ScanEntries P p (e :: es) (l1 ++ l2) b
  | stop {p : GoString} {e : Entry} {es : List Entry} {l1 : List Call} :
    e.visible = true → e.Type_ = EntryTypeFolder → Scan P (Join p e.Name) l1 false →
    ScanEntries P p (e :: es) l1 false
end

/-- The accumulated path of a directory: the root `dir` joined with the entry
names on the way down to it. -/
def accumulated (dir : GoString) (names : List GoString) : GoString :=
  names.foldl Join dir

/-- What holds of a pair `ChangeDir p` / `List(".")` on the reference server
with directories `dirs` and files `files` when `p` is absolute: the listing
obtained is that of the directory `p` names from the root, whatever the cursor
was before. -/
def ReAnchored (dirs files : List (List GoString)) (p : GoString)
    (r : Except GoError (List Entry)) : Prop :=
  p.head? = some '/' ∧ r = .ok ((Remote.mk dirs files []).ls (cleanElems p))

/-! ## Destinations in clean form -/

/-- A plain path element: not empty, without a separator, neither `.` nor `..`. -/
def plainName (n : GoString) : Bool :=
  decide (n ≠ []) && decide ('/' ∉ n) && decide (n ≠ ['.']) && decide (n ≠ ['.', '.'])

/-- The clean path with the plain elements `elems`, rooted or not, without a
separator at its end. -/
def barePath (rooted : Bool) (elems : List GoString) : GoString :=
  (if rooted then ['/'] else []) ++ joinSlash elems

/-- A destination root in clean form after `main` has appended the separator:
the root `/` itself, or a clean path followed by one separator. -/
def cleanDest (rooted : Bool) (elems : List GoString) : GoString :=
  barePath rooted elems ++ (if elems = [] then [] else ['/'])

/-! ## The tree on the reference server -/

/-- A state of the reference server is well formed: every directory and file
has plain elements and lies in an existing directory, and the cursor has plain
elements. -/
def Remote.WF (r : Remote) : Bool :=
  r.dirs.all (fun d => decide (d ≠ []) && d.all plainName && r.isDir d.dropLast) &&
  r.files.all (fun f => decide (f ≠ []) && f.all plainName && r.isDir f.dropLast) &&
  r.cwd.all plainName

/-- The snapshot keys of the files that lie below directory `d`, whatever the
depth: `k` is the absolute clean path of a file whose elements extend `d`. -/
def keysBelow (files : List (List GoString)) (d : List GoString) (k : GoString) : Prop :=
  ∃ names, names ≠ [] ∧ d ++ names ∈ files ∧ k = barePath true (d ++ names)

/-- The length of the longest directory path. -/
def depthOf (dirs : List (List GoString)) : Nat :=
  dirs.foldr (fun d n => max d.length n) 0

/-- The depth of the tree on the reference server. -/
def Remote.depth (r : Remote) : Nat :=
  depthOf r.dirs

/-- What a scan step on the reference server leaves behind: the tree is
unchanged and well formed, the step did not return an error, it returned if
the budget was `enough`, and if it returned, the keys it added to `seen` are
exactly those picked out by `P`. -/
def RefScanPost (dirs files : List (List GoString)) (P : GoString → Prop) (enough : Prop)
    (seen : SeenMap) (res : (Remote × SeenMap) × Ret) : Prop :=
  res.1.1.WF = true ∧ res.1.1.dirs = dirs ∧ res.1.1.files = files ∧
    (∀ e, res.2 ≠ .returned (some e)) ∧
    (enough → res.2 ≠ .exhausted) ∧
    (res.2 = .returned none → ∀ k, k ∈ res.1.2 ↔ k ∈ seen ∨ P k)

/-- The keys the entries `l` of directory `d` account for: those of its files
among `l`, and those of the files below its folders among `l`. -/
def entryKeys (files : List (List GoString)) (d : List GoString) (l : List Entry)
    (k : GoString) : Prop :=
  (∃ e ∈ l, e.Type_ = EntryTypeFile ∧ k = barePath true (d ++ [e.Name])) ∨
    (∃ e ∈ l, e.Type_ = EntryTypeFolder ∧ keysBelow files (d ++ [e.Name]) k)

/-- Every local file of the walk has a relative path made of plain elements. -/
def PlainWalk (source : GoString) (steps : List WalkStep) : Prop :=
  ∀ w ∈ steps, w.IsDir = false → ∀ rel, Rel source w.path = .ok rel →
    ∃ names, names ≠ [] ∧ (∀ x ∈ names, plainName x = true) ∧ rel = joinSlash names

/-! ## Example inputs -/

/-- A local tree with the files `a.txt` and `sub/b.txt` under `src`; every file opens. -/
def twoFiles : LocalFS where
  Walk := fun _ =>
    [⟨"src".toList, true, none⟩, ⟨"src/a.txt".toList, false, none⟩,
      ⟨"src/sub".toList, true, none⟩, ⟨"src/sub/b.txt".toList, false, none⟩]
  Open := fun p => .ok ⟨p⟩

/-- A local tree whose only file is `a.txt` under `src`; it opens. -/
def oneFile : LocalFS where
  Walk := fun _ => [⟨"src".toList, true, none⟩, ⟨"src/a.txt".toList, false, none⟩]
  Open := fun p => .ok ⟨p⟩

/-- A local tree whose only file is `a/b/c.txt` under `src`; it opens. -/
def deepFile : LocalFS where
  Walk := fun _ =>
    [⟨"src".toList, true, none⟩, ⟨"src/a".toList, true, none⟩,
      ⟨"src/a/b".toList, true, none⟩, ⟨"src/a/b/c.txt".toList, false, none⟩]
  Open := fun p => .ok ⟨p⟩

/-- A table of listings with a nested directory that cannot be entered:
`/site/` lists the file `a.txt` and the folders `pub` and `priv`; `/site/pub`
lists `b.txt`; entering `/site/priv` is refused. -/
def refusedListing (p : GoString) : Except GoError (List Entry) :=
  if p = "/site/".toList then
    .ok [⟨"a.txt".toList, EntryTypeFile⟩, ⟨"pub".toList, EntryTypeFolder⟩,
      ⟨"priv".toList, EntryTypeFolder⟩]
  else if p = "/site/pub".toList then .ok [⟨"b.txt".toList, EntryTypeFile⟩]
  else .error (.errorString "550 Permission denied.".toList)

/-- The reference server holding the empty directory `/site`. -/
def emptySite : Remote := ⟨[["site".toList]], [], []⟩

/-- The reference server holding `/site/a.txt`. -/
def siteWithA : Remote := ⟨[["site".toList]], [["site".toList, "a.txt".toList]], []⟩

/-- The reference server with `/site/a.txt` and `/site/pub/b.txt`. -/
def siteTree : Remote :=
  ⟨[["site".toList], ["site".toList, "pub".toList]],
    [["site".toList, "a.txt".toList], ["site".toList, "pub".toList, "b.txt".toList]], []⟩

/-- The reference server with the sibling directories `/x` (empty) and `/y`
(holding `f.txt`), logged in at the root. -/
def siblings : Remote := ⟨[["x".toList], ["y".toList]], [["y".toList, "f.txt".toList]], []⟩

/-- The reference server with the directories `/x`, `/x/x`, `/x/x/x` and the
file `/x/x/g.txt`, logged in at the root. -/
def xTree : Remote :=
  ⟨[["x".toList], ["x".toList, "x".toList], ["x".toList, "x".toList, "x".toList]],
    [["x".toList, "x".toList, "g.txt".toList]], []⟩

/-- The reference server with the directories `/site/pub`, `/site/pub/deep`
and `/site/deep` and the file `/site/pub/deep/c.txt`, logged in at the root. -/
def nestedTree : Remote :=
  ⟨[["site".toList], ["site".toList, "pub".toList],
      ["site".toList, "pub".toList, "deep".toList], ["site".toList, "deep".toList]],
    [["site".toList, "pub".toList, "deep".toList, "c.txt".toList]], []⟩

/-! ## The call log of a scan -/

theorem logged_ChangeDir {σ : Type} (conn : ServerConn σ) (s : σ) (log : List Call)
    (p : GoString) :
    (logged conn).ChangeDir (s, log) p =
      (((conn.ChangeDir s p).1, log ++ [Call.ChangeDir p (conn.ChangeDir s p).2]),
        (conn.ChangeDir s p).2) := rfl

theorem logged_List {σ : Type} (conn : ServerConn σ) (s : σ) (log : List Call)
    (p : GoString) :
    (logged conn).List (s, log) p =
      (((conn.List s p).1, log ++ [Call.ListDir p (conn.List s p).2]), (conn.List s p).2) := rfl

theorem logged_MakeDir {σ : Type} (conn : ServerConn σ) (s : σ) (log : List Call)
    (p : GoString) :
    (logged conn).MakeDir (s, log) p =
      (((conn.MakeDir s p).1, log ++ [Call.MakeDir p (conn.MakeDir s p).2]),
        (conn.MakeDir s p).2) := rfl

theorem logged_Stor {σ : Type} (conn : ServerConn σ) (s : σ) (log : List Call)
    (p : GoString) (f : File) :
    (logged conn).Stor (s, log) p f =
      (((conn.Stor s p f).1, log ++ [Call.Stor p f (conn.Stor s p f).2]),
        (conn.Stor s p f).2) := rfl

theorem forEntries_scanStep {σ : Type}
    (rec : GoString → (σ × List Call) × SeenMap → ((σ × List Call) × SeenMap) × Ret)
    (hrec : ∀ p, ScanStep (rec p)) (path : GoString) (entries : List Entry) :
    ScanStep (forEntries rec path entries) := by
  induction entries with
  | nil =>
    intro s log seen
    exact ⟨[], by simp [forEntries], by simp, by simp⟩
  | cons entry entries ih =>
    intro s log seen
    unfold forEntries
    by_cases hdot : entry.Name = ".".toList ∨ entry.Name = "..".toList
    · rw [if_pos hdot]; exact ih s log seen
    · rw [if_neg hdot]
      by_cases hfile : entry.Type_ = EntryTypeFile
      · simp only [hfile, if_true]; exact ih s log _
      · simp only [hfile, if_false]
        by_cases hfolder : entry.Type_ = EntryTypeFolder
        · simp only [hfolder, if_true]
          obtain ⟨d1, hd1, hs1, hf1⟩ := hrec (Join path entry.Name) s log seen
          rcases hr : rec (Join path entry.Name) ((s, log), seen) with ⟨⟨⟨s1, log1⟩, seen1⟩, r⟩
          rw [hr] at hd1 hf1
          simp only at hd1 hf1
          cases r with
          | exhausted => exact ⟨d1, hd1, hs1, hf1⟩
          | returned err =>
            cases err with
            | some e => exact ⟨d1, hd1, hs1, hf1⟩
            | none =>
              obtain ⟨d2, hd2, hs2, hf2⟩ := ih s1 log1 seen1
              refine ⟨d1 ++ d2, ?_, ?_, ?_⟩
              · simp only; rw [hd2, hd1, List.append_assoc]
              · intro c hc
                rcases List.mem_append.1 hc with h | h
                · exact hs1 c h
                · exact hs2 c h
              · rintro ⟨c, hc, hfail⟩
                rcases List.mem_append.1 hc with h | h
                · obtain ⟨e, he⟩ := hf1 ⟨c, h, hfail⟩
                  cases he
                · exact hf2 ⟨c, h, hfail⟩
        · simp only [hfolder, if_false]; exact ih s log seen

theorem inorder_scanStep {σ : Type} (conn : ServerConn σ) (dir : GoString) (fuel : Nat) :
    ∀ path, ScanStep (inorder (logged conn) dir fuel path) := by
  induction fuel with
  | zero =>
    intro path s log seen
    exact ⟨[], by simp [inorder], by simp, by simp⟩
  | succ fuel ih =>
    intro path s log seen
    unfold inorder
    simp only [logged_ChangeDir, logged_List]
    rcases hcd : conn.ChangeDir s path with ⟨s1, r⟩
    cases r with
    | some err =>
      exact ⟨[Call.ChangeDir path (some err)], by simp, by simp [Call.isScan], by simp⟩
    | none =>
      simp only [logged_List]
      rcases hls : conn.List s1 ".".toList with ⟨s2, res⟩
      cases res with
      | error err =>
        exact ⟨[Call.ChangeDir path none, Call.ListDir ".".toList (.error err)], by simp,
          by simp [Call.isScan], by simp⟩
      | ok entries =>
        simp only
        obtain ⟨d, hd, hs, hf⟩ := forEntries_scanStep (inorder (logged conn) dir fuel) ih path
          entries s2 (log ++ [Call.ChangeDir path none] ++ [Call.ListDir ".".toList (.ok entries)])
          seen
        refine ⟨[Call.ChangeDir path none, Call.ListDir ".".toList (.ok entries)] ++ d, ?_, ?_, ?_⟩
        · rw [hd]; simp
        · intro c hc
          rcases List.mem_append.1 hc with h | h
          · simp at h; rcases h with h | h <;> simp [h, Call.isScan]
          · exact hs c h
        · rintro ⟨c, hc, hfail⟩
          rcases List.mem_append.1 hc with h | h
          · simp at h; rcases h with h | h <;> simp [h, Call.scanFailed] at hfail
          · exact hf ⟨c, h, hfail⟩

/-! ## Scan failures (C6) -/

/-- C6 (scan fail-fast): if any `ChangeDir` or `List` call of the scan fails, at
whatever depth, `traverse` returns an error together with the nil map (it does
return: the budget is not what ends it), and the run ends in `fatal` with exit
status 1, `uploaded = 0` and not a single `MakeDir` or `Stor` call. -/
theorem scan_failure_aborts {σ : Type} (conn : ServerConn σ) (lfs : LocalFS) (fuel : Nat)
    (source dest : GoString) (s : σ)
    (h : ∃ c ∈ (traverse (logged conn) fuel (normDest dest) (s, [])).1.2,
      c.scanFailed = true) :
    (∃ err, (traverse (logged conn) fuel (normDest dest) (s, [])).2 = some (none, some err)) ∧
    (main (logged conn) lfs fuel source dest (s, [])).status = .exit1 ∧
    (main (logged conn) lfs fuel source dest (s, [])).uploaded = 0 ∧
    ∀ c ∈ (main (logged conn) lfs fuel source dest (s, [])).conn.2,
      c.isMakeDir = false ∧ c.isStor = false := by
  obtain ⟨d, hd, hs, hf⟩ :=
    inorder_scanStep conn (normDest dest) fuel (normDest dest) s [] []
  have hlog : (traverse (logged conn) fuel (normDest dest) (s, [])).1.2 = d := by
    unfold traverse
    rcases hr : inorder (logged conn) (normDest dest) fuel (normDest dest) ((s, []), [])
      with ⟨⟨⟨s1, log1⟩, seen1⟩, r⟩
    rw [hr] at hd
    simp only [List.nil_append] at hd
    rcases r with (_ | e) | _ <;> simpa using hd
  rw [hlog] at h
  obtain ⟨e, he⟩ := hf h
  have htr : traverse (logged conn) fuel (normDest dest) (s, []) =
      ((inorder (logged conn) (normDest dest) fuel (normDest dest) ((s, []), [])).1.1,
        some (none, some e)) := by
    unfold traverse
    rcases hr : inorder (logged conn) (normDest dest) fuel (normDest dest) ((s, []), [])
      with ⟨st, r⟩
    rw [hr] at he
    simp only at he
    subst he
    rfl
  have hmain : main (logged conn) lfs fuel source dest (s, []) =
      fatal ⟨(inorder (logged conn) (normDest dest) fuel (normDest dest) ((s, []), [])).1.1,
        ["scanning...".toList], 0⟩ e := by
    unfold main
    simp only [htr]
  refine ⟨⟨e, by rw [htr]⟩, by rw [hmain]; rfl, by rw [hmain]; rfl, ?_⟩
  intro c hc
  rw [hmain] at hc
  simp only [fatal] at hc
  have hd2 : (inorder (logged conn) (normDest dest) fuel (normDest dest) ((s, []), [])).1.1.2 = d := by
    simpa using hd
  rw [hd2] at hc
  have := hs c hc
  cases c <;> simp_all [Call.isScan, Call.isMakeDir, Call.isStor]

set_option maxRecDepth 100000 in
/-- C6 at a concrete run: the nested directory `/site/priv` cannot be entered
after `/site/` and `/site/pub` were listed. -/
theorem scan_failure_aborts_witness :
    (∃ c ∈ (traverse (logged (pathServer refusedListing)) 5 (normDest "/site".toList)
        (none, [])).1.2, c.scanFailed = true) ∧
    ((∃ err, (traverse (logged (pathServer refusedListing)) 5 (normDest "/site".toList)
        (none, [])).2 = some (none, some err)) ∧
    (main (logged (pathServer refusedListing)) twoFiles 5 "src".toList "/site".toList
        (none, [])).status = .exit1 ∧
    (main (logged (pathServer refusedListing)) twoFiles 5 "src".toList "/site".toList
        (none, [])).uploaded = 0 ∧
    ∀ c ∈ (main (logged (pathServer refusedListing)) twoFiles 5 "src".toList "/site".toList
        (none, [])).conn.2, c.isMakeDir = false ∧ c.isStor = false) :=
  ⟨by decide, scan_failure_aborts (pathServer refusedListing) twoFiles 5 "src".toList
    "/site".toList none (by decide)⟩

/-! ## The call log of the uploads -/

theorem upload_logged {σ : Type} (conn : ServerConn σ) (lfs : LocalFS)
    (lp rp : GoString) (s : σ) (log : List Call) :
    ∃ d, (upload (logged conn) lfs lp rp (s, log)).1.2 = log ++ d ∧
      UploadShape rp d (upload (logged conn) lfs lp rp (s, log)).2 := by
  unfold upload
  cases hopen : lfs.Open lp with
  | error err => exact ⟨[], by simp, Or.inl ⟨rfl, by simp⟩⟩
  | ok file =>
    simp only [logged_MakeDir]
    rcases hmk : conn.MakeDir s (Dir rp) with ⟨s1, m⟩
    simp only
    cases hfil : Option.filter (fun e => decide (e.Error ≠ "550 Already exists".toList)) m with
    | some e =>
      refine ⟨[Call.MakeDir (Dir rp) m], by simp, Or.inr (Or.inl ⟨e, ?_, ?_, by simp⟩)⟩
      · cases m with
        | none => simp at hfil
        | some e2 =>
          simp only [Option.filter] at hfil
          split at hfil
          · cases hfil; rfl
          · cases hfil
      · cases m with
        | none => simp at hfil
        | some e2 =>
          simp only [Option.filter] at hfil
          split at hfil
          · rename_i h; cases hfil; simpa using h
          · cases hfil
    | none =>
      have hm : (Call.MakeDir (Dir rp) m).aborting = false := by
        cases m with
        | none => rfl
        | some e2 =>
          simp only [Option.filter] at hfil
          split at hfil
          · cases hfil
          · rename_i h; simpa [Call.aborting] using h
      simp only [logged_Stor]
      rcases hst : conn.Stor s1 rp file with ⟨s2, r⟩
      cases r with
      | some e2 =>
        exact ⟨[Call.MakeDir (Dir rp) m, Call.Stor rp file (some e2)], by simp,
          Or.inr (Or.inr (Or.inl ⟨m, file, e2, rfl, hm, by simp⟩))⟩
      | none =>
        exact ⟨[Call.MakeDir (Dir rp) m, Call.Stor rp file none], by simp,
          Or.inr (Or.inr (Or.inr ⟨m, file, rfl, hm, rfl⟩))⟩

theorem missingPaths_cons (source dest : GoString) (seen : SeenMap) (w : WalkStep)
    (ws : List WalkStep) :
    missingPaths source dest seen (w :: ws) =
      missingPaths source dest seen [w] ++ missingPaths source dest seen ws := by
  unfold missingPaths
  rw [← List.filter_append, ← List.filterMap_append]
  rfl

theorem walkFn_logged {σ : Type} (conn : ServerConn σ) (lfs : LocalFS)
    (source dest : GoString) (seen : SeenMap) (w : WalkStep) (s : σ) (log : List Call)
    (out : List GoString) (n : Nat) :
    ∃ d, (walkFn (logged conn) lfs source dest seen w ⟨(s, log), out, n⟩).1.conn.2 = log ++ d ∧
      (((walkFn (logged conn) lfs source dest seen w ⟨(s, log), out, n⟩).2 = none ∧ d = [] ∧
          missingPaths source dest seen [w] = [] ∧
          (walkFn (logged conn) lfs source dest seen w ⟨(s, log), out, n⟩).1.stdout = out ∧
          (walkFn (logged conn) lfs source dest seen w ⟨(s, log), out, n⟩).1.uploaded = n ∧
          w.err = none ∧ (w.IsDir = false → ∃ rel, Rel source w.path = .ok rel)) ∨
       ((walkFn (logged conn) lfs source dest seen w ⟨(s, log), out, n⟩).2 = none ∧
          ∃ rp m f, d = [Call.MakeDir (Dir rp) m, Call.Stor rp f none] ∧
          (Call.MakeDir (Dir rp) m).aborting = false ∧
          missingPaths source dest seen [w] = [rp] ∧
          (walkFn (logged conn) lfs source dest seen w ⟨(s, log), out, n⟩).1.stdout =
            out ++ [rp] ∧
          (walkFn (logged conn) lfs source dest seen w ⟨(s, log), out, n⟩).1.uploaded = n + 1 ∧
          w.err = none ∧ ∃ rel, Rel source w.path = .ok rel) ∨
       ((walkFn (logged conn) lfs source dest seen w ⟨(s, log), out, n⟩).2 ≠ none ∧
          (walkFn (logged conn) lfs source dest seen w ⟨(s, log), out, n⟩).1.stdout = out ∧
          (walkFn (logged conn) lfs source dest seen w ⟨(s, log), out, n⟩).1.uploaded = n ∧
          okStors d = [] ∧ (∀ c ∈ d, c.isScan = false) ∧
          (∀ c ∈ d.dropLast, c.aborting = false))) := by
  unfold walkFn
  cases herr : w.err with
  | some err =>
    exact ⟨[], by simp, Or.inr (Or.inr ⟨by simp, rfl, rfl, rfl, by simp, by simp⟩)⟩
  | none =>
    simp only
    cases hdir : w.IsDir with
    | true =>
      refine ⟨[], by simp, Or.inl ⟨by simp, rfl, ?_, by simp, by simp, trivial, by simp⟩⟩
      simp [missingPaths, mappedPath, hdir]
    | false =>
      simp only [Bool.not_false, if_true]
      cases hrel : Rel source w.path with
      | error e =>
        exact ⟨[], by simp, Or.inr (Or.inr ⟨by simp, rfl, rfl, rfl, by simp, by simp⟩)⟩
      | ok rel =>
        simp only
        by_cases hmem : dest ++ rel ∈ seen
        · refine ⟨[], by simp [hmem], Or.inl ⟨by simp [hmem], rfl, ?_, by simp [hmem],
            by simp [hmem], trivial, fun _ => ⟨rel, rfl⟩⟩⟩
          simp [missingPaths, mappedPath, hdir, hrel, hmem]
        · simp only [hmem, not_false_eq_true, if_true]
          have hmiss : missingPaths source dest seen [w] = [dest ++ rel] := by
            simp [missingPaths, mappedPath, hdir, hrel, hmem]
          obtain ⟨d, hd, hshape⟩ := upload_logged conn lfs w.path (dest ++ rel) s log
          rcases hu : upload (logged conn) lfs w.path (dest ++ rel) (s, log) with ⟨⟨s1, log1⟩, r⟩
          rw [hu] at hd hshape
          simp only at hd hshape
          refine ⟨d, ?_, ?_⟩
          · cases r <;> simpa using hd
          · rcases hshape with ⟨hd0, hr⟩ | ⟨e, hd0, hbad, hr⟩ | ⟨m, f, e, hd0, hm, hr⟩ |
              ⟨m, f, hd0, hm, hr⟩
            · cases r with
              | none => exact absurd rfl hr
              | some e =>
                exact Or.inr (Or.inr ⟨by simp, rfl, rfl, by simp [hd0, okStors],
                  by simp [hd0], by simp [hd0]⟩)
            · cases r with
              | none => exact absurd rfl hr
              | some e2 =>
                exact Or.inr (Or.inr ⟨by simp, rfl, rfl,
                  by simp [hd0, okStors, Call.storedPath], by simp [hd0, Call.isScan],
                  by simp [hd0]⟩)
            · cases r with
              | none => exact absurd rfl hr
              | some e2 =>
                refine Or.inr (Or.inr ⟨by simp, rfl, rfl,
                  by simp [hd0, okStors, Call.storedPath], by simp [hd0, Call.isScan], ?_⟩)
                simpa [hd0] using hm
            · subst hr
              exact Or.inr (Or.inl ⟨rfl, dest ++ rel, m, f, hd0, hm, hmiss, rfl, rfl, trivial,
                rel, rfl⟩)

theorem mem_dropLast_append {α : Type} (a b : List α) (c : α)
    (h : c ∈ (a ++ b).dropLast) : c ∈ a ∨ c ∈ b.dropLast := by
  by_cases hb : b = []
  · subst hb
    rw [List.append_nil] at h
    exact Or.inl (List.mem_of_mem_dropLast h)
  · rw [List.dropLast_append_of_ne_nil a hb] at h
    exact List.mem_append.1 h

theorem walk_logged {σ : Type} (conn : ServerConn σ) (lfs : LocalFS)
    (source dest : GoString) (seen : SeenMap) (steps : List WalkStep) :
    ∀ (s : σ) (log : List Call) (out : List GoString) (n : Nat), ∃ d,
      (WalkDir (walkFn (logged conn) lfs source dest seen) steps ⟨(s, log), out, n⟩).1.conn.2 =
        log ++ d ∧
      (WalkDir (walkFn (logged conn) lfs source dest seen) steps ⟨(s, log), out, n⟩).1.stdout =
        out ++ okStors d ∧
      (WalkDir (walkFn (logged conn) lfs source dest seen) steps ⟨(s, log), out, n⟩).1.uploaded =
        n + (okStors d).length ∧
      (∀ c ∈ d, c.isScan = false) ∧
      (∀ c ∈ d.dropLast, c.aborting = false) ∧
      ((∃ c ∈ d, c.aborting = true) →
        (WalkDir (walkFn (logged conn) lfs source dest seen) steps ⟨(s, log), out, n⟩).2 ≠
          none) ∧
      ((WalkDir (walkFn (logged conn) lfs source dest seen) steps ⟨(s, log), out, n⟩).2 = none →
        d.map Call.req = (missingPaths source dest seen steps).flatMap uploadReqs ∧
        okStors d = missingPaths source dest seen steps ∧
        (∀ c ∈ d, c.aborting = false) ∧
        ∀ w ∈ steps, w.err = none ∧ (w.IsDir = false → ∃ rel, Rel source w.path = .ok rel)) := by
  induction steps with
  | nil =>
    intro s log out n
    exact ⟨[], by simp [WalkDir], by simp [WalkDir, okStors], by simp [WalkDir, okStors],
      by simp, by simp, by simp, by simp [missingPaths, okStors]⟩
  | cons w ws ih =>
    intro s log out n
    obtain ⟨d1, hd1, hcase⟩ := walkFn_logged conn lfs source dest seen w s log out n
    unfold WalkDir
    rcases hw : walkFn (logged conn) lfs source dest seen w ⟨(s, log), out, n⟩
      with ⟨⟨⟨s1, log1⟩, out1, n1⟩, r1⟩
    rw [hw] at hd1 hcase
    simp only at hd1 hcase
    rw [missingPaths_cons]
    rcases hcase with ⟨hr, hd0, hmiss, hout, hn, herr, hrel⟩ |
      ⟨hr, rp, m, f, hd0, hm, hmiss, hout, hn, herr, hrel⟩ | ⟨hr, hout, hn, hok, hscan, hdl⟩
    · subst hr hd0
      rw [List.append_nil] at hd1
      simp only [hd1, hout, hn, hmiss, List.nil_append]
      obtain ⟨d, h1, h2, h3, h4, h5, h6, h7⟩ := ih s1 log out n
      refine ⟨d, h1, h2, h3, h4, h5, h6, ?_⟩
      intro hnone
      obtain ⟨g1, g2, g3, g4⟩ := h7 hnone
      refine ⟨g1, g2, g3, ?_⟩
      intro w2 hw2
      rcases List.mem_cons.1 hw2 with h | h
      · subst h; exact ⟨herr, hrel⟩
      · exact g4 w2 h
    · subst hr
      simp only [hd1, hout, hn, hmiss]
      obtain ⟨d, h1, h2, h3, h4, h5, h6, h7⟩ := ih s1 (log ++ d1) (out ++ [rp]) (n + 1)
      have hok1 : okStors d1 = [rp] := by simp [hd0, okStors, Call.storedPath]
      have hab1 : ∀ c ∈ d1, c.aborting = false := by
        intro c hc
        rw [hd0] at hc
        simp only [List.mem_cons, List.mem_singleton, List.not_mem_nil, or_false] at hc
        rcases hc with h | h
        · rw [h]; exact hm
        · rw [h]; rfl
      have hsc1 : ∀ c ∈ d1, c.isScan = false := by
        intro c hc
        rw [hd0] at hc
        simp only [List.mem_cons, List.mem_singleton, List.not_mem_nil, or_false] at hc
        rcases hc with h | h <;> rw [h] <;> rfl
      refine ⟨d1 ++ d, ?_, ?_, ?_, ?_, ?_, ?_, ?_⟩
      · rw [h1, List.append_assoc]
      · rw [h2]
        have : okStors (d1 ++ d) = [rp] ++ okStors d := by
          rw [← hok1]; simp [okStors]
        rw [this, List.append_assoc]
      · rw [h3]
        have : okStors (d1 ++ d) = [rp] ++ okStors d := by
          rw [← hok1]; simp [okStors]
        rw [this]; simp; omega
      · intro c hc
        rcases List.mem_append.1 hc with h | h
        · exact hsc1 c h
        · exact h4 c h
      · intro c hc
        rcases mem_dropLast_append _ _ _ hc with h | h
        · exact hab1 c h
        · exact h5 c h
      · rintro ⟨c, hc, hbad⟩
        rcases List.mem_append.1 hc with h | h
        · rw [hab1 c h] at hbad; cases hbad
        · exact h6 ⟨c, h, hbad⟩
      · intro hnone
        obtain ⟨g1, g2, g3, g4⟩ := h7 hnone
        refine ⟨?_, ?_, ?_, ?_⟩
        · rw [List.map_append, g1, hd0]; simp [uploadReqs, Call.req]
        · have : okStors (d1 ++ d) = [rp] ++ okStors d := by
            rw [← hok1]; simp [okStors]
          rw [this, g2]
        · intro c hc
          rcases List.mem_append.1 hc with h | h
          · exact hab1 c h
          · exact g3 c h
        · intro w2 hw2
          rcases List.mem_cons.1 hw2 with h | h
          · subst h; exact ⟨herr, fun _ => hrel⟩
          · exact g4 w2 h
    · cases r1 with
      | none => exact absurd rfl hr
      | some e =>
        simp only [hd1, hout, hn]
        refine ⟨d1, rfl, by simp [hok], by simp [hok], hscan, hdl, by simp, by simp⟩

/-! ## The whole run -/

theorem traverse_scanLog {σ : Type} (conn : ServerConn σ) (fuel : Nat) (dir : GoString)
    (s : σ) : ∀ c ∈ (traverse (logged conn) fuel dir (s, [])).1.2, c.isScan = true := by
  obtain ⟨d, hd, hs, -⟩ := inorder_scanStep conn dir fuel dir s [] []
  unfold traverse
  rcases hr : inorder (logged conn) dir fuel dir ((s, []), []) with ⟨⟨⟨s1, log1⟩, seen1⟩, r⟩
  rw [hr] at hd
  simp only [List.nil_append] at hd
  subst hd
  rcases r with (_ | e) | _ <;> exact hs

theorem okStors_scanLog (log : List Call) (h : ∀ c ∈ log, c.isScan = true) :
    okStors log = [] := by
  induction log with
  | nil => rfl
  | cons c cs ih =>
    have hc := h c (List.mem_cons_self _ _)
    have := ih (fun x hx => h x (List.mem_cons_of_mem _ hx))
    cases c <;> simp_all [okStors, Call.isScan, Call.storedPath]

theorem okStors_append (a b : List Call) : okStors (a ++ b) = okStors a ++ okStors b := by
  simp [okStors]

theorem main_of_exhausted {σ : Type} (conn : ServerConn σ) (lfs : LocalFS) (fuel : Nat)
    (source dest : GoString) (s s1 : σ)
    (h : traverse conn fuel (normDest dest) s = (s1, none)) :
    main conn lfs fuel source dest s = ⟨s1, ["scanning...".toList], [], 0, .exhausted⟩ := by
  unfold main
  simp only [h]

theorem main_of_scanError {σ : Type} (conn : ServerConn σ) (lfs : LocalFS) (fuel : Nat)
    (source dest : GoString) (s s1 : σ) (m : Option SeenMap) (e : GoError)
    (h : traverse conn fuel (normDest dest) s = (s1, some (m, some e))) :
    main conn lfs fuel source dest s = fatal ⟨s1, ["scanning...".toList], 0⟩ e := by
  unfold main
  simp only [h]

theorem main_of_walkError {σ : Type} (conn : ServerConn σ) (lfs : LocalFS) (fuel : Nat)
    (source dest : GoString) (s s1 : σ) (m : Option SeenMap) (p : Progress σ) (e : GoError)
    (h : traverse conn fuel (normDest dest) s = (s1, some (m, none)))
    (hw : WalkDir (walkFn conn lfs source (normDest dest) (m.getD [])) (lfs.Walk source)
      ⟨s1, ["scanning...".toList], 0⟩ = (p, some e)) :
    main conn lfs fuel source dest s = fatal p e := by
  unfold main
  simp only [h, hw]

theorem main_of_walked {σ : Type} (conn : ServerConn σ) (lfs : LocalFS) (fuel : Nat)
    (source dest : GoString) (s s1 : σ) (m : Option SeenMap) (p : Progress σ)
    (h : traverse conn fuel (normDest dest) s = (s1, some (m, none)))
    (hw : WalkDir (walkFn conn lfs source (normDest dest) (m.getD [])) (lfs.Walk source)
      ⟨s1, ["scanning...".toList], 0⟩ = (p, none)) :
    main conn lfs fuel source dest s =
      if p.uploaded = 0 then
        ⟨p.conn, p.stdout ++ ["no changes".toList], [], p.uploaded, .exit0⟩
      else ⟨p.conn, p.stdout, [], p.uploaded, .exit0⟩ := by
  unfold main
  simp only [h, hw]

/-- C10 (standard output): in every run the output is the line `scanning...`,
then the remote paths of the `Stor` calls that succeeded, in call order (so a
path is printed only once its own `Stor` has succeeded, and a run that is cut
short has printed exactly the paths stored so far), then the line `no changes`
exactly when the run completed with `uploaded = 0`; `uploaded` is the number of
paths printed. -/
theorem stdout_contract {σ : Type} (conn : ServerConn σ) (lfs : LocalFS) (fuel : Nat)
    (source dest : GoString) (s : σ) :
    (main (logged conn) lfs fuel source dest (s, [])).stdout =
      ["scanning...".toList] ++
        okStors (main (logged conn) lfs fuel source dest (s, [])).conn.2 ++
        (if (main (logged conn) lfs fuel source dest (s, [])).status = .exit0 ∧
            (main (logged conn) lfs fuel source dest (s, [])).uploaded = 0
          then ["no changes".toList] else []) ∧
    (main (logged conn) lfs fuel source dest (s, [])).uploaded =
      (okStors (main (logged conn) lfs fuel source dest (s, [])).conn.2).length := by
  have hscan := traverse_scanLog conn fuel (normDest dest) s
  rcases ht : traverse (logged conn) fuel (normDest dest) (s, []) with ⟨⟨s1, log1⟩, res⟩
  rw [ht] at hscan
  simp only at hscan
  have hok := okStors_scanLog log1 hscan
  rcases res with _ | ⟨seen, _ | e⟩
  · rw [main_of_exhausted _ _ _ _ _ _ _ ht]
    simp [hok]
  · obtain ⟨d, h1, h2, h3, -⟩ := walk_logged conn lfs source (normDest dest) (seen.getD [])
      (lfs.Walk source) s1 log1 ["scanning...".toList] 0
    rcases hw : WalkDir (walkFn (logged conn) lfs source (normDest dest) (seen.getD []))
      (lfs.Walk source) ⟨(s1, log1), ["scanning...".toList], 0⟩ with ⟨⟨⟨s2, log2⟩, out2, n2⟩, r⟩
    rw [hw] at h1 h2 h3
    simp only at h1 h2 h3
    subst h1 h2 h3
    cases r with
    | some err =>
      rw [main_of_walkError _ _ _ _ _ _ _ _ _ _ ht hw]
      simp [fatal, okStors_append, hok]
    | none =>
      rw [main_of_walked _ _ _ _ _ _ _ _ _ ht hw]
      have hcat : okStors (log1 ++ d) = okStors d := by rw [okStors_append, hok]; rfl
      by_cases hz : (okStors d).length = 0
      · simp [hz, hcat]
      · simp [hz, hcat]
  · rw [main_of_scanError _ _ _ _ _ _ _ _ _ ht]
    simp [fatal, hok]

theorem traverse_map_of_ok {σ : Type} (conn : ServerConn σ) (fuel : Nat) (dir : GoString)
    (s s1 : σ) (m : Option SeenMap)
    (h : traverse conn fuel dir s = (s1, some (m, none))) : ∃ seen, m = some seen := by
  unfold traverse at h
  rcases hr : inorder conn dir fuel dir (s, []) with ⟨st, r⟩
  rw [hr] at h
  rcases r with (_ | e) | _
  · simp only [Prod.mk.injEq, Option.some.injEq] at h
    exact ⟨st.2, h.2.1.symm⟩
  · simp at h
  · simp at h

/-! ## The diff (C3) -/

theorem upload_unfailed {σ : Type} (conn : ServerConn σ) (lfs : LocalFS)
    (lp rp : GoString) (s : σ) (log : List Call) (file : File)
    (hopen : lfs.Open lp = .ok file)
    (hc : ∀ c ∈ (upload (logged conn) lfs lp rp (s, log)).1.2, c.failed = false) :
    (upload (logged conn) lfs lp rp (s, log)).2 = none ∧
    (upload (logged conn) lfs lp rp (s, log)).1.2 =
      log ++ [Call.MakeDir (Dir rp) none, Call.Stor rp file none] := by
  unfold upload at hc ⊢
  simp only [hopen, logged_MakeDir] at hc ⊢
  rcases hmk : conn.MakeDir s (Dir rp) with ⟨s1, m⟩
  rw [hmk] at hc
  simp only at hc ⊢
  cases m with
  | some e =>
    exfalso
    by_cases he : e.Error = "550 Already exists".toList
    · simp only [Option.filter, he, ne_eq, not_true_eq_false, decide_False,
        Bool.false_eq_true, if_false, logged_Stor] at hc
      have := hc (Call.MakeDir (Dir rp) (some e)) (by
        rcases conn.Stor s1 rp file with ⟨s2, r⟩
        cases r <;> simp)
      simp [Call.failed] at this
    · simp only [Option.filter, he, ne_eq, not_false_eq_true, decide_True, if_true] at hc
      have := hc (Call.MakeDir (Dir rp) (some e)) (by simp)
      simp [Call.failed] at this
  | none =>
    simp only [Option.filter, logged_Stor] at hc ⊢
    rcases hst : conn.Stor s1 rp file with ⟨s2, r⟩
    rw [hst] at hc
    simp only at hc ⊢
    cases r with
    | some e =>
      exfalso
      have := hc (Call.Stor rp file (some e)) (by simp)
      simp [Call.failed] at this
    | none => simp

theorem walk_complete {σ : Type} (conn : ServerConn σ) (lfs : LocalFS)
    (source dest : GoString) (seen : SeenMap) (steps : List WalkStep) :
    ∀ (s : σ) (log : List Call) (out : List GoString) (n : Nat),
      (∀ w ∈ steps, localFailure lfs source dest seen w = false) →
      (∀ c ∈ (WalkDir (walkFn (logged conn) lfs source dest seen) steps
          ⟨(s, log), out, n⟩).1.conn.2, c.failed = false) →
      (WalkDir (walkFn (logged conn) lfs source dest seen) steps ⟨(s, log), out, n⟩).2 = none ∧
      (WalkDir (walkFn (logged conn) lfs source dest seen) steps ⟨(s, log), out, n⟩).1.conn.2 =
        log ++ steps.flatMap (expectedCalls lfs source dest seen) := by
  induction steps with
  | nil => intro s log out n _ _; simp [WalkDir]
  | cons w ws ih =>
    intro s log out n hl hc
    have hw := hl w (List.mem_cons_self _ _)
    have hl2 : ∀ w2 ∈ ws, localFailure lfs source dest seen w2 = false :=
      fun w2 h2 => hl w2 (List.mem_cons_of_mem _ h2)
    unfold localFailure at hw
    simp only [Bool.or_eq_false_iff, Bool.and_eq_false_imp, Bool.not_eq_true'] at hw
    obtain ⟨herr0, hfile⟩ := hw
    have herr : w.err = none := by
      cases h : w.err with
      | none => rfl
      | some e => rw [h] at herr0; cases herr0
    rw [List.flatMap_cons]
    unfold WalkDir at hc ⊢
    cases hdir : w.IsDir with
    | true =>
      have hstep : walkFn (logged conn) lfs source dest seen w ⟨(s, log), out, n⟩ =
          (⟨(s, log), out, n⟩, none) := by
        unfold walkFn; simp [herr, hdir]
      have hexp : expectedCalls lfs source dest seen w = [] := by
        simp [expectedCalls, mappedPath, hdir]
      rw [hstep] at hc ⊢
      rw [hexp, List.nil_append]
      exact ih s log out n hl2 hc
    | false =>
      have hf := hfile hdir
      cases hrel : Rel source w.path with
      | error e => rw [hrel] at hf; simp at hf
      | ok rel =>
        rw [hrel] at hf
        simp only [Bool.and_eq_false_imp, decide_eq_true_eq] at hf
        by_cases hmem : dest ++ rel ∈ seen
        · have hstep : walkFn (logged conn) lfs source dest seen w ⟨(s, log), out, n⟩ =
              (⟨(s, log), out, n⟩, none) := by
            unfold walkFn; simp [herr, hdir, hrel, hmem]
          have hexp : expectedCalls lfs source dest seen w = [] := by
            unfold expectedCalls
            simp only [mappedPath, hdir, hrel]
            cases lfs.Open w.path <;> simp [hmem]
          rw [hstep] at hc ⊢
          rw [hexp, List.nil_append]
          exact ih s log out n hl2 hc
        · have hf2 := hf hmem
          cases hopen : lfs.Open w.path with
          | error e => rw [hopen] at hf2; simp at hf2
          | ok file =>
            have hexp : expectedCalls lfs source dest seen w =
                [Call.MakeDir (Dir (dest ++ rel)) none, Call.Stor (dest ++ rel) file none] := by
              simp [expectedCalls, mappedPath, hdir, hrel, hopen, hmem]
            have hup := upload_unfailed conn lfs w.path (dest ++ rel) s log file hopen
            rcases hu : upload (logged conn) lfs w.path (dest ++ rel) (s, log)
              with ⟨⟨s1, log1⟩, r⟩
            rw [hu] at hup
            simp only at hup
            cases r with
            | some e =>
              have hstep : walkFn (logged conn) lfs source dest seen w ⟨(s, log), out, n⟩ =
                  (⟨(s1, log1), out, n⟩, some e) := by
                unfold walkFn; simp [herr, hdir, hrel, hmem, hu]
              rw [hstep] at hc
              simp only at hc
              have := (hup hc).1
              cases this
            | none =>
              have hstep : walkFn (logged conn) lfs source dest seen w ⟨(s, log), out, n⟩ =
                  (⟨(s1, log1), out ++ [dest ++ rel], n + 1⟩, none) := by
                unfold walkFn; simp [herr, hdir, hrel, hmem, hu]
              rw [hstep] at hc ⊢
              simp only at hc ⊢
              obtain ⟨d, hd, -⟩ := walk_logged conn lfs source dest seen ws s1 log1
                (out ++ [dest ++ rel]) (n + 1)
              have hc1 : ∀ c ∈ log1, c.failed = false := by
                intro c hcm
                apply hc
                rw [hd]
                exact List.mem_append_left _ hcm
              obtain ⟨-, hlog1⟩ := hup hc1
              obtain ⟨i1, i2⟩ := ih s1 log1 (out ++ [dest ++ rel]) (n + 1) hl2 hc
              refine ⟨i1, ?_⟩
              rw [i2, hlog1, hexp, List.append_assoc]

theorem forEntries_error_failed {σ : Type}
    (rec : GoString → (σ × List Call) × SeenMap → ((σ × List Call) × SeenMap) × Ret)
    (hrec : ∀ p st e, (rec p st).2 = .returned (some e) →
      ∃ c ∈ (rec p st).1.1.2, c.scanFailed = true)
    (path : GoString) (l : List Entry) :
    ∀ st e, (forEntries rec path l st).2 = .returned (some e) →
      ∃ c ∈ (forEntries rec path l st).1.1.2, c.scanFailed = true := by
  induction l with
  | nil => intro st e h; simp [forEntries] at h
  | cons entry l ih =>
    intro st e h
    unfold forEntries at h ⊢
    by_cases hdot : entry.Name = ".".toList ∨ entry.Name = "..".toList
    · rw [if_pos hdot] at h ⊢; exact ih _ _ h
    · rw [if_neg hdot] at h ⊢
      by_cases hfile : entry.Type_ = EntryTypeFile
      · simp only [hfile, if_true] at h ⊢; exact ih _ _ h
      · simp only [hfile, if_false] at h ⊢
        by_cases hfolder : entry.Type_ = EntryTypeFolder
        · simp only [hfolder, if_true] at h ⊢
          have hr := hrec (Join path entry.Name) st
          rcases hrc : rec (Join path entry.Name) st with ⟨st1, ret⟩
          rw [hrc] at h hr
          simp only at h hr ⊢
          cases ret with
          | exhausted => simp at h
          | returned err =>
            cases err with
            | some e2 => exact hr e2 rfl
            | none => simp only at h ⊢; exact ih _ _ h
        · simp only [hfolder, if_false] at h ⊢; exact ih _ _ h

theorem inorder_error_failed {σ : Type} (conn : ServerConn σ) (dir : GoString) (fuel : Nat) :
    ∀ path st e, (inorder (logged conn) dir fuel path st).2 = .returned (some e) →
      ∃ c ∈ (inorder (logged conn) dir fuel path st).1.1.2, c.scanFailed = true := by
  induction fuel with
  | zero => intro path st e h; simp [inorder] at h
  | succ fuel ih =>
    intro path st e h
    obtain ⟨⟨s, log⟩, seen⟩ := st
    unfold inorder at h ⊢
    simp only [logged_ChangeDir] at h ⊢
    rcases hcd : conn.ChangeDir s path with ⟨s1, r⟩
    rw [hcd] at h
    simp only at h ⊢
    cases r with
    | some err => exact ⟨Call.ChangeDir path (some err), by simp, rfl⟩
    | none =>
      simp only [logged_List] at h ⊢
      rcases hls : conn.List s1 ".".toList with ⟨s2, res⟩
      rw [hls] at h
      simp only at h ⊢
      cases res with
      | error err => exact ⟨Call.ListDir ".".toList (.error err), by simp, rfl⟩
      | ok entries =>
        simp only at h ⊢
        exact forEntries_error_failed (inorder (logged conn) dir fuel) ih path entries _ _ h

theorem forEntries_budget {σ : Type}
    (rec1 rec2 : GoString → σ × SeenMap → (σ × SeenMap) × Ret)
    (hrec : ∀ p st, (rec1 p st).2 ≠ .exhausted → rec2 p st = rec1 p st)
    (path : GoString) (l : List Entry) :
    ∀ st, (forEntries rec1 path l st).2 ≠ .exhausted →
      forEntries rec2 path l st = forEntries rec1 path l st := by
  induction l with
  | nil => intro st _; simp [forEntries]
  | cons entry l ih =>
    intro st h
    unfold forEntries at h ⊢
    by_cases hdot : entry.Name = ".".toList ∨ entry.Name = "..".toList
    · simp only [hdot, if_true] at h ⊢; exact ih _ h
    · simp only [hdot, if_false] at h ⊢
      by_cases hfile : entry.Type_ = EntryTypeFile
      · simp only [hfile, if_true] at h ⊢; exact ih _ h
      · simp only [hfile, if_false] at h ⊢
        by_cases hfolder : entry.Type_ = EntryTypeFolder
        · simp only [hfolder, if_true] at h ⊢
          have hr := hrec (Join path entry.Name) st
          rcases hrc : rec1 (Join path entry.Name) st with ⟨st1, ret⟩
          rw [hrc] at h hr
          simp only at h hr
          cases ret with
          | exhausted => exact absurd rfl h
          | returned err =>
            rw [hr (by simp)]
            cases err with
            | some e2 => rfl
            | none => simp only at h ⊢; exact ih _ h
        · simp only [hfolder, if_false] at h ⊢; exact ih _ h

theorem inorder_budget {σ : Type} (conn : ServerConn σ) (dir : GoString) (fuel k : Nat) :
    ∀ path st, (inorder conn dir fuel path st).2 ≠ .exhausted →
      inorder conn dir (fuel + k) path st = inorder conn dir fuel path st := by
  induction fuel with
  | zero => intro path st h; simp [inorder] at h
  | succ fuel ih =>
    intro path st h
    have hk : fuel + 1 + k = (fuel + k) + 1 := by omega
    rw [hk]
    unfold inorder at h ⊢
    rcases hcd : conn.ChangeDir st.1 path with ⟨s1, r⟩
    cases r with
    | some err => simp only [hcd]
    | none =>
      simp only [hcd] at h ⊢
      rcases hls : conn.List s1 ".".toList with ⟨s2, res⟩
      cases res with
      | error err => simp only [hls]
      | ok entries =>
        simp only [hls] at h ⊢
        exact forEntries_budget (inorder conn dir fuel) (inorder conn dir (fuel + k)) ih path
          entries _ h

theorem traverse_budget {σ : Type} (conn : ServerConn σ) (fuel0 fuel : Nat) (dir : GoString)
    (s : σ) (hle : fuel0 ≤ fuel) (h : (traverse conn fuel0 dir s).2 ≠ none) :
    traverse conn fuel dir s = traverse conn fuel0 dir s := by
  obtain ⟨k, rfl⟩ := Nat.exists_eq_add_of_le hle
  unfold traverse at h ⊢
  have hb := inorder_budget conn dir fuel0 k dir (s, [])
  rcases hr : inorder conn dir fuel0 dir (s, []) with ⟨st, ret⟩
  rw [hr] at h hb
  cases ret with
  | exhausted => simp at h
  | returned err => rw [hb (by simp)]

theorem failed_of_scanFailed (c : Call) (h : c.scanFailed = true) : c.failed = true := by
  cases c with
  | ChangeDir p e => cases e <;> simp_all [Call.scanFailed, Call.failed]
  | ListDir p r => cases r <;> simp_all [Call.scanFailed, Call.failed]
  | MakeDir p e => simp [Call.scanFailed] at h
  | Stor p f e => simp [Call.scanFailed] at h

theorem traverse_error_failed {σ : Type} (conn : ServerConn σ) (fuel : Nat) (dir : GoString)
    (s : σ) (m : Option SeenMap) (e : GoError)
    (h : (traverse (logged conn) fuel dir (s, [])).2 = some (m, some e)) :
    ∃ c ∈ (traverse (logged conn) fuel dir (s, [])).1.2, c.failed = true := by
  have hi := inorder_error_failed conn dir fuel dir ((s, []), [])
  unfold traverse at h ⊢
  rcases hr : inorder (logged conn) dir fuel dir ((s, []), []) with ⟨st, ret⟩
  rw [hr] at h hi
  rcases ret with (_ | e2) | _
  · simp at h
  · obtain ⟨c, hc, hf⟩ := hi e2 rfl
    exact ⟨c, hc, failed_of_scanFailed c hf⟩
  · simp at h

/-- C3 (diff exactness and completeness): take a run in which no operation
fails: the scan returns within some budget `fuel0` (and the run has at least
that budget), no call on the session returned an error, and no local operation
that the run performs failed (the walk reported no error, `filepath.Rel`
succeeded, and `os.Open` succeeded on each file to upload). Then the scan
returned a snapshot `seen`, the run completed with exit status 0, and the calls
made after the scan are exactly, in walk order and for each local
non-directory entry whose mapped path `dest + Rel(source, p)` is not a key of
`seen`, `MakeDir` on the parent of the mapped path and `Stor` of that entry's
own file at the mapped path; an entry whose mapped path is a key causes no
call. The paths stored are the list of missing mapped paths, and `uploaded` is
their number. -/
theorem diff_exact {σ : Type} (conn : ServerConn σ) (lfs : LocalFS) (fuel0 fuel : Nat)
    (source dest : GoString) (s : σ) (hfuel : fuel0 ≤ fuel)
    (hret : (traverse (logged conn) fuel0 (normDest dest) (s, [])).2 ≠ none)
    (hcalls : ∀ c ∈ (main (logged conn) lfs fuel source dest (s, [])).conn.2, c.failed = false)
    (hlocal : ∀ seen,
      (traverse (logged conn) fuel (normDest dest) (s, [])).2 = some (some seen, none) →
      ∀ w ∈ lfs.Walk source, localFailure lfs source (normDest dest) seen w = false) :
    ∃ seen up,
      (traverse (logged conn) fuel (normDest dest) (s, [])).2 = some (some seen, none) ∧
      (main (logged conn) lfs fuel source dest (s, [])).status = .exit0 ∧
      (main (logged conn) lfs fuel source dest (s, [])).conn.2 =
        (traverse (logged conn) fuel (normDest dest) (s, [])).1.2 ++ up ∧
      up = (lfs.Walk source).flatMap (expectedCalls lfs source (normDest dest) seen) ∧
      okStors up = missingPaths source (normDest dest) seen (lfs.Walk source) ∧
      (main (logged conn) lfs fuel source dest (s, [])).uploaded =
        (missingPaths source (normDest dest) seen (lfs.Walk source)).length := by
  have hb := traverse_budget (logged conn) fuel0 fuel (normDest dest) (s, []) hfuel hret
  rw [← hb] at hret
  have hfail := traverse_error_failed conn fuel (normDest dest) s
  rcases ht : traverse (logged conn) fuel (normDest dest) (s, []) with ⟨⟨s1, log1⟩, res⟩
  rw [ht] at hret hlocal hfail
  simp only at hret hlocal hfail
  rcases res with _ | ⟨m, _ | e⟩
  · exact absurd rfl hret
  · obtain ⟨seen, hseen⟩ := traverse_map_of_ok _ _ _ _ _ _ ht
    subst hseen
    have hl := hlocal seen rfl
    obtain ⟨d, h1, h2, h3, -, -, -, h7⟩ := walk_logged conn lfs source (normDest dest) seen
      (lfs.Walk source) s1 log1 ["scanning...".toList] 0
    have hwc := walk_complete conn lfs source (normDest dest) seen (lfs.Walk source) s1 log1
      ["scanning...".toList] 0 hl
    rcases hw : WalkDir (walkFn (logged conn) lfs source (normDest dest) seen)
      (lfs.Walk source) ⟨(s1, log1), ["scanning...".toList], 0⟩ with ⟨⟨⟨s2, log2⟩, out2, n2⟩, r⟩
    have hw2 : WalkDir (walkFn (logged conn) lfs source (normDest dest) ((some seen).getD []))
      (lfs.Walk source) ⟨(s1, log1), ["scanning...".toList], 0⟩ =
        (⟨(s2, log2), out2, n2⟩, r) := hw
    rw [hw] at h1 h2 h3 h7 hwc
    simp only at h1 h2 h3 h7 hwc
    have hc2 : ∀ c ∈ log2, c.failed = false := by
      intro c hc
      apply hcalls
      cases r with
      | some err =>
        rw [main_of_walkError _ _ _ _ _ _ _ _ _ _ ht hw2]
        exact hc
      | none =>
        rw [main_of_walked _ _ _ _ _ _ _ _ _ ht hw2]
        split <;> exact hc
    obtain ⟨hr, hlog⟩ := hwc hc2
    subst hr
    obtain ⟨-, g2, -, -⟩ := h7 rfl
    have hd : d = (lfs.Walk source).flatMap (expectedCalls lfs source (normDest dest) seen) :=
      List.append_cancel_left (h1.symm.trans hlog)
    rw [main_of_walked _ _ _ _ _ _ _ _ _ ht hw2]
    refine ⟨seen, d, rfl, ?_, ?_, hd, g2, ?_⟩
    · split <;> rfl
    · split <;> exact h1
    · split <;> simp only [h3, g2, zero_add]
  · exfalso
    obtain ⟨c, hc, hf⟩ := hfail m e rfl
    have := hcalls c (by
      rw [main_of_scanError _ _ _ _ _ _ _ _ _ ht]
      exact hc)
    rw [hf] at this
    cases this

set_option maxRecDepth 100000 in
/-- C3 at a concrete run: the server holds `/site/a.txt`, the local tree has
`a.txt` and `sub/b.txt`; nothing fails, `a.txt` causes no call and `sub/b.txt`
is stored from the local file `src/sub/b.txt`. -/
theorem diff_exact_witness :
    (2 ≤ 5 ∧
      (traverse (logged refServer) 2 (normDest "/site".toList) (siteWithA, [])).2 ≠ none ∧
      (∀ c ∈ (main (logged refServer) twoFiles 5 "src".toList "/site".toList
        (siteWithA, [])).conn.2, c.failed = false) ∧
      (∀ seen, (traverse (logged refServer) 5 (normDest "/site".toList) (siteWithA, [])).2 =
          some (some seen, none) →
        ∀ w ∈ twoFiles.Walk "src".toList,
          localFailure twoFiles "src".toList (normDest "/site".toList) seen w = false)) ∧
    (main (logged refServer) twoFiles 5 "src".toList "/site".toList (siteWithA, [])).conn.2 =
      [Call.ChangeDir "/site/".toList none,
        Call.ListDir ".".toList (.ok [⟨"a.txt".toList, EntryTypeFile⟩]),
        Call.MakeDir "/site/sub".toList none,
        Call.Stor "/site/sub/b.txt".toList ⟨"src/sub/b.txt".toList⟩ none] ∧
    ∃ seen up,
      (traverse (logged refServer) 5 (normDest "/site".toList) (siteWithA, [])).2 =
        some (some seen, none) ∧
      (main (logged refServer) twoFiles 5 "src".toList "/site".toList (siteWithA, [])).status =
        .exit0 ∧
      (main (logged refServer) twoFiles 5 "src".toList "/site".toList (siteWithA, [])).conn.2 =
        (traverse (logged refServer) 5 (normDest "/site".toList) (siteWithA, [])).1.2 ++ up ∧
      up = (twoFiles.Walk "src".toList).flatMap
        (expectedCalls twoFiles "src".toList (normDest "/site".toList) seen) ∧
      okStors up = missingPaths "src".toList (normDest "/site".toList) seen
        (twoFiles.Walk "src".toList) ∧
      (main (logged refServer) twoFiles 5 "src".toList "/site".toList (siteWithA, [])).uploaded =
        (missingPaths "src".toList (normDest "/site".toList) seen
          (twoFiles.Walk "src".toList)).length :=
  have hl : ∀ seen, (traverse (logged refServer) 5 (normDest "/site".toList) (siteWithA, [])).2 =
      some (some seen, none) →
      ∀ w ∈ twoFiles.Walk "src".toList,
        localFailure twoFiles "src".toList (normDest "/site".toList) seen w = false := by
    intro seen hseen
    have h5 : (traverse (logged refServer) 5 (normDest "/site".toList) (siteWithA, [])).2 =
        some (some ["/site/a.txt".toList], none) := by decide
    rw [h5] at hseen
    cases hseen
    decide
  ⟨⟨by decide, by decide, by decide, hl⟩, by decide,
    diff_exact refServer twoFiles 2 5 "src".toList "/site".toList siteWithA (by decide)
      (by decide) (by decide) hl⟩

/-! ## Directory creation in `upload` (C8) -/

theorem aborting_of_isScan (c : Call) (h : c.isScan = true) : c.aborting = false := by
  cases c <;> simp_all [Call.isScan, Call.aborting]

theorem eq_dropLast_append_of_mem {α : Type} (d : List α) (c : α) (hc : c ∈ d)
    (hn : c ∉ d.dropLast) : d = d.dropLast ++ [c] := by
  have hne : d ≠ [] := List.ne_nil_of_mem hc
  have hd := List.dropLast_append_getLast hne
  rw [← hd] at hc
  rcases List.mem_append.1 hc with h | h
  · exact absurd h hn
  · rw [List.mem_singleton] at h
    rw [h]; exact hd.symm

/-- C8 (idempotent directory creation), as amended: let `MakeDir` on the parent
of `remote` return an error `e` for a file that opens. If the text of `e` is
exactly `550 Already exists`, `upload` goes on: its calls are that `MakeDir` and then
`Stor(remote)`, and its result is that of `Stor` (nil when `Stor` succeeds; the
`MakeDir` error is dropped). If the text of `e` is anything else, `upload` makes
no `Stor` call and returns the error wrapping `e`. In a whole run, a `MakeDir`
that failed in this second way is the last call of the run, no call before it
made an upload fail, and the run ends with exit status 1. -/
theorem makeDir_tolerance {σ : Type} (conn : ServerConn σ) (lfs : LocalFS)
    (localPath remote : GoString) (s : σ) (file : File) (e : GoError)
    (hopen : lfs.Open localPath = .ok file)
    (hmk : (conn.MakeDir s (Dir remote)).2 = some e) :
    (e.Error = "550 Already exists".toList →
      (upload (logged conn) lfs localPath remote (s, [])).1.2 =
        [Call.MakeDir (Dir remote) (some e),
          Call.Stor remote file (conn.Stor (conn.MakeDir s (Dir remote)).1 remote file).2] ∧
      (upload (logged conn) lfs localPath remote (s, [])).2 =
        (conn.Stor (conn.MakeDir s (Dir remote)).1 remote file).2.map
          (Errorf "failed to store ".toList remote)) ∧
    (e.Error ≠ "550 Already exists".toList →
      (upload (logged conn) lfs localPath remote (s, [])).1.2 =
        [Call.MakeDir (Dir remote) (some e)] ∧
      (upload (logged conn) lfs localPath remote (s, [])).2 =
        some (Errorf "failed to change to directory ".toList (Dir remote) e)) ∧
    (∀ (fuel : Nat) (source dest : GoString) (s0 : σ) (c : Call),
      c ∈ (main (logged conn) lfs fuel source dest (s0, [])).conn.2 →
      c.isMakeDir = true → c.aborting = true →
      (main (logged conn) lfs fuel source dest (s0, [])).status = .exit1 ∧
      ∃ pre, (main (logged conn) lfs fuel source dest (s0, [])).conn.2 = pre ++ [c] ∧
        ∀ x ∈ pre, x.aborting = false) := by
  refine ⟨?_, ?_, ?_⟩
  · intro he
    unfold upload
    simp only [hopen, logged_MakeDir, hmk, Option.filter, he, ne_eq, not_true_eq_false,
      decide_False, Bool.false_eq_true, if_false, logged_Stor]
    cases (conn.Stor (conn.MakeDir s (Dir remote)).1 remote file).2 <;> simp
  · intro he
    unfold upload
    simp only [hopen, logged_MakeDir, hmk, Option.filter, he, ne_eq, not_false_eq_true,
      decide_True, if_true]
    simp
  · intro fuel source dest s0 c hc hmkd hab
    have hscan := traverse_scanLog conn fuel (normDest dest) s0
    rcases ht : traverse (logged conn) fuel (normDest dest) (s0, []) with ⟨⟨s1, log1⟩, res⟩
    rw [ht] at hscan
    simp only at hscan
    have hnot : c ∉ log1 := by
      intro hin
      have := aborting_of_isScan c (hscan c hin)
      rw [this] at hab; cases hab
    rcases res with _ | ⟨m, _ | e2⟩
    · rw [main_of_exhausted _ _ _ _ _ _ _ ht] at hc
      exact absurd hc hnot
    · obtain ⟨d, h1, -, -, -, h5, h6, -⟩ := walk_logged conn lfs source (normDest dest)
        (m.getD []) (lfs.Walk source) s1 log1 ["scanning...".toList] 0
      rcases hw : WalkDir (walkFn (logged conn) lfs source (normDest dest) (m.getD []))
        (lfs.Walk source) ⟨(s1, log1), ["scanning...".toList], 0⟩
        with ⟨⟨⟨s2, log2⟩, out2, n2⟩, r⟩
      rw [hw] at h1 h6
      simp only at h1 h6
      subst h1
      have hlog : (main (logged conn) lfs fuel source dest (s0, [])).conn.2 = log1 ++ d := by
        cases r with
        | some err => rw [main_of_walkError _ _ _ _ _ _ _ _ _ _ ht hw]; rfl
        | none => rw [main_of_walked _ _ _ _ _ _ _ _ _ ht hw]; split <;> rfl
      rw [hlog] at hc ⊢
      have hcd : c ∈ d := by
        rcases List.mem_append.1 hc with h | h
        · exact absurd h hnot
        · exact h
      have hr := h6 ⟨c, hcd, hab⟩
      cases r with
      | none => exact absurd rfl hr
      | some err =>
        rw [main_of_walkError _ _ _ _ _ _ _ _ _ _ ht hw]
        refine ⟨rfl, log1 ++ d.dropLast, ?_, ?_⟩
        · have hnd : c ∉ d.dropLast := by
            intro hin
            have := h5 c hin
            rw [this] at hab; cases hab
          rw [List.append_assoc, ← eq_dropLast_append_of_mem d c hcd hnd]
        · intro x hx
          rcases List.mem_append.1 hx with h | h
          · exact aborting_of_isScan x (hscan x h)
          · exact h5 x h
    · rw [main_of_scanError _ _ _ _ _ _ _ _ _ ht] at hc
      exact absurd hc hnot

set_option maxRecDepth 100000 in
/-- C8 at a concrete call: `/site` exists on the reference server, so `MakeDir`
on the parent of `/site/a.txt` answers `550 Already exists`. -/
theorem makeDir_tolerance_witness :
    twoFiles.Open "src/a.txt".toList = .ok ⟨"src/a.txt".toList⟩ ∧
    (refServer.MakeDir emptySite (Dir "/site/a.txt".toList)).2 =
      some (.errorString "550 Already exists".toList) ∧
    ((GoError.errorString "550 Already exists".toList).Error = "550 Already exists".toList →
      (upload (logged refServer) twoFiles "src/a.txt".toList "/site/a.txt".toList
          (emptySite, [])).1.2 =
        [Call.MakeDir (Dir "/site/a.txt".toList) (some (.errorString "550 Already exists".toList)),
          Call.Stor "/site/a.txt".toList ⟨"src/a.txt".toList⟩
            (refServer.Stor (refServer.MakeDir emptySite (Dir "/site/a.txt".toList)).1
              "/site/a.txt".toList ⟨"src/a.txt".toList⟩).2] ∧
      (upload (logged refServer) twoFiles "src/a.txt".toList "/site/a.txt".toList
          (emptySite, [])).2 =
        (refServer.Stor (refServer.MakeDir emptySite (Dir "/site/a.txt".toList)).1
          "/site/a.txt".toList ⟨"src/a.txt".toList⟩).2.map
          (Errorf "failed to store ".toList "/site/a.txt".toList)) ∧
    ((GoError.errorString "550 Already exists".toList).Error ≠ "550 Already exists".toList →
      (upload (logged refServer) twoFiles "src/a.txt".toList "/site/a.txt".toList
          (emptySite, [])).1.2 =
        [Call.MakeDir (Dir "/site/a.txt".toList)
          (some (.errorString "550 Already exists".toList))] ∧
      (upload (logged refServer) twoFiles "src/a.txt".toList "/site/a.txt".toList
          (emptySite, [])).2 =
        some (Errorf "failed to change to directory ".toList (Dir "/site/a.txt".toList)
          (.errorString "550 Already exists".toList))) ∧
    (∀ (fuel : Nat) (source dest : GoString) (s0 : Remote) (c : Call),
      c ∈ (main (logged refServer) twoFiles fuel source dest (s0, [])).conn.2 →
      c.isMakeDir = true → c.aborting = true →
      (main (logged refServer) twoFiles fuel source dest (s0, [])).status = .exit1 ∧
      ∃ pre, (main (logged refServer) twoFiles fuel source dest (s0, [])).conn.2 = pre ++ [c] ∧
        ∀ x ∈ pre, x.aborting = false) :=
  ⟨by decide, by decide,
    makeDir_tolerance refServer twoFiles "src/a.txt".toList "/site/a.txt".toList emptySite
      ⟨"src/a.txt".toList⟩ (.errorString "550 Already exists".toList) (by decide) (by decide)⟩

set_option maxRecDepth 100000 in
/-- C8 fails as stated: the server reports that the directory already exists
in other words than the ones `upload` compares with; `upload` returns an error
and makes no `Stor` call. -/
theorem makeDir_tolerance_counterexample :
    upload (logged wordyServer) oneFile "src/a.txt".toList "/site/a.txt".toList ((), []) =
      (((), [Call.MakeDir "/site".toList
          (some (.errorString "550 Directory already exists".toList))]),
        some (.wrapError
          "failed to change to directory /site: 550 Directory already exists".toList
          (.errorString "550 Directory already exists".toList))) ∧
    (main (logged wordyServer) oneFile 5 "src".toList "/site".toList ((), [])).status =
      .exit1 ∧
    okStors (main (logged wordyServer) oneFile 5 "src".toList "/site".toList ((), [])).conn.2 =
      [] := by
  decide

/-! ## The snapshot (C4) -/

theorem SeenMap.mem_add (seen : SeenMap) (x k : GoString) :
    k ∈ seen.add x ↔ k ∈ seen ∨ k = x := by
  unfold SeenMap.add
  by_cases h : x ∈ seen
  · rw [if_pos h]
    constructor
    · exact Or.inl
    · rintro (h1 | h1)
      · exact h1
      · rw [h1]; exact h
  · rw [if_neg h]; simp

theorem SeenMap.nodup_add (seen : SeenMap) (x : GoString) (h : seen.Nodup) :
    (seen.add x).Nodup := by
  unfold SeenMap.add
  by_cases hx : x ∈ seen
  · rw [if_pos hx]; exact h
  · rw [if_neg hx]
    exact List.Nodup.append h (List.nodup_singleton x) (by simpa using hx)

theorem below_iff (listing : GoString → Except GoError (List Entry)) (p k : GoString)
    (es : List Entry) (h : listing p = .ok es) :
    Below listing p k ↔ BelowEntries listing p es k := by
  constructor
  · intro hb
    cases hb with
    | file h1 h2 h3 h4 =>
      rw [h] at h1; cases h1
      exact ⟨_, h2, h3, Or.inl ⟨h4, rfl⟩⟩
    | folder h1 h2 h3 h4 h5 =>
      rw [h] at h1; cases h1
      exact ⟨_, h2, h3, Or.inr ⟨h4, h5⟩⟩
  · rintro ⟨e, h2, h3, ⟨h4, rfl⟩ | ⟨h4, h5⟩⟩
    · exact Below.file h h2 h3 h4
    · exact Below.folder h h2 h3 h4 h5

theorem visits_iff (listing : GoString → Except GoError (List Entry)) (p q : GoString)
    (es : List Entry) (h : listing p = .ok es) :
    Visits listing p q ↔ q = p ∨ VisitsEntries listing p es q := by
  constructor
  · intro hv
    cases hv with
    | root => exact Or.inl rfl
    | step h1 h2 h3 h4 h5 =>
      rw [h] at h1; cases h1
      exact Or.inr ⟨_, h2, h3, h4, h5⟩
  · rintro (rfl | ⟨e, h2, h3, h4, h5⟩)
    · exact Visits.root _
    · exact Visits.step h h2 h3 h4 h5

theorem belowEntries_cons (listing : GoString → Except GoError (List Entry)) (p k : GoString)
    (e : Entry) (l : List Entry) :
    BelowEntries listing p (e :: l) k ↔
      (e.visible = true ∧ ((e.Type_ = EntryTypeFile ∧ k = Join p e.Name) ∨
        (e.Type_ = EntryTypeFolder ∧ Below listing (Join p e.Name) k))) ∨
      BelowEntries listing p l k := by
  simp [BelowEntries]

theorem visitsEntries_cons (listing : GoString → Except GoError (List Entry)) (p q : GoString)
    (e : Entry) (l : List Entry) :
    VisitsEntries listing p (e :: l) q ↔
      (e.visible = true ∧ e.Type_ = EntryTypeFolder ∧ Visits listing (Join p e.Name) q) ∨
      VisitsEntries listing p l q := by
  simp [VisitsEntries]

theorem pathServer_ChangeDir_ok (listing : GoString → Except GoError (List Entry))
    (s : Option GoString) (p : GoString) (es : List Entry) (h : listing p = .ok es) :
    (pathServer listing).ChangeDir s p = (some p, none) := by
  simp [pathServer, h]

theorem pathServer_List (listing : GoString → Except GoError (List Entry))
    (p q : GoString) : (pathServer listing).List (some p) q = (some p, listing p) := rfl

theorem Clean_rooted (p : GoString) (h : p.head? = some '/') :
    (Clean p).head? = some '/' := by
  unfold Clean
  rw [if_pos h]
  rfl

theorem Join_rooted (a b : GoString) (h : a.head? = some '/') :
    (Join a b).head? = some '/' := by
  cases a with
  | nil => cases h
  | cons c cs =>
    unfold Join
    rw [if_pos (by simp)]
    exact Clean_rooted _ h

theorem refServer_ChangeDir_rooted (r : Remote) (p : GoString) (h : p.head? = some '/') :
    refServer.ChangeDir r p =
      if r.isDir (cleanElems p) then (⟨r.dirs, r.files, cleanElems p⟩, none)
      else (r, some (.errorString "550 Failed to change directory.".toList)) := by
  simp [refServer, Remote.resolve, h]

theorem refServer_List_dot (r : Remote) (h : r.isDir r.cwd = true) :
    refServer.List r ".".toList = (r, .ok (r.ls r.cwd)) := by
  have hres : r.resolve ".".toList = r.cwd := by
    simp [Remote.resolve, splitPath, cleanStep]
  simp only [refServer, hres, h, if_true]

theorem forEntries_shown {σ : Type} (conn : ServerConn σ) (Inv : σ → Prop)
    (listing : GoString → Except GoError (List Entry))
    (dir : GoString) (n : Nat)
    (ih : ∀ path s log seen, Inv s → path.head? = some '/' →
      scannable listing n path = true →
      ∃ s1 seen1 d, inorder (logged conn) dir n path ((s, log), seen) =
          (((s1, log ++ d), seen1), .returned none) ∧ Inv s1 ∧
        (∀ k, k ∈ seen1 ↔ k ∈ seen ∨ Below listing path k) ∧
        (seen.Nodup → seen1.Nodup) ∧
        (∀ q, (∃ r, Call.ChangeDir q r ∈ d) ↔ Visits listing path q))
    (path : GoString) (hroot : path.head? = some '/') (l : List Entry) :
    (∀ e ∈ l, e.visible = true → e.Type_ = EntryTypeFolder →
      scannable listing n (Join path e.Name) = true) →
    ∀ s log seen, Inv s → ∃ s1 seen1 d,
      forEntries (inorder (logged conn) dir n) path l ((s, log), seen) =
        (((s1, log ++ d), seen1), .returned none) ∧ Inv s1 ∧
      (∀ k, k ∈ seen1 ↔ k ∈ seen ∨ BelowEntries listing path l k) ∧
      (seen.Nodup → seen1.Nodup) ∧
      (∀ q, (∃ r, Call.ChangeDir q r ∈ d) ↔ VisitsEntries listing path l q) := by
  induction l with
  | nil =>
    intro _ s log seen hs
    exact ⟨s, seen, [], by simp [forEntries], hs, by simp [BelowEntries], id,
      by simp [VisitsEntries]⟩
  | cons e l ihl =>
    intro hl s log seen hs
    have hl2 : ∀ e2 ∈ l, e2.visible = true → e2.Type_ = EntryTypeFolder →
        scannable listing n (Join path e2.Name) = true :=
      fun e2 he2 => hl e2 (List.mem_cons_of_mem _ he2)
    unfold forEntries
    by_cases hdot : e.Name = ".".toList ∨ e.Name = "..".toList
    · rw [if_pos hdot]
      have hvis : e.visible = false := by
        unfold Entry.visible; rw [decide_eq_true hdot]; rfl
      obtain ⟨s1, seen1, d, h1, h0, h2, h3, h4⟩ := ihl hl2 s log seen hs
      refine ⟨s1, seen1, d, h1, h0, ?_, h3, ?_⟩
      · intro k; rw [h2, belowEntries_cons]; simp [hvis]
      · intro q; rw [h4, visitsEntries_cons]; simp [hvis]
    · rw [if_neg hdot]
      have hvis : e.visible = true := by
        unfold Entry.visible; rw [decide_eq_false hdot]; rfl
      by_cases hfile : e.Type_ = EntryTypeFile
      · simp only [hfile, if_true]
        have hnf : ¬ EntryTypeFile = EntryTypeFolder := by decide
        obtain ⟨s1, seen1, d, h1, h0, h2, h3, h4⟩ :=
          ihl hl2 s log (seen.add (Join path e.Name)) hs
        refine ⟨s1, seen1, d, h1, h0, ?_, fun hnd => h3 (SeenMap.nodup_add _ _ hnd), ?_⟩
        · intro k
          rw [h2, belowEntries_cons, SeenMap.mem_add]
          simp only [hvis, hfile, hnf, true_and, false_and, or_false]
          tauto
        · intro q; rw [h4, visitsEntries_cons]; simp [hfile, hnf]
      · simp only [hfile, if_false]
        by_cases hfolder : e.Type_ = EntryTypeFolder
        · simp only [hfolder, if_true]
          have hsc := hl e (List.mem_cons_self _ _) hvis hfolder
          obtain ⟨s1, seen1, d1, g1, g0, g2, g3, g4⟩ := ih (Join path e.Name) s log seen hs
            (Join_rooted _ _ hroot) hsc
          rw [g1]
          simp only
          obtain ⟨s2, seen2, d2, h1, h0, h2, h3, h4⟩ := ihl hl2 s1 (log ++ d1) seen1 g0
          refine ⟨s2, seen2, d1 ++ d2, ?_, h0, ?_, fun hnd => h3 (g3 hnd), ?_⟩
          · rw [h1, List.append_assoc]
          · intro k
            rw [h2, g2, belowEntries_cons]
            have hnf : ¬ EntryTypeFolder = EntryTypeFile := by decide
            simp only [hvis, hfolder, hnf, true_and, false_and, false_or]
            tauto
          · intro q
            rw [visitsEntries_cons, ← h4, ← g4]
            simp only [hvis, hfolder, true_and, List.mem_append]
            constructor
            · rintro ⟨r, h | h⟩
              · exact Or.inl ⟨r, h⟩
              · exact Or.inr ⟨r, h⟩
            · rintro (⟨r, h⟩ | ⟨r, h⟩)
              · exact ⟨r, Or.inl h⟩
              · exact ⟨r, Or.inr h⟩
        · simp only [hfolder, if_false]
          obtain ⟨s1, seen1, d, h1, h0, h2, h3, h4⟩ := ihl hl2 s log seen hs
          refine ⟨s1, seen1, d, h1, h0, ?_, h3, ?_⟩
          · intro k; rw [h2, belowEntries_cons]; simp [hfile, hfolder]
          · intro q; rw [h4, visitsEntries_cons]; simp [hfolder]

theorem inorder_shown {σ : Type} (conn : ServerConn σ) (Inv : σ → Prop)
    (listing : GoString → Except GoError (List Entry)) (hconn : Shows conn Inv listing)
    (dir : GoString) (n : Nat) :
    ∀ path s log seen, Inv s → path.head? = some '/' →
      scannable listing n path = true →
      ∃ s1 seen1 d, inorder (logged conn) dir n path ((s, log), seen) =
          (((s1, log ++ d), seen1), .returned none) ∧ Inv s1 ∧
        (∀ k, k ∈ seen1 ↔ k ∈ seen ∨ Below listing path k) ∧
        (seen.Nodup → seen1.Nodup) ∧
        (∀ q, (∃ r, Call.ChangeDir q r ∈ d) ↔ Visits listing path q) := by
  induction n with
  | zero => intro path s log seen _ _ h; simp [scannable] at h
  | succ n ih =>
    intro path s log seen hs hroot h
    unfold scannable at h
    cases hl : listing path with
    | error err => rw [hl] at h; simp at h
    | ok es =>
      rw [hl] at h
      simp only [List.all_eq_true, Bool.or_eq_true, Bool.not_eq_true', decide_eq_false_iff_not]
        at h
      have hes : ∀ e ∈ es, e.visible = true → e.Type_ = EntryTypeFolder →
          scannable listing n (Join path e.Name) = true := by
        intro e he hv hf
        rcases h e he with (h1 | h1) | h1
        · rw [hv] at h1; cases h1
        · exact absurd hf h1
        · exact h1
      obtain ⟨c1, c2, c3⟩ := hconn s path es hs hroot hl
      rcases hcd : conn.ChangeDir s path with ⟨sa, ra⟩
      rw [hcd] at c1 c2 c3
      simp only at c1 c2 c3
      subst c1
      rcases hls : conn.List sa ".".toList with ⟨sb, rb⟩
      rw [hls] at c2 c3
      simp only at c2 c3
      subst c2
      obtain ⟨s1, seen1, d, h1, h0, h2, h3, h4⟩ := forEntries_shown conn Inv listing dir n ih
        path hroot es hes sb
        (log ++ [Call.ChangeDir path none] ++ [Call.ListDir ".".toList (.ok es)]) seen c3
      refine ⟨s1, seen1, [Call.ChangeDir path none, Call.ListDir ".".toList (.ok es)] ++ d,
        ?_, h0, ?_, h3, ?_⟩
      · unfold inorder
        simp only [logged_ChangeDir, hcd, logged_List, hls]
        rw [h1]
        simp
      · intro k; rw [h2, below_iff listing path k es hl]
      · intro q
        rw [visits_iff listing path q es hl, ← h4]
        simp only [List.cons_append, List.nil_append, List.mem_cons, Call.ChangeDir.injEq,
          false_or]
        constructor
        · rintro ⟨r, ⟨h, -⟩ | h | h⟩
          · exact Or.inl h
          · cases h
          · exact Or.inr ⟨r, h⟩
        · rintro (h | ⟨r, h⟩)
          · exact ⟨none, Or.inl ⟨h, rfl⟩⟩
          · exact ⟨r, Or.inr (Or.inr h)⟩

theorem refServer_shows (r : Remote) :
    Shows refServer (fun s => s.dirs = r.dirs ∧ s.files = r.files) r.table := by
  intro s p es hs hroot hl
  obtain ⟨hd, hf⟩ := hs
  have hres : r.resolve p = cleanElems p := by simp [Remote.resolve, hroot]
  unfold Remote.table at hl
  rw [hres] at hl
  by_cases hdir : r.isDir (cleanElems p) = true
  · rw [if_pos hdir] at hl
    simp only [Except.ok.injEq] at hl
    have hdir2 : s.isDir (cleanElems p) = true := by
      unfold Remote.isDir at hdir ⊢
      rw [hd]; exact hdir
    rw [refServer_ChangeDir_rooted s p hroot, if_pos hdir2]
    have hdir3 : (Remote.mk s.dirs s.files (cleanElems p)).isDir
        (Remote.mk s.dirs s.files (cleanElems p)).cwd = true := hdir2
    rw [refServer_List_dot _ hdir3]
    refine ⟨rfl, ?_, hd, hf⟩
    simp only [Except.ok.injEq]
    rw [← hl]
    unfold Remote.ls
    simp only [hd, hf]
  · rw [if_neg hdir] at hl
    cases hl

theorem pathServer_shows (listing : GoString → Except GoError (List Entry)) :
    Shows (pathServer listing) (fun _ => True) listing := by
  intro s p es _ _ hl
  rw [pathServer_ChangeDir_ok listing s p es hl]
  exact ⟨rfl, by rw [pathServer_List]; exact hl, trivial⟩

/-- C4 (snapshot content), as amended: let the session show the finite tree
`listing` at rooted paths whatever the cursor, let the root `dir` be absolute,
and let every directory of the tree under `dir` be one that can be entered and
listed (depth at most `n`). Then `traverse` with budget `n` returns a map and no
error; its keys are distinct and are exactly the joined paths of the entries of
kind `File` reached from `dir` through chains of entries of kind `Folder`,
entries named `.` or `..` left aside; the directories it enters are exactly
`dir` and the joined paths of those `Folder` entries, so an entry named `.` or
`..` or of any other kind is neither inserted nor entered. -/
theorem snapshot_content {σ : Type} (conn : ServerConn σ) (Inv : σ → Prop)
    (listing : GoString → Except GoError (List Entry)) (n : Nat) (dir : GoString) (s : σ)
    (hconn : Shows conn Inv listing) (hs : Inv s) (hroot : dir.head? = some '/')
    (h : scannable listing n dir = true) :
    ∃ s1 seen, traverse (logged conn) n dir (s, []) = (s1, some (some seen, none)) ∧
      seen.Nodup ∧
      (∀ k, k ∈ seen ↔ Below listing dir k) ∧
      (∀ q, (∃ r, Call.ChangeDir q r ∈ s1.2) ↔ Visits listing dir q) := by
  obtain ⟨s1, seen1, d, h1, -, h2, h3, h4⟩ :=
    inorder_shown conn Inv listing hconn dir n dir s [] [] hs hroot h
  refine ⟨(s1, d), seen1, ?_, h3 List.nodup_nil, ?_, h4⟩
  · unfold traverse
    rw [h1]
    simp
  · intro k; rw [h2]; simp

set_option maxRecDepth 100000 in
/-- C4 at a concrete tree: the reference server with `/site/a.txt` and
`/site/pub/b.txt`, scanned from the absolute root `/site/`. -/
theorem snapshot_content_witness :
    (Shows refServer (fun s => s.dirs = siteTree.dirs ∧ s.files = siteTree.files)
        siteTree.table ∧
      (siteTree.dirs = siteTree.dirs ∧ siteTree.files = siteTree.files) ∧
      "/site/".toList.head? = some '/' ∧
      scannable siteTree.table 2 "/site/".toList = true) ∧
    (traverse (logged refServer) 2 "/site/".toList (siteTree, [])).2 =
      some (some ["/site/pub/b.txt".toList, "/site/a.txt".toList], none) ∧
    ∃ s1 seen, traverse (logged refServer) 2 "/site/".toList (siteTree, []) =
        (s1, some (some seen, none)) ∧
      seen.Nodup ∧
      (∀ k, k ∈ seen ↔ Below siteTree.table "/site/".toList k) ∧
      (∀ q, (∃ r, Call.ChangeDir q r ∈ s1.2) ↔ Visits siteTree.table "/site/".toList q) :=
  ⟨⟨refServer_shows siteTree, ⟨rfl, rfl⟩, by decide, by decide⟩, by decide,
    snapshot_content refServer (fun s => s.dirs = siteTree.dirs ∧ s.files = siteTree.files)
      siteTree.table 2 "/site/".toList siteTree (refServer_shows siteTree) ⟨rfl, rfl⟩
      (by decide) (by decide)⟩

set_option maxRecDepth 100000 in
/-- C4 fails for a relative root: the server holds `/x`, `/x/x`, `/x/x/x` and
the file `/x/x/g.txt`, and the scan starts from the login directory as `.`. The
file `g.txt` is reached from the root through the folders `x` and `x`, with
joined path `x/x/g.txt`; no `ChangeDir` and no `List` fails; yet the scan enters
`x`, then `x/x` from inside `/x`, which is `/x/x/x`, and returns the empty map. -/
theorem snapshot_content_counterexample :
    scannable xTree.table 4 (normDest ".".toList) = true ∧
    Below xTree.table (normDest ".".toList) "x/x/g.txt".toList ∧
    (∀ c ∈ (traverse (logged refServer) 4 (normDest ".".toList) (xTree, [])).1.2,
      c.scanFailed = false) ∧
    (traverse (logged refServer) 4 (normDest ".".toList) (xTree, [])).1.2 =
      [Call.ChangeDir "./".toList none,
        Call.ListDir ".".toList (.ok [⟨"x".toList, EntryTypeFolder⟩]),
        Call.ChangeDir "x".toList none,
        Call.ListDir ".".toList (.ok [⟨"x".toList, EntryTypeFolder⟩]),
        Call.ChangeDir "x/x".toList none,
        Call.ListDir ".".toList (.ok [])] ∧
    (traverse (logged refServer) 4 (normDest ".".toList) (xTree, [])).2 =
      some (some [], none) ∧
    ¬ ∀ k, k ∈ ([] : SeenMap) ↔ Below xTree.table (normDest ".".toList) k := by
  have hb : Below xTree.table (normDest ".".toList) "x/x/g.txt".toList := by
    have h0 : xTree.table "./".toList = .ok [⟨"x".toList, EntryTypeFolder⟩] := by decide
    have h1 : xTree.table "x".toList = .ok [⟨"x".toList, EntryTypeFolder⟩] := by decide
    have h2 : xTree.table "x/x".toList =
        .ok [⟨"x".toList, EntryTypeFolder⟩, ⟨"g.txt".toList, EntryTypeFile⟩] := by decide
    have b2 : Below xTree.table "x/x".toList
        (Join "x/x".toList (Entry.mk "g.txt".toList EntryTypeFile).Name) :=
      Below.file h2 (by decide) (by decide) (by decide)
    have b1 : Below xTree.table "x".toList "x/x/g.txt".toList :=
      Below.folder (e := ⟨"x".toList, EntryTypeFolder⟩) h1 (by decide) (by decide) (by decide)
        b2
    exact Below.folder (e := ⟨"x".toList, EntryTypeFolder⟩) h0 (by decide) (by decide)
      (by decide) b1
  refine ⟨by decide, hb, by decide, by decide, by decide, ?_⟩
  intro h
  exact absurd ((h _).2 hb) (by simp)

/-! ## Where the program departs from its specification (C9, C7, C2) -/

theorem forEntries_error_names_dir {σ : Type}
    (rec : GoString → σ × SeenMap → (σ × SeenMap) × Ret) (dir : GoString)
    (hrec : ∀ p st e, (rec p st).2 = .returned (some e) →
      ∃ cause, e = Errorf "failed to change to directory ".toList dir cause ∨
        e = Errorf "failed to list directory ".toList dir cause)
    (path : GoString) (l : List Entry) :
    ∀ st e, (forEntries rec path l st).2 = .returned (some e) →
      ∃ cause, e = Errorf "failed to change to directory ".toList dir cause ∨
        e = Errorf "failed to list directory ".toList dir cause := by
  induction l with
  | nil => intro st e h; simp [forEntries] at h
  | cons entry l ih =>
    intro st e h
    unfold forEntries at h
    by_cases hdot : entry.Name = ".".toList ∨ entry.Name = "..".toList
    · rw [if_pos hdot] at h; exact ih _ _ h
    · rw [if_neg hdot] at h
      by_cases hfile : entry.Type_ = EntryTypeFile
      · simp only [hfile, if_true] at h; exact ih _ _ h
      · simp only [hfile, if_false] at h
        by_cases hfolder : entry.Type_ = EntryTypeFolder
        · simp only [hfolder, if_true] at h
          have hr := hrec (Join path entry.Name) st
          rcases hrr : rec (Join path entry.Name) st with ⟨st1, ret⟩
          rw [hrr] at h hr
          simp only at h hr
          cases ret with
          | exhausted => cases h
          | returned err =>
            cases err with
            | none => exact ih _ _ h
            | some e2 =>
              simp only [Ret.returned.injEq, Option.some.injEq] at h
              subst h
              exact hr e2 rfl
        · simp only [hfolder, if_false] at h; exact ih _ _ h

theorem inorder_error_names_dir {σ : Type} (conn : ServerConn σ) (dir : GoString)
    (fuel : Nat) :
    ∀ path st e, (inorder conn dir fuel path st).2 = .returned (some e) →
      ∃ cause, e = Errorf "failed to change to directory ".toList dir cause ∨
        e = Errorf "failed to list directory ".toList dir cause := by
  induction fuel with
  | zero => intro path st e h; simp [inorder] at h
  | succ fuel ih =>
    intro path st e h
    unfold inorder at h
    rcases hcd : conn.ChangeDir st.1 path with ⟨s1, r⟩
    rw [hcd] at h
    cases r with
    | some err =>
      simp only [Ret.returned.injEq, Option.some.injEq] at h
      exact ⟨err, Or.inl h.symm⟩
    | none =>
      simp only at h
      rcases hls : conn.List s1 ".".toList with ⟨s2, res⟩
      rw [hls] at h
      cases res with
      | error err =>
        simp only [Ret.returned.injEq, Option.some.injEq] at h
        exact ⟨err, Or.inr h.symm⟩
      | ok entries =>
        exact forEntries_error_names_dir (inorder conn dir fuel) dir ih path entries _ _ h

set_option maxRecDepth 100000 in
/-- C9 at a failing input: entering the nested directory `/site/priv` is
refused; the error `traverse` returns wraps the cause but names the root
`/site/`, the argument of `traverse`, and not `/site/priv`. On every server
and at every depth the error `traverse` returns names `dir`, its own argument. -/
theorem scan_error_names_root :
    traverse (logged (pathServer refusedListing)) 5 "/site/".toList (none, []) =
      ((some "/site/pub".toList,
        [Call.ChangeDir "/site/".toList none,
          Call.ListDir ".".toList (.ok [⟨"a.txt".toList, EntryTypeFile⟩,
            ⟨"pub".toList, EntryTypeFolder⟩, ⟨"priv".toList, EntryTypeFolder⟩]),
          Call.ChangeDir "/site/pub".toList none,
          Call.ListDir ".".toList (.ok [⟨"b.txt".toList, EntryTypeFile⟩]),
          Call.ChangeDir "/site/priv".toList
            (some (.errorString "550 Permission denied.".toList))]),
        some (none, some (.wrapError
          "failed to change to directory /site/: 550 Permission denied.".toList
          (.errorString "550 Permission denied.".toList)))) ∧
    (∀ (σ : Type) (conn : ServerConn σ) (fuel : Nat) (dir : GoString) (s : σ)
      (m : Option SeenMap) (e : GoError),
      (traverse conn fuel dir s).2 = some (m, some e) →
      ∃ cause, e = Errorf "failed to change to directory ".toList dir cause ∨
        e = Errorf "failed to list directory ".toList dir cause) := by
  refine ⟨by decide, ?_⟩
  intro σ conn fuel dir s m e h
  unfold traverse at h
  rcases hr : inorder conn dir fuel dir (s, []) with ⟨st, ret⟩
  rw [hr] at h
  have hi := inorder_error_names_dir conn dir fuel dir (s, [])
  rw [hr] at hi
  rcases ret with (_ | e2) | _
  · simp at h
  · simp only [Option.some.injEq, Prod.mk.injEq] at h
    rw [← h.2]
    exact hi e2 rfl
  · simp at h

set_option maxRecDepth 100000 in
/-- C7 at a failing input: `/site` is empty and the local file is
`a/b/c.txt`. `upload` asks for one directory, the parent `/site/a/b`; the
server refuses it because `/site/a` is missing, no `MakeDir` is made for
`/site/a`, nothing is stored, and the run ends with exit status 1. On every
server the only directory `upload` ever asks for is `Dir(remote)`. -/
theorem upload_single_makeDir :
    upload (logged refServer) deepFile "src/a/b/c.txt".toList "/site/a/b/c.txt".toList
        (emptySite, []) =
      ((emptySite,
        [Call.MakeDir "/site/a/b".toList
          (some (.errorString "550 No such file or directory.".toList))]),
        some (.wrapError
          "failed to change to directory /site/a/b: 550 No such file or directory.".toList
          (.errorString "550 No such file or directory.".toList))) ∧
    (main (logged refServer) deepFile 5 "src".toList "/site".toList (emptySite, [])).status =
      .exit1 ∧
    (main (logged refServer) deepFile 5 "src".toList "/site".toList (emptySite, [])).conn =
      (⟨emptySite.dirs, emptySite.files, ["site".toList]⟩,
        [Call.ChangeDir "/site/".toList none,
          Call.ListDir ".".toList (.ok []),
          Call.MakeDir "/site/a/b".toList
            (some (.errorString "550 No such file or directory.".toList))]) ∧
    (∀ (σ : Type) (conn : ServerConn σ) (lfs : LocalFS) (lp rp : GoString) (s : σ) (c : Call),
      c ∈ (upload (logged conn) lfs lp rp (s, [])).1.2 → c.isMakeDir = true →
      ∃ m, c = Call.MakeDir (Dir rp) m) := by
  refine ⟨by decide, by decide, by decide, ?_⟩
  intro σ conn lfs lp rp s c hc hmk
  obtain ⟨d, hd, hshape⟩ := upload_logged conn lfs lp rp s []
  rw [hd, List.nil_append] at hc
  rcases hshape with ⟨hd0, -⟩ | ⟨e, hd0, -, -⟩ | ⟨m, f, e, hd0, -, -⟩ | ⟨m, f, hd0, -, -⟩
  · rw [hd0] at hc; cases hc
  · rw [hd0, List.mem_singleton] at hc; exact ⟨_, hc⟩
  · rw [hd0] at hc
    simp only [List.mem_cons, List.mem_singleton, List.not_mem_nil, or_false] at hc
    rcases hc with h | h
    · exact ⟨_, h⟩
    · rw [h] at hmk; cases hmk
  · rw [hd0] at hc
    simp only [List.mem_cons, List.mem_singleton, List.not_mem_nil, or_false] at hc
    rcases hc with h | h
    · exact ⟨_, h⟩
    · rw [h] at hmk; cases hmk

set_option maxRecDepth 100000 in
/-- C2 at a failing input: destination `/site//` over a server holding
`/site/a.txt`. The key `traverse` inserts is `/site/a.txt` (`filepath.Join`
cleans the doubled separator), the path `main` tests for the local file
`a.txt` is `/site//a.txt`, and that path is not a key. Over two runs from an
empty `/site` with the local files `a.txt` and `sub/b.txt`: the first run
stores both, the second run finds both on the server under the keys
`/site/a.txt` and `/site/sub/b.txt` and stores both again. -/
theorem key_differs_from_mapped_path :
    (traverse refServer 5 (normDest "/site//".toList) siteWithA).2 =
      some (some ["/site/a.txt".toList], none) ∧
    Rel "src".toList "src/a.txt".toList = .ok "a.txt".toList ∧
    normDest "/site//".toList ++ "a.txt".toList = "/site//a.txt".toList ∧
    Join (normDest "/site//".toList) "a.txt".toList = "/site/a.txt".toList ∧
    "/site//a.txt".toList ∉ ["/site/a.txt".toList] ∧
    (main refServer twoFiles 5 "src".toList "/site//".toList emptySite).status = .exit0 ∧
    (main refServer twoFiles 5 "src".toList "/site//".toList emptySite).conn.files =
      [["site".toList, "a.txt".toList], ["site".toList, "sub".toList, "b.txt".toList]] ∧
    (traverse refServer 5 (normDest "/site//".toList)
      ((main refServer twoFiles 5 "src".toList "/site//".toList emptySite).conn.login [])).2 =
      some (some ["/site/sub/b.txt".toList, "/site/a.txt".toList], none) ∧
    (main (logged refServer) twoFiles 5 "src".toList "/site//".toList
      ((main refServer twoFiles 5 "src".toList "/site//".toList emptySite).conn.login [],
        [])).status = .exit0 ∧
    okStors (main (logged refServer) twoFiles 5 "src".toList "/site//".toList
      ((main refServer twoFiles 5 "src".toList "/site//".toList emptySite).conn.login [],
        [])).conn.2 = ["/site//a.txt".toList, "/site//sub/b.txt".toList] := by
  decide

/-! ## Running the sync again (C1) -/

theorem walk_all_seen {σ : Type} (conn : ServerConn σ) (lfs : LocalFS)
    (source dest : GoString) (seen : SeenMap) (steps : List WalkStep)
    (h : ∀ w ∈ steps, w.err = none ∧
      (w.IsDir = false → ∃ rel, Rel source w.path = .ok rel ∧ dest ++ rel ∈ seen))
    (st : Progress σ) :
    WalkDir (walkFn conn lfs source dest seen) steps st = (st, none) := by
  induction steps with
  | nil => rfl
  | cons w ws ih =>
    have hw := h w (List.mem_cons_self _ _)
    have hstep : walkFn conn lfs source dest seen w st = (st, none) := by
      unfold walkFn
      rw [hw.1]
      cases hdir : w.IsDir with
      | true => rfl
      | false =>
        obtain ⟨rel, hrel, hmem⟩ := hw.2 hdir
        simp [hrel, hmem]
    unfold WalkDir
    rw [hstep]
    exact ih (fun w2 hw2 => h w2 (List.mem_cons_of_mem _ hw2))

/-- A run whose scan returns a snapshot `seen` that has the mapped path
`dest + Rel(source, p)` of every local file `p` as a key completes and uploads
nothing: its calls are those of the scan alone, no `MakeDir` and no `Stor`,
`uploaded = 0`, and it prints `no changes`. -/
theorem run_of_full_snapshot {σ : Type} (conn : ServerConn σ) (lfs : LocalFS)
    (fuel : Nat) (source dest : GoString) (s : σ) (seen : SeenMap)
    (hscan : (traverse (logged conn) fuel (normDest dest) (s, [])).2 = some (some seen, none))
    (hwalk : ∀ w ∈ lfs.Walk source, w.err = none ∧
      (w.IsDir = false → ∃ rel, Rel source w.path = .ok rel ∧ normDest dest ++ rel ∈ seen)) :
    (main (logged conn) lfs fuel source dest (s, [])).status = .exit0 ∧
    (main (logged conn) lfs fuel source dest (s, [])).uploaded = 0 ∧
    (main (logged conn) lfs fuel source dest (s, [])).conn =
      (traverse (logged conn) fuel (normDest dest) (s, [])).1 ∧
    (∀ c ∈ (main (logged conn) lfs fuel source dest (s, [])).conn.2,
      c.isMakeDir = false ∧ c.isStor = false) ∧
    (main (logged conn) lfs fuel source dest (s, [])).stdout =
      ["scanning...".toList, "no changes".toList] := by
  have hlog := traverse_scanLog conn fuel (normDest dest) s
  rcases ht : traverse (logged conn) fuel (normDest dest) (s, []) with ⟨s1, res⟩
  rw [ht] at hscan hlog
  simp only at hscan hlog
  subst hscan
  have hw := walk_all_seen (logged conn) lfs source (normDest dest) ((some seen).getD [])
    (lfs.Walk source) hwalk ⟨s1, ["scanning...".toList], 0⟩
  rw [main_of_walked _ _ _ _ _ _ _ _ _ ht hw]
  refine ⟨rfl, rfl, rfl, ?_, rfl⟩
  intro c hc
  have := hlog c hc
  cases c <;> simp_all [Call.isScan, Call.isMakeDir, Call.isStor]

set_option maxRecDepth 100000 in
/-- C1 fails as stated: the remote directory shows `a.txt` as a symbolic link,
which the scan leaves out of the snapshot. The first run completes and stores
`a.txt`; the second run, with nothing changed locally or remotely, completes
and stores `a.txt` again. -/
theorem second_run_counterexample :
    (main (logged linkServer) oneFile 5 "src".toList "/site".toList ((), [])).status = .exit0 ∧
    (main (logged linkServer) oneFile 5 "src".toList "/site".toList
      ((main (logged linkServer) oneFile 5 "src".toList "/site".toList ((), [])).conn.1,
        [])).status = .exit0 ∧
    (main (logged linkServer) oneFile 5 "src".toList "/site".toList
      ((main (logged linkServer) oneFile 5 "src".toList "/site".toList ((), [])).conn.1,
        [])).uploaded = 1 ∧
    (main (logged linkServer) oneFile 5 "src".toList "/site".toList
      ((main (logged linkServer) oneFile 5 "src".toList "/site".toList ((), [])).conn.1,
        [])).conn.2 =
      [Call.ChangeDir "/site/".toList none,
        Call.ListDir ".".toList (.ok [⟨"a.txt".toList, EntryTypeLink⟩]),
        Call.MakeDir "/site".toList (some (.errorString "550 Already exists".toList)),
        Call.Stor "/site/a.txt".toList ⟨"src/a.txt".toList⟩ none] := by
  decide

/-! ## Keys and mapped paths for a destination in clean form -/

theorem splitPath_ne_nil (s : GoString) : splitPath s ≠ [] := by
  cases s with
  | nil => simp [splitPath]
  | cons c cs =>
    unfold splitPath
    by_cases hc : c = '/'
    · simp [hc]
    · rw [if_neg hc]
      cases splitPath cs <;> simp

theorem splitPath_cons (c : Char) (cs : GoString) :
    splitPath (c :: cs) =
      if c = '/' then [] :: splitPath cs
      else match splitPath cs with
        | [] => [[c]]
        | x :: xs => (c :: x) :: xs := by
  rw [splitPath]

theorem splitPath_append (a b : GoString) :
    splitPath (a ++ '/' :: b) = splitPath a ++ splitPath b := by
  induction a with
  | nil =>
    rw [List.nil_append, splitPath_cons, if_pos rfl]
    rfl
  | cons c cs ih =>
    rw [List.cons_append, splitPath_cons, splitPath_cons c cs]
    by_cases hc : c = '/'
    · rw [if_pos hc, if_pos hc, ih, List.cons_append]
    · rw [if_neg hc, if_neg hc, ih]
      cases hs : splitPath cs with
      | nil => exact absurd hs (splitPath_ne_nil cs)
      | cons x xs => rfl

theorem splitPath_noSlash (n : GoString) (h : '/' ∉ n) : splitPath n = [n] := by
  induction n with
  | nil => rfl
  | cons c cs ih =>
    have hc : c ≠ '/' := fun hc => h (by rw [hc]; exact List.mem_cons_self _ _)
    have hcs : '/' ∉ cs := fun hm => h (List.mem_cons_of_mem _ hm)
    rw [splitPath_cons, if_neg hc, ih hcs]

theorem plainName_spec (n : GoString) (h : plainName n = true) :
    n ≠ [] ∧ '/' ∉ n ∧ n ≠ ['.'] ∧ n ≠ ['.', '.'] := by
  simp only [plainName, Bool.and_eq_true, decide_eq_true_eq] at h
  exact ⟨h.1.1.1, h.1.1.2, h.1.2, h.2⟩

theorem splitPath_joinSlash (l : List GoString) (hne : l ≠ [])
    (h : ∀ x ∈ l, plainName x = true) : splitPath (joinSlash l) = l := by
  induction l with
  | nil => exact absurd rfl hne
  | cons x xs ih =>
    have hx := (plainName_spec x (h x (List.mem_cons_self _ _))).2.1
    cases xs with
    | nil => simpa [joinSlash] using splitPath_noSlash x hx
    | cons y ys =>
      rw [joinSlash, splitPath_append, splitPath_noSlash x hx,
        ih (by simp) (fun z hz => h z (List.mem_cons_of_mem _ hz))]
      rfl

theorem cleanStep_plain (r : Bool) (out : List GoString) (n : GoString)
    (h : plainName n = true) : cleanStep r out n = out ++ [n] := by
  obtain ⟨h1, -, h3, h4⟩ := plainName_spec n h
  unfold cleanStep
  rw [if_neg (by simp [h1, h3]), if_neg h4]

theorem foldl_cleanStep_plain (r : Bool) (l : List GoString)
    (h : ∀ x ∈ l, plainName x = true) :
    ∀ out, l.foldl (cleanStep r) out = out ++ l := by
  induction l with
  | nil => intro out; simp
  | cons x xs ih =>
    intro out
    rw [List.foldl_cons, cleanStep_plain r out x (h x (List.mem_cons_self _ _)),
      ih (fun z hz => h z (List.mem_cons_of_mem _ hz))]
    simp

theorem cleanStep_empty (r : Bool) (out : List GoString) : cleanStep r out [] = out := by
  simp [cleanStep]

theorem joinSlash_head (l : List GoString) (hne : l ≠ [])
    (h : ∀ x ∈ l, plainName x = true) : (joinSlash l).head? ≠ some '/' := by
  cases l with
  | nil => exact absurd rfl hne
  | cons x xs =>
    obtain ⟨h1, h2, -, -⟩ := plainName_spec x (h x (List.mem_cons_self _ _))
    cases x with
    | nil => exact absurd rfl h1
    | cons c cs =>
      have hc : c ≠ '/' := fun hc => h2 (by rw [hc]; exact List.mem_cons_self _ _)
      cases xs with
      | nil => simpa [joinSlash] using hc
      | cons y ys => simpa [joinSlash] using hc

theorem barePath_head (b : Bool) (l : List GoString) (hne : l ≠ [])
    (h : ∀ x ∈ l, plainName x = true) (t : GoString) :
    ((barePath b l ++ t).head? = some '/') ↔ b = true := by
  cases b with
  | true => simp [barePath]
  | false =>
    have hj := joinSlash_head l hne h
    have hjn : joinSlash l ≠ [] := by
      cases l with
      | nil => exact absurd rfl hne
      | cons x xs =>
        have h1 := (plainName_spec x (h x (List.mem_cons_self _ _))).1
        cases xs with
        | nil => simpa [joinSlash] using h1
        | cons y ys => simp [joinSlash]
    simp only [barePath, Bool.false_eq_true, if_false, List.nil_append, iff_false]
    rw [List.head?_append_of_ne_nil _ hjn]
    exact hj

theorem splitPath_barePath (b : Bool) (l : List GoString) (hne : l ≠ [])
    (h : ∀ x ∈ l, plainName x = true) :
    splitPath (barePath b l) = (if b then [[]] else []) ++ l := by
  cases b with
  | true =>
    simp only [barePath, if_true, List.singleton_append]
    rw [splitPath_cons, if_pos rfl, splitPath_joinSlash l hne h]
  | false => simpa [barePath] using splitPath_joinSlash l hne h

theorem Clean_of_elems (b : Bool) (p : GoString) (l : List GoString) (hne : l ≠ [])
    (hhead : (p.head? = some '/') ↔ b = true) (hel : cleanElems p = l) :
    Clean p = barePath b l := by
  unfold Clean
  rw [hel]
  cases b with
  | true => rw [if_pos (hhead.2 rfl)]; simp [barePath]
  | false =>
    rw [if_neg (fun hh => by cases hhead.1 hh), if_neg hne]
    simp [barePath]

theorem barePath_ne_nil (b : Bool) (l : List GoString) (hne : l ≠ [])
    (h : ∀ x ∈ l, plainName x = true) : barePath b l ≠ [] := by
  intro hnil
  have h1 := barePath_head b l hne h []
  rw [List.append_nil, hnil] at h1
  cases b with
  | true => simp [barePath] at hnil
  | false =>
    cases l with
    | nil => exact absurd rfl hne
    | cons x xs =>
      have hx := (plainName_spec x (h x (List.mem_cons_self _ _))).1
      cases xs with
      | nil => simp [barePath, joinSlash] at hnil; exact hx hnil
      | cons y ys => simp [barePath, joinSlash] at hnil

theorem foldl_cleanStep_bare (b r : Bool) (l t : List GoString)
    (hl : ∀ x ∈ l, plainName x = true) (ht : ∀ x ∈ t, plainName x = true ∨ x = []) :
    ((if b then [[]] else []) ++ l ++ t).foldl (cleanStep r) [] =
      l ++ t.filter (fun x => decide (x ≠ [])) := by
  have hpre : ((if b then [[]] else [] : List GoString)).foldl (cleanStep r) [] = [] := by
    cases b <;> simp [cleanStep_empty]
  rw [List.foldl_append, List.foldl_append, hpre, foldl_cleanStep_plain r l hl, List.nil_append]
  clear hpre hl
  induction t generalizing l with
  | nil => simp
  | cons x xs ih =>
    rw [List.foldl_cons]
    rcases ht x (List.mem_cons_self _ _) with hx | hx
    · rw [cleanStep_plain r l x hx, ih (l ++ [x]) (fun z hz => ht z (List.mem_cons_of_mem _ hz))]
      have hne := (plainName_spec x hx).1
      simp [hne]
    · subst hx
      rw [cleanStep_empty, ih l (fun z hz => ht z (List.mem_cons_of_mem _ hz))]
      simp

theorem Join_barePath (b : Bool) (l : List GoString) (hne : l ≠ [])
    (hl : ∀ x ∈ l, plainName x = true) (n : GoString) (hn : plainName n = true) :
    Join (barePath b l) n = barePath b (l ++ [n]) := by
  unfold Join
  rw [if_pos (barePath_ne_nil b l hne hl)]
  refine Clean_of_elems b _ (l ++ [n]) (by simp) (barePath_head b l hne hl _) ?_
  unfold cleanElems
  rw [splitPath_append, splitPath_barePath b l hne hl,
    splitPath_noSlash n (plainName_spec n hn).2.1,
    foldl_cleanStep_bare b _ l [n] hl (by simp [hn])]
  simp [(plainName_spec n hn).1]

theorem Join_cleanDest (b : Bool) (l : List GoString) (hb : b = true ∨ l ≠ [])
    (hl : ∀ x ∈ l, plainName x = true) (n : GoString) (hn : plainName n = true) :
    Join (cleanDest b l) n = barePath b (l ++ [n]) := by
  have hn1 := (plainName_spec n hn).1
  have hn2 := (plainName_spec n hn).2.1
  by_cases hnil : l = []
  · subst hnil
    rcases hb with hb | hb
    · subst hb
      have hel : cleanElems ('/' :: '/' :: n) = [n] := by
        unfold cleanElems
        rw [splitPath_cons, if_pos rfl, splitPath_cons, if_pos rfl, splitPath_noSlash n hn2]
        simp [cleanStep_empty, cleanStep_plain _ _ n hn]
      have hc := Clean_of_elems true ('/' :: '/' :: n) [n] (by simp) (by simp) hel
      simpa [Join, cleanDest, barePath, joinSlash] using hc
    · exact absurd rfl hb
  · unfold Join
    have hne : cleanDest b l ≠ [] := by
      simp only [cleanDest, hnil, if_false]
      simp
    rw [if_pos hne]
    refine Clean_of_elems b _ (l ++ [n]) (by simp) ?_ ?_
    · simp only [cleanDest, hnil, if_false, List.append_assoc]
      exact barePath_head b l hnil hl _
    · unfold cleanElems
      simp only [cleanDest, hnil, if_false]
      rw [splitPath_append, splitPath_append, splitPath_barePath b l hnil hl,
        splitPath_noSlash n hn2]
      have hsp : splitPath [] = [[]] := rfl
      rw [hsp, List.append_assoc ((if b then [[]] else []) ++ l),
        foldl_cleanStep_bare b _ l ([[]] ++ [n]) hl (by simp [hn])]
      simp [hn1]

theorem foldl_Join_barePath (b : Bool) (names : List GoString)
    (hn : ∀ x ∈ names, plainName x = true) :
    ∀ l, l ≠ [] → (∀ x ∈ l, plainName x = true) →
      names.foldl Join (barePath b l) = barePath b (l ++ names) := by
  induction names with
  | nil => intro l _ _; simp
  | cons n ns ih =>
    intro l hne hl
    rw [List.foldl_cons, Join_barePath b l hne hl n (hn n (List.mem_cons_self _ _)),
      ih (fun z hz => hn z (List.mem_cons_of_mem _ hz)) (l ++ [n]) (by simp)]
    · simp
    · intro x hx
      rcases List.mem_append.1 hx with h | h
      · exact hl x h
      · rw [List.mem_singleton] at h; rw [h]; exact hn n (List.mem_cons_self _ _)

theorem joinSlash_append (l t : List GoString) (hl : l ≠ []) (ht : t ≠ []) :
    joinSlash (l ++ t) = joinSlash l ++ '/' :: joinSlash t := by
  induction l with
  | nil => exact absurd rfl hl
  | cons x xs ih =>
    cases xs with
    | nil =>
      cases t with
      | nil => exact absurd rfl ht
      | cons y ys => simp [joinSlash]
    | cons z zs =>
      have := ih (by simp)
      simp only [List.cons_append] at this ⊢
      rw [joinSlash, this, joinSlash]
      simp

/-- For a destination in clean form (the root `/`, or a clean path of plain
elements followed by one separator, rooted or not), the key `traverse` builds by
repeated `filepath.Join` for the entry names `names` on the way down is the same
string as the destination followed by the names joined with `/`, the path
`main` tests for a local file with that relative path. -/
theorem key_is_mapped_path (b : Bool) (elems names : List GoString)
    (hb : b = true ∨ elems ≠ []) (he : ∀ x ∈ elems, plainName x = true)
    (hn : ∀ x ∈ names, plainName x = true) :
    normDest (cleanDest b elems) = cleanDest b elems ∧
    accumulated (cleanDest b elems) names = cleanDest b elems ++ joinSlash names := by
  constructor
  · unfold normDest HasSuffix
    by_cases hnil : elems = []
    · subst hnil
      rcases hb with hb | hb
      · subst hb; rfl
      · exact absurd rfl hb
    · simp [cleanDest, hnil]
  · cases names with
    | nil => simp [accumulated, joinSlash]
    | cons n ns =>
      have hn0 := hn n (List.mem_cons_self _ _)
      have hns : ∀ x ∈ ns, plainName x = true := fun z hz => hn z (List.mem_cons_of_mem _ hz)
      unfold accumulated
      rw [List.foldl_cons, Join_cleanDest b elems hb he n hn0,
        foldl_Join_barePath b ns hns (elems ++ [n]) (by simp)]
      · rw [List.append_assoc, List.singleton_append]
        by_cases hnil : elems = []
        · subst hnil
          simp [cleanDest, barePath, joinSlash]
        · simp only [cleanDest, hnil, if_false, barePath, List.append_assoc]
          rw [joinSlash_append elems (n :: ns) hnil (by simp)]
          simp
      · intro x hx
        rcases List.mem_append.1 hx with h | h
        · exact he x h
        · rw [List.mem_singleton] at h; rw [h]; exact hn0

set_option maxRecDepth 100000 in
/-- The clean destination `/site/` and the remote file `pub/b.txt` under it. -/
theorem key_is_mapped_path_witness :
    (true = true ∨ ["site".toList] ≠ []) ∧
    cleanDest true ["site".toList] = "/site/".toList ∧
    accumulated "/site/".toList ["pub".toList, "b.txt".toList] = "/site/pub/b.txt".toList ∧
    (normDest (cleanDest true ["site".toList]) = cleanDest true ["site".toList] ∧
      accumulated (cleanDest true ["site".toList]) ["pub".toList, "b.txt".toList] =
        cleanDest true ["site".toList] ++ joinSlash ["pub".toList, "b.txt".toList]) :=
  ⟨by decide, by decide, by decide,
    key_is_mapped_path true ["site".toList] ["pub".toList, "b.txt".toList] (by decide)
      (by decide) (by decide)⟩

/-! ## Logging does not change the scan -/

theorem forEntries_logged_erase {σ : Type}
    (recL : GoString → (σ × List Call) × SeenMap → ((σ × List Call) × SeenMap) × Ret)
    (rec : GoString → σ × SeenMap → (σ × SeenMap) × Ret)
    (hrec : ∀ p s log seen, (recL p ((s, log), seen)).1.1.1 = (rec p (s, seen)).1.1 ∧
      (recL p ((s, log), seen)).1.2 = (rec p (s, seen)).1.2 ∧
      (recL p ((s, log), seen)).2 = (rec p (s, seen)).2)
    (path : GoString) (l : List Entry) :
    ∀ s log seen, (forEntries recL path l ((s, log), seen)).1.1.1 =
        (forEntries rec path l (s, seen)).1.1 ∧
      (forEntries recL path l ((s, log), seen)).1.2 = (forEntries rec path l (s, seen)).1.2 ∧
      (forEntries recL path l ((s, log), seen)).2 = (forEntries rec path l (s, seen)).2 := by
  induction l with
  | nil => intro s log seen; simp [forEntries]
  | cons e l ih =>
    intro s log seen
    unfold forEntries
    by_cases hdot : e.Name = ".".toList ∨ e.Name = "..".toList
    · rw [if_pos hdot, if_pos hdot]; exact ih s log seen
    · rw [if_neg hdot, if_neg hdot]
      by_cases hfile : e.Type_ = EntryTypeFile
      · simp only [hfile, if_true]; exact ih s log _
      · simp only [hfile, if_false]
        by_cases hfolder : e.Type_ = EntryTypeFolder
        · simp only [hfolder, if_true]
          obtain ⟨g1, g2, g3⟩ := hrec (Join path e.Name) s log seen
          rcases hL : recL (Join path e.Name) ((s, log), seen) with ⟨⟨⟨s1, log1⟩, seen1⟩, ret1⟩
          rcases hU : rec (Join path e.Name) (s, seen) with ⟨⟨s2, seen2⟩, ret2⟩
          rw [hL, hU] at g1 g2 g3
          simp only at g1 g2 g3
          subst g1 g2 g3
          rcases ret1 with (_ | err) | _
          · exact ih s1 log1 seen1
          · simp
          · simp
        · simp only [hfolder, if_false]; exact ih s log seen

theorem inorder_logged_erase {σ : Type} (conn : ServerConn σ) (dir : GoString) (fuel : Nat) :
    ∀ path s log seen,
      (inorder (logged conn) dir fuel path ((s, log), seen)).1.1.1 =
        (inorder conn dir fuel path (s, seen)).1.1 ∧
      (inorder (logged conn) dir fuel path ((s, log), seen)).1.2 =
        (inorder conn dir fuel path (s, seen)).1.2 ∧
      (inorder (logged conn) dir fuel path ((s, log), seen)).2 =
        (inorder conn dir fuel path (s, seen)).2 := by
  induction fuel with
  | zero => intro path s log seen; simp [inorder]
  | succ fuel ih =>
    intro path s log seen
    unfold inorder
    simp only [logged_ChangeDir]
    rcases hcd : conn.ChangeDir s path with ⟨s1, r⟩
    cases r with
    | some err => simp
    | none =>
      simp only [logged_List]
      rcases hls : conn.List s1 ".".toList with ⟨s2, res⟩
      cases res with
      | error err => simp
      | ok entries =>
        exact forEntries_logged_erase (inorder (logged conn) dir fuel) (inorder conn dir fuel) ih
          path entries s2 _ seen

theorem traverse_logged_erase {σ : Type} (conn : ServerConn σ) (fuel : Nat) (dir : GoString)
    (s : σ) (log : List Call) :
    (traverse (logged conn) fuel dir (s, log)).1.1 = (traverse conn fuel dir s).1 ∧
    (traverse (logged conn) fuel dir (s, log)).2 = (traverse conn fuel dir s).2 := by
  obtain ⟨h1, h2, h3⟩ := inorder_logged_erase conn dir fuel dir s log []
  unfold traverse
  rcases hL : inorder (logged conn) dir fuel dir ((s, log), []) with ⟨⟨⟨s1, log1⟩, seen1⟩, ret1⟩
  rcases hU : inorder conn dir fuel dir (s, []) with ⟨⟨s2, seen2⟩, ret2⟩
  rw [hL, hU] at h1 h2 h3
  simp only at h1 h2 h3
  subst h1 h2 h3
  rcases ret1 with (_ | err) | _ <;> simp

/-! ## Two runs on the reference server -/

theorem Remote.WF_iff (r : Remote) :
    r.WF = true ↔
      (∀ d ∈ r.dirs, d ≠ [] ∧ (∀ x ∈ d, plainName x = true) ∧ r.isDir d.dropLast = true) ∧
      (∀ f ∈ r.files, f ≠ [] ∧ (∀ x ∈ f, plainName x = true) ∧ r.isDir f.dropLast = true) ∧
      (∀ x ∈ r.cwd, plainName x = true) := by
  simp [Remote.WF, List.all_eq_true, and_assoc]

theorem splitPath_noSlash_mem (p : GoString) : ∀ x ∈ splitPath p, '/' ∉ x := by
  induction p with
  | nil => intro x hx; simp [splitPath] at hx; subst hx; simp
  | cons c cs ih =>
    intro x hx
    rw [splitPath_cons] at hx
    by_cases hc : c = '/'
    · rw [if_pos hc] at hx
      rcases List.mem_cons.1 hx with h | h
      · subst h; simp
      · exact ih x h
    · rw [if_neg hc] at hx
      cases hs : splitPath cs with
      | nil => exact absurd hs (splitPath_ne_nil cs)
      | cons y ys =>
        rw [hs] at hx ih
        rcases List.mem_cons.1 hx with h | h
        · subst h
          have hy := ih y (List.mem_cons_self _ _)
          intro hm
          rcases List.mem_cons.1 hm with h2 | h2
          · exact hc h2.symm
          · exact hy h2
        · exact ih x (List.mem_cons_of_mem _ h)

theorem cleanStep_true_plain (out : List GoString) (c : GoString)
    (hout : ∀ x ∈ out, plainName x = true) (hc : '/' ∉ c) :
    ∀ x ∈ cleanStep true out c, plainName x = true := by
  unfold cleanStep
  by_cases h1 : c = [] ∨ c = ['.']
  · rw [if_pos h1]; exact hout
  · rw [if_neg h1]
    by_cases h2 : c = ['.', '.']
    · rw [if_pos h2]
      cases hl : out.getLast? with
      | none => simpa using hout
      | some l =>
        have hlm : l ∈ out := List.mem_of_getLast?_eq_some hl
        have hlp := (plainName_spec l (hout l hlm)).2.2.2
        simp only [hlp, if_false]
        intro x hx
        exact hout x (List.mem_of_mem_dropLast hx)
    · rw [if_neg h2]
      intro x hx
      rcases List.mem_append.1 hx with h | h
      · exact hout x h
      · rw [List.mem_singleton] at h
        subst h
        have h3 : x ≠ [] := fun h => h1 (Or.inl h)
        have h4 : x ≠ ['.'] := fun h => h1 (Or.inr h)
        simp [plainName, h3, h4, h2, hc]

theorem foldl_cleanStep_true_plain (l : List GoString) (hl : ∀ c ∈ l, '/' ∉ c) :
    ∀ out, (∀ x ∈ out, plainName x = true) →
      ∀ x ∈ l.foldl (cleanStep true) out, plainName x = true := by
  induction l with
  | nil => intro out hout; simpa using hout
  | cons c cs ih =>
    intro out hout
    rw [List.foldl_cons]
    exact ih (fun z hz => hl z (List.mem_cons_of_mem _ hz)) _
      (cleanStep_true_plain out c hout (hl c (List.mem_cons_self _ _)))

theorem cleanElems_rooted (p : GoString) (h : p.head? = some '/') :
    cleanElems p = (splitPath p).foldl (cleanStep true) [] := by
  unfold cleanElems
  simp [h]

theorem Remote.resolve_plain (r : Remote) (p : GoString)
    (hcwd : ∀ x ∈ r.cwd, plainName x = true) : ∀ x ∈ r.resolve p, plainName x = true := by
  unfold Remote.resolve
  by_cases h : p.head? = some '/'
  · rw [if_pos h, cleanElems_rooted p h]
    exact foldl_cleanStep_true_plain _ (splitPath_noSlash_mem p) [] (by simp)
  · rw [if_neg h]
    exact foldl_cleanStep_true_plain _ (splitPath_noSlash_mem p) _ hcwd

theorem Remote.isDir_mono (r r2 : Remote) (h : ∀ d ∈ r.dirs, d ∈ r2.dirs) (d : List GoString)
    (hd : r.isDir d = true) : r2.isDir d = true := by
  simp only [Remote.isDir, decide_eq_true_eq] at hd ⊢
  rcases hd with hd | hd
  · exact Or.inl hd
  · exact Or.inr (h d hd)

theorem Remote.WF_of_grow (r r2 : Remote) (hwf : r.WF = true)
    (hd : ∀ d ∈ r2.dirs, d ∈ r.dirs ∨
      (d ≠ [] ∧ (∀ x ∈ d, plainName x = true) ∧ r.isDir d.dropLast = true))
    (hf : ∀ f ∈ r2.files, f ∈ r.files ∨
      (f ≠ [] ∧ (∀ x ∈ f, plainName x = true) ∧ r.isDir f.dropLast = true))
    (hmono : ∀ d ∈ r.dirs, d ∈ r2.dirs)
    (hcwd : ∀ x ∈ r2.cwd, plainName x = true) : r2.WF = true := by
  rw [Remote.WF_iff] at hwf ⊢
  obtain ⟨w1, w2, -⟩ := hwf
  refine ⟨?_, ?_, hcwd⟩
  · intro d hdm
    rcases hd d hdm with h | ⟨h1, h2, h3⟩
    · obtain ⟨a, b, c⟩ := w1 d h
      exact ⟨a, b, Remote.isDir_mono r r2 hmono _ c⟩
    · exact ⟨h1, h2, Remote.isDir_mono r r2 hmono _ h3⟩
  · intro f hfm
    rcases hf f hfm with h | ⟨h1, h2, h3⟩
    · obtain ⟨a, b, c⟩ := w2 f h
      exact ⟨a, b, Remote.isDir_mono r r2 hmono _ c⟩
    · exact ⟨h1, h2, Remote.isDir_mono r r2 hmono _ h3⟩

theorem refServer_ChangeDir_keeps (r : Remote) (p : GoString) :
    (refServer.ChangeDir r p).1.dirs = r.dirs ∧ (refServer.ChangeDir r p).1.files = r.files ∧
    (r.WF = true → (refServer.ChangeDir r p).1.WF = true) := by
  simp only [refServer]
  by_cases h : r.isDir (r.resolve p) = true
  · rw [if_pos h]
    refine ⟨rfl, rfl, fun hwf => ?_⟩
    refine Remote.WF_of_grow r _ hwf (fun d hd => Or.inl hd) (fun f hf => Or.inl hf)
      (fun d hd => hd) ?_
    exact Remote.resolve_plain r p ((Remote.WF_iff r).1 hwf).2.2
  · rw [if_neg h]
    exact ⟨rfl, rfl, id⟩

theorem refServer_List_keeps (r : Remote) (p : GoString) : (refServer.List r p).1 = r := by
  simp only [refServer]
  split <;> rfl

theorem refServer_MakeDir_keeps (r : Remote) (p : GoString) :
    (∀ d ∈ r.dirs, d ∈ (refServer.MakeDir r p).1.dirs) ∧
    (refServer.MakeDir r p).1.files = r.files ∧
    (refServer.MakeDir r p).1.cwd = r.cwd ∧
    (r.WF = true → (refServer.MakeDir r p).1.WF = true) := by
  simp only [refServer]
  by_cases h1 : r.isDir (r.resolve p) = true ∨ r.resolve p ∈ r.files
  · rw [if_pos h1]; exact ⟨fun d hd => hd, rfl, rfl, id⟩
  · rw [if_neg h1]
    by_cases h2 : r.isDir (r.resolve p).dropLast = true
    · rw [if_pos h2]
      refine ⟨fun d hd => List.mem_append_left _ hd, rfl, rfl, fun hwf => ?_⟩
      have hcwd := ((Remote.WF_iff r).1 hwf).2.2
      refine Remote.WF_of_grow r _ hwf ?_ (fun f hf => Or.inl hf)
        (fun d hd => List.mem_append_left _ hd) hcwd
      intro d hd
      rcases List.mem_append.1 hd with h | h
      · exact Or.inl h
      · rw [List.mem_singleton] at h
        subst h
        refine Or.inr ⟨?_, Remote.resolve_plain r p hcwd, h2⟩
        intro hnil
        exact h1 (Or.inl (by simp [Remote.isDir, hnil]))
    · rw [if_neg h2]; exact ⟨fun d hd => hd, rfl, rfl, id⟩

theorem refServer_Stor_keeps (r : Remote) (p : GoString) (f : File) :
    (refServer.Stor r p f).1.dirs = r.dirs ∧
    (∀ x ∈ r.files, x ∈ (refServer.Stor r p f).1.files) ∧
    (refServer.Stor r p f).1.cwd = r.cwd ∧
    (r.WF = true → (refServer.Stor r p f).1.WF = true) ∧
    ((refServer.Stor r p f).2 = none → r.resolve p ∈ (refServer.Stor r p f).1.files) := by
  simp only [refServer]
  by_cases h1 : r.isDir (r.resolve p) = true
  · rw [if_pos h1]; exact ⟨rfl, fun x hx => hx, rfl, id, by simp⟩
  · rw [if_neg h1]
    by_cases h2 : r.isDir (r.resolve p).dropLast = true
    · rw [if_pos h2]
      by_cases h3 : r.resolve p ∈ r.files
      · rw [if_pos h3]
        exact ⟨rfl, fun x hx => hx, rfl, id, fun _ => h3⟩
      · rw [if_neg h3]
        refine ⟨rfl, fun x hx => List.mem_append_left _ hx, rfl, fun hwf => ?_, fun _ => by simp⟩
        have hcwd := ((Remote.WF_iff r).1 hwf).2.2
        refine Remote.WF_of_grow r _ hwf (fun d hd => Or.inl hd) ?_ (fun d hd => hd) hcwd
        intro x hx
        rcases List.mem_append.1 hx with h | h
        · exact Or.inl h
        · rw [List.mem_singleton] at h
          subst h
          refine Or.inr ⟨?_, Remote.resolve_plain r p hcwd, h2⟩
          intro hnil
          exact h1 (by simp [Remote.isDir, hnil])
    · rw [if_neg h2]; exact ⟨rfl, fun x hx => hx, rfl, id, by simp⟩

theorem cleanElems_barePath (l : List GoString) (hl : ∀ x ∈ l, plainName x = true) :
    cleanElems (barePath true l) = l := by
  by_cases hnil : l = []
  · subst hnil; decide
  · have hhead : (barePath true l).head? = some '/' := by simp [barePath]
    rw [cleanElems_rooted _ hhead, splitPath_barePath true l hnil hl]
    have := foldl_cleanStep_bare true true l [] hl (by simp)
    simpa using this

theorem cleanDest_append_joinSlash (b : Bool) (elems names : List GoString)
    (hn : names ≠ []) :
    cleanDest b elems ++ joinSlash names = barePath b (elems ++ names) := by
  by_cases hnil : elems = []
  · subst hnil
    simp [cleanDest, barePath, joinSlash]
  · simp only [cleanDest, hnil, if_false, barePath, List.append_assoc]
    rw [joinSlash_append elems names hnil hn]
    simp

theorem list_eq_dropLast_append {α : Type} (x : List α) (d : List α) (hne : x ≠ [])
    (hd : x.dropLast = d) (a : α) : x = d ++ [x.getLast?.getD a] := by
  have h := List.dropLast_append_getLast hne
  rw [hd] at h
  rw [List.getLast?_eq_getLast _ hne]
  exact h.symm

theorem Remote.mem_ls (r : Remote) (d : List GoString) (e : Entry) (he : e ∈ r.ls d) :
    (e.Type_ = EntryTypeFolder ∧ d ++ [e.Name] ∈ r.dirs) ∨
    (e.Type_ = EntryTypeFile ∧ d ++ [e.Name] ∈ r.files) := by
  unfold Remote.ls at he
  rcases List.mem_append.1 he with h | h
  · obtain ⟨x, hx, rfl⟩ := List.mem_map.1 h
    rw [List.mem_filter] at hx
    obtain ⟨hx1, hx2⟩ := hx
    simp only [decide_eq_true_eq] at hx2
    refine Or.inl ⟨rfl, ?_⟩
    rw [← list_eq_dropLast_append x d hx2.1 hx2.2 []]
    exact hx1
  · obtain ⟨x, hx, rfl⟩ := List.mem_map.1 h
    rw [List.mem_filter] at hx
    obtain ⟨hx1, hx2⟩ := hx
    simp only [decide_eq_true_eq] at hx2
    refine Or.inr ⟨rfl, ?_⟩
    rw [← list_eq_dropLast_append x d hx2.1 hx2.2 []]
    exact hx1

theorem Remote.ls_of_dir (r : Remote) (d : List GoString) (n : GoString)
    (h : d ++ [n] ∈ r.dirs) : ⟨n, EntryTypeFolder⟩ ∈ r.ls d := by
  unfold Remote.ls
  refine List.mem_append_left _ (List.mem_map.2 ⟨d ++ [n], ?_, by simp⟩)
  rw [List.mem_filter]
  exact ⟨h, by simp⟩

theorem Remote.ls_of_file (r : Remote) (d : List GoString) (n : GoString)
    (h : d ++ [n] ∈ r.files) : ⟨n, EntryTypeFile⟩ ∈ r.ls d := by
  unfold Remote.ls
  refine List.mem_append_right _ (List.mem_map.2 ⟨d ++ [n], ?_, by simp⟩)
  rw [List.mem_filter]
  exact ⟨h, by simp⟩

theorem Remote.isDir_prefix (r : Remote) (hwf : r.WF = true) (p q : List GoString)
    (h : r.isDir (p ++ q) = true) : r.isDir p = true := by
  induction q using List.reverseRecOn with
  | nil => simpa using h
  | append_singleton q x ih =>
    apply ih
    have hne : p ++ (q ++ [x]) ≠ [] := by simp
    have hmem : p ++ (q ++ [x]) ∈ r.dirs := by
      simp only [Remote.isDir, decide_eq_true_eq] at h
      rcases h with h | h
      · exact absurd h hne
      · exact h
    have := (((Remote.WF_iff r).1 hwf).1 _ hmem).2.2
    rw [← List.append_assoc, List.dropLast_concat] at this
    exact this

theorem Remote.file_parent_isDir (r : Remote) (hwf : r.WF = true) (p q : List GoString)
    (hq : q ≠ []) (h : p ++ q ∈ r.files) : r.isDir p = true := by
  have h1 := (((Remote.WF_iff r).1 hwf).2.1 _ h).2.2
  have hq2 := List.dropLast_append_getLast hq
  rw [← hq2, ← List.append_assoc, List.dropLast_concat] at h1
  exact Remote.isDir_prefix r hwf p q.dropLast h1

theorem length_le_depthOf (dirs : List (List GoString)) (d : List GoString) (h : d ∈ dirs) :
    d.length ≤ depthOf dirs := by
  induction dirs with
  | nil => cases h
  | cons x xs ih =>
    simp only [depthOf, List.foldr_cons]
    rcases List.mem_cons.1 h with h | h
    · subst h; exact le_max_left _ _
    · exact le_trans (ih h) (le_max_right _ _)

theorem entryKeys_nil (files : List (List GoString)) (d : List GoString) (k : GoString) :
    ¬ entryKeys files d [] k := by
  simp [entryKeys]

theorem entryKeys_cons_file (files : List (List GoString)) (d : List GoString) (e : Entry)
    (l : List Entry) (k : GoString) (h : e.Type_ = EntryTypeFile) :
    entryKeys files d (e :: l) k ↔ k = barePath true (d ++ [e.Name]) ∨ entryKeys files d l k := by
  have hnf : ¬ EntryTypeFile = EntryTypeFolder := by decide
  simp only [entryKeys, List.mem_cons, exists_eq_or_imp, h, true_and, hnf, false_and, false_or]
  exact or_assoc

theorem entryKeys_cons_folder (files : List (List GoString)) (d : List GoString) (e : Entry)
    (l : List Entry) (k : GoString) (h : e.Type_ = EntryTypeFolder) :
    entryKeys files d (e :: l) k ↔
      keysBelow files (d ++ [e.Name]) k ∨ entryKeys files d l k := by
  have hnf : ¬ EntryTypeFolder = EntryTypeFile := by decide
  simp only [entryKeys, List.mem_cons, exists_eq_or_imp, h, true_and, hnf, false_and, false_or]
  exact or_left_comm

theorem forEntries_refKeys (dir : GoString) (fuel : Nat) (dirs files : List (List GoString))
    (ih : ∀ path D r seen, r.WF = true → r.dirs = dirs → r.files = files →
      path.head? = some '/' → cleanElems path = D → (∀ x ∈ D, plainName x = true) →
      (∀ n, plainName n = true → Join path n = barePath true (D ++ [n])) →
      r.isDir D = true →
      RefScanPost dirs files (keysBelow files D) (depthOf dirs + 1 ≤ fuel + D.length) seen
        (inorder refServer dir fuel path (r, seen)))
    (path : GoString) (D : List GoString) (hD : ∀ x ∈ D, plainName x = true)
    (hJoin : ∀ n, plainName n = true → Join path n = barePath true (D ++ [n]))
    (l : List Entry) :
    (∀ e ∈ l, plainName e.Name = true ∧
      ((e.Type_ = EntryTypeFolder ∧ D ++ [e.Name] ∈ dirs) ∨
        (e.Type_ = EntryTypeFile ∧ D ++ [e.Name] ∈ files))) →
    ∀ r seen, r.WF = true → r.dirs = dirs → r.files = files →
      RefScanPost dirs files (entryKeys files D l) (depthOf dirs + 1 ≤ fuel + (D.length + 1))
        seen (forEntries (inorder refServer dir fuel) path l (r, seen)) := by
  induction l with
  | nil =>
    intro _ r seen hwf hd hf
    exact ⟨hwf, hd, hf, by simp [forEntries], by simp [forEntries],
      by simp [forEntries, entryKeys_nil]⟩
  | cons e l ihl =>
    intro hl r seen hwf hd hf
    have hl2 : ∀ e2 ∈ l, plainName e2.Name = true ∧
        ((e2.Type_ = EntryTypeFolder ∧ D ++ [e2.Name] ∈ dirs) ∨
          (e2.Type_ = EntryTypeFile ∧ D ++ [e2.Name] ∈ files)) :=
      fun e2 he2 => hl e2 (List.mem_cons_of_mem _ he2)
    obtain ⟨hplain, hkind⟩ := hl e (List.mem_cons_self _ _)
    have hne : ¬ EntryTypeFolder = EntryTypeFile := by decide
    have hdot : ¬ (e.Name = ".".toList ∨ e.Name = "..".toList) := by
      obtain ⟨-, -, h3, h4⟩ := plainName_spec e.Name hplain
      rintro (h | h)
      · exact h3 h
      · exact h4 h
    unfold forEntries
    rw [if_neg hdot]
    by_cases hfile : e.Type_ = EntryTypeFile
    · simp only [hfile, if_true]
      obtain ⟨g1, g2, g3, g4, g6, g5⟩ := ihl hl2 r (seen.add (Join path e.Name)) hwf hd hf
      refine ⟨g1, g2, g3, g4, g6, fun hret k => ?_⟩
      rw [g5 hret k, SeenMap.mem_add, hJoin e.Name hplain,
        entryKeys_cons_file files D e l k hfile]
      exact or_assoc
    · simp only [hfile, if_false]
      have hfolder : e.Type_ = EntryTypeFolder := by
        rcases hkind with h | h
        · exact h.1
        · exact absurd h.1 hfile
      have hmem : D ++ [e.Name] ∈ dirs := by
        rcases hkind with h | h
        · exact h.2
        · exact absurd h.1 hfile
      simp only [hfolder, if_true]
      have hD2 : ∀ x ∈ D ++ [e.Name], plainName x = true := by
        intro x hx
        rcases List.mem_append.1 hx with h | h
        · exact hD x h
        · rw [List.mem_singleton] at h; rw [h]; exact hplain
      have hdir2 : r.isDir (D ++ [e.Name]) = true := by
        simp [Remote.isDir, hd, hmem]
      have hrec := ih (Join path e.Name) (D ++ [e.Name]) r seen hwf hd hf
        (by rw [hJoin e.Name hplain]; simp [barePath])
        (by rw [hJoin e.Name hplain]; exact cleanElems_barePath _ hD2) hD2
        (by
          intro n hn
          rw [hJoin e.Name hplain]
          exact Join_barePath true (D ++ [e.Name]) (by simp) hD2 n hn)
        hdir2
      rcases hr : inorder refServer dir fuel (Join path e.Name) (r, seen) with ⟨⟨r1, seen1⟩, ret⟩
      rw [hr] at hrec
      obtain ⟨q1, q2, q3, q4, q6, q5⟩ := hrec
      simp only at q1 q2 q3 q4 q5 q6
      rcases ret with (_ | err) | _
      · obtain ⟨g1, g2, g3, g4, g6, g5⟩ := ihl hl2 r1 seen1 q1 q2 q3
        refine ⟨g1, g2, g3, g4, g6, fun hret k => ?_⟩
        rw [g5 hret k, q5 rfl k, entryKeys_cons_folder files D e l k hfolder]
        exact or_assoc
      · exact absurd rfl (q4 err)
      · refine ⟨q1, q2, q3, by simp, fun hen => ?_, by simp⟩
        exact absurd rfl (q6 (by simpa using hen))

theorem inorder_refKeys (dir : GoString) (dirs files : List (List GoString)) (fuel : Nat) :
    ∀ path D r seen, r.WF = true → r.dirs = dirs → r.files = files →
      path.head? = some '/' → cleanElems path = D → (∀ x ∈ D, plainName x = true) →
      (∀ n, plainName n = true → Join path n = barePath true (D ++ [n])) →
      r.isDir D = true →
      RefScanPost dirs files (keysBelow files D) (depthOf dirs + 1 ≤ fuel + D.length) seen
        (inorder refServer dir fuel path (r, seen)) := by
  induction fuel with
  | zero =>
    intro path D r seen hwf hd hf _ _ _ _ hdir
    refine ⟨hwf, hd, hf, by simp [inorder], fun hen => ?_, by simp [inorder]⟩
    exfalso
    simp only [Remote.isDir, decide_eq_true_eq] at hdir
    rcases hdir with h | h
    · subst h; simp at hen
    · have := length_le_depthOf dirs D (by rw [← hd]; exact h)
      omega
  | succ fuel ih =>
    intro path D r seen hwf hd hf hroot hel hD hJoin hdir
    have hcd : refServer.ChangeDir r path = (⟨r.dirs, r.files, D⟩, none) := by
      rw [refServer_ChangeDir_rooted r path hroot, hel, if_pos hdir]
    have hwf1 : (Remote.mk r.dirs r.files D).WF = true := by
      have := (refServer_ChangeDir_keeps r path).2.2 hwf
      rw [hcd] at this
      exact this
    have hdir1 : (Remote.mk r.dirs r.files D).isDir (Remote.mk r.dirs r.files D).cwd = true :=
      hdir
    have hls := refServer_List_dot _ hdir1
    unfold inorder
    simp only [hcd, hls]
    have hentries : ∀ e ∈ (Remote.mk r.dirs r.files D).ls D, plainName e.Name = true ∧
        ((e.Type_ = EntryTypeFolder ∧ D ++ [e.Name] ∈ dirs) ∨
          (e.Type_ = EntryTypeFile ∧ D ++ [e.Name] ∈ files)) := by
      intro e he
      have hk := Remote.mem_ls _ D e he
      simp only [hd, hf] at hk
      refine ⟨?_, hk⟩
      rw [Remote.WF_iff] at hwf1
      rcases hk with h | h
      · have := (hwf1.1 _ (by simpa [hd] using h.2)).2.1 e.Name (by simp)
        exact this
      · have := (hwf1.2.1 _ (by simpa [hf] using h.2)).2.1 e.Name (by simp)
        exact this
    obtain ⟨g1, g2, g3, g4, g6, g5⟩ := forEntries_refKeys dir fuel dirs files ih path D hD hJoin
      ((Remote.mk r.dirs r.files D).ls D) hentries (Remote.mk r.dirs r.files D) seen hwf1 hd hf
    refine ⟨g1, g2, g3, g4, fun hen => g6 (by omega), fun hret k => ?_⟩
    rw [g5 hret k]
    unfold entryKeys
    constructor
    · rintro (h | ⟨e, he, hfile, rfl⟩ | ⟨e, he, hfolder, names, hn, hmem, rfl⟩)
      · exact Or.inl h
      · refine Or.inr ⟨[e.Name], by simp, ?_, rfl⟩
        rcases (hentries e he).2 with h | h
        · rw [h.1] at hfile; exact absurd hfile (by decide)
        · exact h.2
      · exact Or.inr ⟨e.Name :: names, by simp, by simpa using hmem, by simp⟩
    · rintro (h | ⟨names, hn, hmem, rfl⟩)
      · exact Or.inl h
      · cases names with
        | nil => exact absurd rfl hn
        | cons n rest =>
          by_cases hrest : rest = []
          · subst hrest
            refine Or.inr (Or.inl ⟨⟨n, EntryTypeFile⟩, ?_, rfl, rfl⟩)
            exact Remote.ls_of_file _ D n (by simpa [hf] using hmem)
          · refine Or.inr (Or.inr ⟨⟨n, EntryTypeFolder⟩, ?_, rfl, rest, hrest, ?_, by simp⟩)
            · apply Remote.ls_of_dir
              have hmem2 : (D ++ [n]) ++ rest ∈ (Remote.mk r.dirs r.files D).files := by
                simpa [hf] using hmem
              have hdirn := Remote.file_parent_isDir _ hwf1 (D ++ [n]) rest hrest hmem2
              simp only [Remote.isDir, decide_eq_true_eq] at hdirn
              rcases hdirn with h | h
              · simp at h
              · exact h
            · simpa using hmem

theorem Remote.resolve_rooted (r : Remote) (p : GoString) (h : p.head? = some '/') :
    r.resolve p = cleanElems p := by
  simp [Remote.resolve, h]

theorem upload_of_open {σ : Type} (conn : ServerConn σ) (lfs : LocalFS) (lp rp : GoString)
    (s : σ) (file : File) (h : lfs.Open lp = .ok file) :
    upload conn lfs lp rp s =
      match Option.filter (fun e => decide (e.Error ≠ "550 Already exists".toList))
          (conn.MakeDir s (Dir rp)).2 with
      | some e =>
        ((conn.MakeDir s (Dir rp)).1,
          some (Errorf "failed to change to directory ".toList (Dir rp) e))
      | none =>
        match conn.Stor (conn.MakeDir s (Dir rp)).1 rp file with
        | (s2, some err2) => (s2, some (Errorf "failed to store ".toList rp err2))
        | (s2, none) => (s2, none) := by
  unfold upload
  simp only [h]

theorem upload_ok_inv {σ : Type} (conn : ServerConn σ) (lfs : LocalFS) (lp rp : GoString)
    (s s2 : σ) (h : upload conn lfs lp rp s = (s2, none)) :
    ∃ file, conn.Stor (conn.MakeDir s (Dir rp)).1 rp file = (s2, none) := by
  cases hopen : lfs.Open lp with
  | error err =>
    unfold upload at h
    rw [hopen] at h
    simp at h
  | ok file =>
    rw [upload_of_open conn lfs lp rp s file hopen] at h
    cases hfil : Option.filter (fun e => decide (e.Error ≠ "550 Already exists".toList))
        (conn.MakeDir s (Dir rp)).2 with
    | some e => rw [hfil] at h; simp at h
    | none =>
      rw [hfil] at h
      simp only at h
      rcases hst : conn.Stor (conn.MakeDir s (Dir rp)).1 rp file with ⟨s3, res⟩
      rw [hst] at h
      cases res with
      | some e2 => simp at h
      | none =>
        simp only [Prod.mk.injEq, and_true] at h
        subst h
        exact ⟨file, hst⟩

theorem upload_refServer (lfs : LocalFS) (lp rp : GoString) (r r2 : Remote)
    (hroot : rp.head? = some '/') (h : upload refServer lfs lp rp r = (r2, none))
    (hwf : r.WF = true) :
    r2.WF = true ∧ (∀ d ∈ r.dirs, d ∈ r2.dirs) ∧ (∀ f ∈ r.files, f ∈ r2.files) ∧
      cleanElems rp ∈ r2.files := by
  obtain ⟨file, hst⟩ := upload_ok_inv refServer lfs lp rp r r2 h
  obtain ⟨m1, m2, m3, m4⟩ := refServer_MakeDir_keeps r (Dir rp)
  obtain ⟨t1, t2, t3, t4, t5⟩ := refServer_Stor_keeps (refServer.MakeDir r (Dir rp)).1 rp file
  rw [hst] at t1 t2 t3 t4 t5
  simp only at t1 t2 t3 t4 t5
  refine ⟨t4 (m4 hwf), fun d hd => ?_, fun f hf => ?_, ?_⟩
  · rw [t1]; exact m1 d hd
  · exact t2 f (by rw [m2]; exact hf)
  · have := t5 trivial
    rw [Remote.resolve_rooted _ rp hroot] at this
    exact this

theorem walk_refServer (lfs : LocalFS) (source : GoString) (elems : List GoString)
    (seen : SeenMap) (he : ∀ x ∈ elems, plainName x = true) (steps : List WalkStep) :
    ∀ (p p2 : Progress Remote),
      WalkDir (walkFn refServer lfs source (cleanDest true elems) seen) steps p = (p2, none) →
      p.conn.WF = true → PlainWalk source steps →
      p2.conn.WF = true ∧ (∀ d ∈ p.conn.dirs, d ∈ p2.conn.dirs) ∧
      (∀ f ∈ p.conn.files, f ∈ p2.conn.files) ∧
      ∀ w ∈ steps, w.err = none ∧ (w.IsDir = false →
        ∃ names, names ≠ [] ∧ (∀ x ∈ names, plainName x = true) ∧
          Rel source w.path = .ok (joinSlash names) ∧
          (cleanDest true elems ++ joinSlash names ∈ seen ∨
            elems ++ names ∈ p2.conn.files)) := by
  induction steps with
  | nil =>
    intro p p2 h hwf _
    simp only [WalkDir, Prod.mk.injEq, and_true] at h
    subst h
    exact ⟨hwf, fun d hd => hd, fun f hf => hf, by simp⟩
  | cons w ws ih =>
    intro p p2 h hwf hplain
    have hplain2 : PlainWalk source ws := fun w2 hw2 => hplain w2 (List.mem_cons_of_mem _ hw2)
    unfold WalkDir at h
    rcases hstep : walkFn refServer lfs source (cleanDest true elems) seen w p with ⟨p1, r1⟩
    rw [hstep] at h
    cases r1 with
    | some err => simp at h
    | none =>
      simp only at h
      have key : p1.conn.WF = true ∧ (∀ d ∈ p.conn.dirs, d ∈ p1.conn.dirs) ∧
          (∀ f ∈ p.conn.files, f ∈ p1.conn.files) ∧ w.err = none ∧
          (w.IsDir = false →
            ∃ names, names ≠ [] ∧ (∀ x ∈ names, plainName x = true) ∧
              Rel source w.path = .ok (joinSlash names) ∧
              (cleanDest true elems ++ joinSlash names ∈ seen ∨
                elems ++ names ∈ p1.conn.files)) := by
        unfold walkFn at hstep
        cases herr : w.err with
        | some err => rw [herr] at hstep; simp at hstep
        | none =>
          rw [herr] at hstep
          simp only at hstep
          cases hdir : w.IsDir with
          | true =>
            rw [hdir] at hstep
            simp only [Bool.not_true, Bool.false_eq_true, if_false, Prod.mk.injEq,
              and_true] at hstep
            subst hstep
            exact ⟨hwf, fun d hd => hd, fun f hf => hf, rfl, by simp⟩
          | false =>
            rw [hdir] at hstep
            simp only [Bool.not_false, if_true] at hstep
            cases hrel : Rel source w.path with
            | error e => rw [hrel] at hstep; simp at hstep
            | ok rel =>
              rw [hrel] at hstep
              simp only at hstep
              obtain ⟨names, hn1, hn2, hn3⟩ := hplain w (List.mem_cons_self _ _) hdir rel hrel
              subst hn3
              by_cases hmem : cleanDest true elems ++ joinSlash names ∈ seen
              · simp only [hmem, not_true_eq_false, if_false, Prod.mk.injEq, and_true] at hstep
                subst hstep
                exact ⟨hwf, fun d hd => hd, fun f hf => hf, rfl,
                  fun _ => ⟨names, hn1, hn2, rfl, Or.inl hmem⟩⟩
              · simp only [hmem, not_false_eq_true, if_true] at hstep
                rcases hup : upload refServer lfs w.path
                  (cleanDest true elems ++ joinSlash names) p.conn with ⟨c, r⟩
                rw [hup] at hstep
                cases r with
                | some err => simp at hstep
                | none =>
                  simp only [Prod.mk.injEq, and_true] at hstep
                  subst hstep
                  have hbare := cleanDest_append_joinSlash true elems names hn1
                  have hall : ∀ x ∈ elems ++ names, plainName x = true := by
                    intro x hx
                    rcases List.mem_append.1 hx with h | h
                    · exact he x h
                    · exact hn2 x h
                  obtain ⟨u1, u2, u3, u4⟩ := upload_refServer lfs w.path _ p.conn c
                    (by rw [hbare]; simp [barePath]) hup hwf
                  rw [hbare, cleanElems_barePath _ hall] at u4
                  exact ⟨u1, u2, u3, rfl, fun _ => ⟨names, hn1, hn2, rfl, Or.inr u4⟩⟩
      obtain ⟨k1, k2, k3, k5, k4⟩ := key
      obtain ⟨i1, i2, i3, i4⟩ := ih p1 p2 h k1 hplain2
      refine ⟨i1, fun d hd => i2 d (k2 d hd), fun f hf => i3 f (k3 f hf), ?_⟩
      intro w2 hw2
      rcases List.mem_cons.1 hw2 with hw | hw
      · subst hw
        refine ⟨k5, fun hdir2 => ?_⟩
        obtain ⟨names, a1, a2, a3, a4⟩ := k4 hdir2
        refine ⟨names, a1, a2, a3, ?_⟩
        rcases a4 with a | a
        · exact Or.inl a
        · exact Or.inr (i3 _ a)
      · exact i4 w2 hw

theorem cleanElems_cleanDest (elems : List GoString) (he : ∀ x ∈ elems, plainName x = true) :
    cleanElems (cleanDest true elems) = elems := by
  by_cases hnil : elems = []
  · subst hnil; decide
  · have hhead : (cleanDest true elems).head? = some '/' := by simp [cleanDest, barePath]
    rw [cleanElems_rooted _ hhead]
    simp only [cleanDest, hnil, if_false]
    rw [splitPath_append, splitPath_barePath true elems hnil he]
    have hsp : splitPath [] = [[]] := rfl
    rw [hsp]
    have := foldl_cleanStep_bare true true elems [[]] he (by simp)
    simpa using this

theorem inorder_refServer_entered (dir : GoString) (fuel : Nat) (path : GoString) (r : Remote)
    (seen : SeenMap) (hroot : path.head? = some '/')
    (h : (inorder refServer dir fuel path (r, seen)).2 = .returned none) :
    r.isDir (cleanElems path) = true := by
  cases fuel with
  | zero => simp [inorder] at h
  | succ fuel =>
    by_contra hdir
    unfold inorder at h
    rw [refServer_ChangeDir_rooted r path hroot, if_neg hdir] at h
    simp at h

theorem traverse_refServer_keys (fuel : Nat) (elems : List GoString)
    (he : ∀ x ∈ elems, plainName x = true) (r : Remote) (hwf : r.WF = true) :
    (traverse refServer fuel (cleanDest true elems) r).1.WF = true ∧
    (traverse refServer fuel (cleanDest true elems) r).1.dirs = r.dirs ∧
    (traverse refServer fuel (cleanDest true elems) r).1.files = r.files ∧
    (r.isDir elems = true →
      (traverse refServer fuel (cleanDest true elems) r).2 ≠ none →
      ∃ seen, (traverse refServer fuel (cleanDest true elems) r).2 = some (some seen, none) ∧
        ∀ k, k ∈ seen ↔ keysBelow r.files elems k) ∧
    (r.isDir elems = true → r.depth < fuel →
      (traverse refServer fuel (cleanDest true elems) r).2 ≠ none) ∧
    (∀ m, (traverse refServer fuel (cleanDest true elems) r).2 = some (m, none) →
      r.isDir elems = true) := by
  have hhead : (cleanDest true elems).head? = some '/' := by simp [cleanDest, barePath]
  have hel := cleanElems_cleanDest elems he
  have hent := inorder_refServer_entered (cleanDest true elems) fuel (cleanDest true elems) r []
    hhead
  rw [hel] at hent
  have hpost : r.isDir elems = true →
      RefScanPost r.dirs r.files (keysBelow r.files elems)
        (depthOf r.dirs + 1 ≤ fuel + elems.length) []
        (inorder refServer (cleanDest true elems) fuel (cleanDest true elems) (r, [])) :=
    fun hdir => inorder_refKeys (cleanDest true elems) r.dirs r.files fuel
      (cleanDest true elems) elems r [] hwf rfl rfl hhead hel he
      (fun n hn => Join_cleanDest true elems (Or.inl rfl) he n hn) hdir
  unfold traverse
  rcases hr : inorder refServer (cleanDest true elems) fuel (cleanDest true elems) (r, [])
    with ⟨⟨r1, seen1⟩, ret⟩
  rw [hr] at hent hpost
  simp only at hent
  have hkeep : r1.WF = true ∧ r1.dirs = r.dirs ∧ r1.files = r.files := by
    by_cases hdir : r.isDir elems = true
    · obtain ⟨a, b, c, -, -, -⟩ := hpost hdir
      exact ⟨a, b, c⟩
    · cases fuel with
      | zero =>
        simp only [inorder, Prod.mk.injEq] at hr
        obtain ⟨⟨rfl, -⟩, -⟩ := hr
        exact ⟨hwf, rfl, rfl⟩
      | succ fuel =>
        unfold inorder at hr
        rw [refServer_ChangeDir_rooted r _ hhead, hel, if_neg hdir] at hr
        simp only [Prod.mk.injEq] at hr
        obtain ⟨⟨rfl, -⟩, -⟩ := hr
        exact ⟨hwf, rfl, rfl⟩
  rcases ret with (_ | err) | _
  · refine ⟨hkeep.1, hkeep.2.1, hkeep.2.2, fun hdir _ => ?_, fun _ _ => by simp,
      fun _ _ => hent rfl⟩
    obtain ⟨-, -, -, -, -, q5⟩ := hpost hdir
    exact ⟨seen1, rfl, fun k => by simpa using q5 rfl k⟩
  · refine ⟨hkeep.1, hkeep.2.1, hkeep.2.2, fun hdir _ => ?_, fun _ _ => by simp,
      fun m hm => by simp at hm⟩
    obtain ⟨-, -, -, q4, -, -⟩ := hpost hdir
    exact absurd rfl (q4 err)
  · refine ⟨hkeep.1, hkeep.2.1, hkeep.2.2, fun _ hne => absurd rfl hne, fun hdir hlt => ?_,
      fun m hm => by simp at hm⟩
    obtain ⟨-, -, -, -, q6, -⟩ := hpost hdir
    exact absurd rfl (q6 (by unfold Remote.depth at hlt; omega))

theorem barePath_injective (a b : List GoString) (ha : ∀ x ∈ a, plainName x = true)
    (hb : ∀ x ∈ b, plainName x = true) (h : barePath true a = barePath true b) : a = b := by
  rw [← cleanElems_barePath a ha, ← cleanElems_barePath b hb, h]

/-- C1 (idempotence), as amended, on the reference server: the destination is
absolute and in clean form, the remote tree is made of files and folders with
plain names, and every local file has a relative path of plain elements. If a
first run completes, a second run from the server as the first left it, logged
in at the same directory, with the same local tree and a budget above the
depth of the remote tree, completes and uploads nothing: no `MakeDir`, no `Stor`,
`uploaded = 0`, and the output `scanning...`, `no changes`. -/
theorem second_run_idempotent (lfs : LocalFS) (source dest : GoString)
    (elems : List GoString) (r0 : Remote) (fuel1 fuel2 : Nat)
    (hdest : normDest dest = cleanDest true elems) (he : ∀ x ∈ elems, plainName x = true)
    (hwf : r0.WF = true) (hplain : PlainWalk source (lfs.Walk source))
    (h1 : (main refServer lfs fuel1 source dest r0).status = .exit0)
    (h2 : (main refServer lfs fuel1 source dest r0).conn.depth < fuel2) :
    (main (logged refServer) lfs fuel2 source dest
      ((main refServer lfs fuel1 source dest r0).conn.login r0.cwd, [])).status = .exit0 ∧
    (main (logged refServer) lfs fuel2 source dest
      ((main refServer lfs fuel1 source dest r0).conn.login r0.cwd, [])).uploaded = 0 ∧
    (∀ c ∈ (main (logged refServer) lfs fuel2 source dest
      ((main refServer lfs fuel1 source dest r0).conn.login r0.cwd, [])).conn.2,
      c.isMakeDir = false ∧ c.isStor = false) ∧
    (main (logged refServer) lfs fuel2 source dest
      ((main refServer lfs fuel1 source dest r0).conn.login r0.cwd, [])).stdout =
      ["scanning...".toList, "no changes".toList] := by
  -- the first run
  obtain ⟨a1, a2, a3, a4, -, a5⟩ := traverse_refServer_keys fuel1 elems he r0 hwf
  rcases ht : traverse refServer fuel1 (normDest dest) r0 with ⟨ra, res⟩
  rw [← hdest, ht] at a1 a2 a3 a4 a5
  simp only at a1 a2 a3 a4 a5
  rcases res with _ | ⟨m, _ | e⟩
  · rw [main_of_exhausted _ _ _ _ _ _ _ ht] at h1; cases h1
  swap
  · rw [main_of_scanError _ _ _ _ _ _ _ _ _ ht] at h1; cases h1
  have hdirE := a5 m rfl
  obtain ⟨seen1, hm, hseen1⟩ := a4 hdirE (by simp)
  simp only [Option.some.injEq, Prod.mk.injEq, and_true] at hm
  subst hm
  rcases hw : WalkDir (walkFn refServer lfs source (normDest dest) ((some seen1).getD []))
    (lfs.Walk source) ⟨ra, ["scanning...".toList], 0⟩ with ⟨p, r⟩
  cases r with
  | some err => rw [main_of_walkError _ _ _ _ _ _ _ _ _ _ ht hw] at h1; cases h1
  | none =>
    have hconn : (main refServer lfs fuel1 source dest r0).conn = p.conn := by
      rw [main_of_walked _ _ _ _ _ _ _ _ _ ht hw]
      split <;> rfl
    rw [hconn] at h2 ⊢
    have hw2 := hw
    rw [hdest] at hw2
    obtain ⟨b1, b2, b3, b4⟩ := walk_refServer lfs source elems seen1 he (lfs.Walk source) _ p
      hw2 a1 hplain
    simp only at b2 b3
    -- every local file is on the server after the first run
    have hfiles : ∀ w ∈ lfs.Walk source, w.err = none ∧ (w.IsDir = false →
        ∃ names, names ≠ [] ∧ (∀ x ∈ names, plainName x = true) ∧
          Rel source w.path = .ok (joinSlash names) ∧ elems ++ names ∈ p.conn.files) := by
      intro w hwm
      obtain ⟨c1, c2⟩ := b4 w hwm
      refine ⟨c1, fun hdir => ?_⟩
      obtain ⟨names, n1, n2, n3, n4⟩ := c2 hdir
      refine ⟨names, n1, n2, n3, ?_⟩
      rcases n4 with h | h
      · obtain ⟨names2, -, k2, k3⟩ := (hseen1 _).1 h
        rw [cleanDest_append_joinSlash true elems names n1] at k3
        have hall : ∀ x ∈ elems ++ names, plainName x = true := by
          intro x hx
          rcases List.mem_append.1 hx with h | h
          · exact he x h
          · exact n2 x h
        have hall2 : ∀ x ∈ elems ++ names2, plainName x = true :=
          (((Remote.WF_iff r0).1 hwf).2.1 _ k2).2.1
        rw [barePath_injective _ _ hall hall2 k3]
        exact b3 _ (by rw [a3]; exact k2)
      · exact h
    -- the second run
    have hwf2 : (p.conn.login r0.cwd).WF = true := by
      rw [Remote.WF_iff] at b1 hwf ⊢
      exact ⟨b1.1, b1.2.1, hwf.2.2⟩
    have hdir2 : (p.conn.login r0.cwd).isDir elems = true := by
      simp only [Remote.isDir, decide_eq_true_eq] at hdirE ⊢
      rcases hdirE with h | h
      · exact Or.inl h
      · exact Or.inr (b2 _ (by rw [a2]; exact h))
    obtain ⟨d1, d2, d3, d4, d5, -⟩ := traverse_refServer_keys fuel2 elems he
      (p.conn.login r0.cwd) hwf2
    obtain ⟨e1, e2⟩ := traverse_logged_erase refServer fuel2 (normDest dest)
      (p.conn.login r0.cwd) []
    have hne : (traverse refServer fuel2 (cleanDest true elems) (p.conn.login r0.cwd)).2 ≠
        none := d5 hdir2 h2
    obtain ⟨seen2, hs2, hseen2⟩ := d4 hdir2 hne
    rw [← hdest, ← e2] at hs2
    have hre := run_of_full_snapshot refServer lfs fuel2 source dest (p.conn.login r0.cwd)
      seen2 hs2 (by
        intro w hwm
        obtain ⟨c1, c2⟩ := hfiles w hwm
        refine ⟨c1, fun hdir => ?_⟩
        obtain ⟨names, n1, n2, n3, n4⟩ := c2 hdir
        refine ⟨joinSlash names, n3, ?_⟩
        rw [hdest, hseen2]
        exact ⟨names, n1, n4, cleanDest_append_joinSlash true elems names n1⟩)
    exact ⟨hre.1, hre.2.1, hre.2.2.2.1, hre.2.2.2.2⟩

set_option maxRecDepth 100000 in
/-- C1 at a concrete pair of runs: destination `/site`, local files `a.txt`
and `sub/b.txt`, server with an empty `/site`; the first run uploads both
files, the second none. -/
theorem second_run_idempotent_witness :
    normDest "/site".toList = cleanDest true ["site".toList] ∧
    emptySite.WF = true ∧
    PlainWalk "src".toList (twoFiles.Walk "src".toList) ∧
    (main refServer twoFiles 5 "src".toList "/site".toList emptySite).status = .exit0 ∧
    (main refServer twoFiles 5 "src".toList "/site".toList emptySite).uploaded = 2 ∧
    (main refServer twoFiles 5 "src".toList "/site".toList emptySite).conn.depth < 5 ∧
    ((main (logged refServer) twoFiles 5 "src".toList "/site".toList
      ((main refServer twoFiles 5 "src".toList "/site".toList emptySite).conn.login
        emptySite.cwd, [])).status = .exit0 ∧
    (main (logged refServer) twoFiles 5 "src".toList "/site".toList
      ((main refServer twoFiles 5 "src".toList "/site".toList emptySite).conn.login
        emptySite.cwd, [])).uploaded = 0 ∧
    (∀ c ∈ (main (logged refServer) twoFiles 5 "src".toList "/site".toList
      ((main refServer twoFiles 5 "src".toList "/site".toList emptySite).conn.login
        emptySite.cwd, [])).conn.2, c.isMakeDir = false ∧ c.isStor = false) ∧
    (main (logged refServer) twoFiles 5 "src".toList "/site".toList
      ((main refServer twoFiles 5 "src".toList "/site".toList emptySite).conn.login
        emptySite.cwd, [])).stdout = ["scanning...".toList, "no changes".toList]) := by
  have hplain : PlainWalk "src".toList (twoFiles.Walk "src".toList) := by
    intro w hw hdir rel hrel
    simp only [twoFiles, List.mem_cons, List.mem_singleton, List.not_mem_nil, or_false] at hw
    rcases hw with rfl | rfl | rfl | rfl
    · cases hdir
    · have h : Rel "src".toList "src/a.txt".toList = .ok "a.txt".toList := by decide
      rw [h] at hrel
      cases hrel
      exact ⟨["a.txt".toList], by decide, by decide, by decide⟩
    · cases hdir
    · have h : Rel "src".toList "src/sub/b.txt".toList = .ok "sub/b.txt".toList := by decide
      rw [h] at hrel
      cases hrel
      exact ⟨["sub".toList, "b.txt".toList], by decide, by decide, by decide⟩
  exact ⟨by decide, by decide, hplain, by decide, by decide, by decide,
    (second_run_idempotent twoFiles "src".toList "/site".toList ["site".toList] emptySite 5 5
      (by decide) (by decide) (by decide) hplain (by decide) (by decide))⟩

/-! ## Re-anchoring (C5) -/

theorem traverse_log_eq {σ : Type} (conn : ServerConn σ) (fuel : Nat) (dir : GoString)
    (s : σ) :
    (traverse conn fuel dir s).1 = (inorder conn dir fuel dir (s, [])).1.1 := by
  unfold traverse
  rcases inorder conn dir fuel dir (s, []) with ⟨st, (_ | e) | _⟩ <;> rfl

theorem forEntries_scan {σ : Type} (conn : ServerConn σ) (Inv : σ → Prop)
    (Good : GoString → Prop) (P : GoString → Except GoError (List Entry) → Prop)
    (dir : GoString) (fuel : Nat) (hjoin : ∀ p n, Good p → Good (Join p n))
    (ih : ∀ path s log seen, Inv s → Good path →
      ∃ d b, (inorder (logged conn) dir fuel path ((s, log), seen)).1.1.2 = log ++ d ∧
        Inv (inorder (logged conn) dir fuel path ((s, log), seen)).1.1.1 ∧
        Scan P path d b ∧
        ((inorder (logged conn) dir fuel path ((s, log), seen)).2 = .returned none ↔
          b = true))
    (path : GoString) (hgood : Good path) (l : List Entry) :
    ∀ (s : σ) (log : List Call) (seen : SeenMap), Inv s →
      ∃ d b,
        (forEntries (inorder (logged conn) dir fuel) path l ((s, log), seen)).1.1.2 =
          log ++ d ∧
        Inv (forEntries (inorder (logged conn) dir fuel) path l ((s, log), seen)).1.1.1 ∧
        ScanEntries P path l d b ∧
        ((forEntries (inorder (logged conn) dir fuel) path l ((s, log), seen)).2 =
          .returned none ↔ b = true) := by
  induction l with
  | nil =>
    intro s log seen hs
    exact ⟨[], true, by simp [forEntries], by simpa [forEntries] using hs,
      ScanEntries.done _, by simp [forEntries]⟩
  | cons e l ihl =>
    intro s log seen hs
    unfold forEntries
    by_cases hdot : e.Name = ".".toList ∨ e.Name = "..".toList
    · rw [if_pos hdot]
      have hvis : e.visible = false := by
        unfold Entry.visible; rw [decide_eq_true hdot]; rfl
      obtain ⟨d, b, h1, h2, h3, h4⟩ := ihl s log seen hs
      exact ⟨d, b, h1, h2, ScanEntries.skip (by simp [hvis]) h3, h4⟩
    · rw [if_neg hdot]
      have hvis : e.visible = true := by
        unfold Entry.visible; rw [decide_eq_false hdot]; rfl
      by_cases hfile : e.Type_ = EntryTypeFile
      · simp only [hfile, if_true]
        have hnf : ¬ e.Type_ = EntryTypeFolder := by rw [hfile]; decide
        obtain ⟨d, b, h1, h2, h3, h4⟩ := ihl s log (seen.add (Join path e.Name)) hs
        exact ⟨d, b, h1, h2, ScanEntries.skip (by simp [hnf]) h3, h4⟩
      · simp only [hfile, if_false]
        by_cases hfolder : e.Type_ = EntryTypeFolder
        · simp only [hfolder, if_true]
          obtain ⟨d1, b1, g1, g2, g3, g4⟩ := ih (Join path e.Name) s log seen hs
            (hjoin _ _ hgood)
          rcases hr : inorder (logged conn) dir fuel (Join path e.Name) ((s, log), seen)
            with ⟨⟨⟨s1, log1⟩, seen1⟩, ret⟩
          rw [hr] at g1 g2 g4
          simp only at g1 g2 g4
          cases ret with
          | exhausted =>
            have hb : b1 = false := by
              cases b1 with
              | false => rfl
              | true => exact absurd (g4.2 rfl) (by simp)
            subst hb
            exact ⟨d1, false, g1, g2, ScanEntries.stop hvis hfolder g3, by simp⟩
          | returned err =>
            cases err with
            | some err =>
              have hb : b1 = false := by
                cases b1 with
                | false => rfl
                | true => exact absurd (g4.2 rfl) (by simp)
              subst hb
              exact ⟨d1, false, g1, g2, ScanEntries.stop hvis hfolder g3, by simp⟩
            | none =>
              have hb1 := g4.1 rfl
              subst hb1
              obtain ⟨d2, b2, h1, h2, h3, h4⟩ := ihl s1 log1 seen1 g2
              refine ⟨d1 ++ d2, b2, ?_, h2, ScanEntries.enter hvis hfolder g3 h3, h4⟩
              simp only
              rw [h1, g1, List.append_assoc]
        · simp only [hfolder, if_false]
          obtain ⟨d, b, h1, h2, h3, h4⟩ := ihl s log seen hs
          exact ⟨d, b, h1, h2, ScanEntries.skip (by simp [hfolder]) h3, h4⟩

theorem inorder_scan {σ : Type} (conn : ServerConn σ) (Inv : σ → Prop)
    (Good : GoString → Prop) (P : GoString → Except GoError (List Entry) → Prop)
    (dir : GoString) (hjoin : ∀ p n, Good p → Good (Join p n))
    (hstep : ∀ s p, Inv s → Good p → Inv (conn.ChangeDir s p).1 ∧
      ((conn.ChangeDir s p).2 = none →
        Inv (conn.List (conn.ChangeDir s p).1 ".".toList).1 ∧
        P p (conn.List (conn.ChangeDir s p).1 ".".toList).2))
    (fuel : Nat) :
    ∀ path s log seen, Inv s → Good path →
      ∃ d b, (inorder (logged conn) dir fuel path ((s, log), seen)).1.1.2 = log ++ d ∧
        Inv (inorder (logged conn) dir fuel path ((s, log), seen)).1.1.1 ∧
        Scan P path d b ∧
        ((inorder (logged conn) dir fuel path ((s, log), seen)).2 = .returned none ↔
          b = true) := by
  induction fuel with
  | zero =>
    intro path s log seen hs _
    exact ⟨[], false, by simp [inorder], by simpa [inorder] using hs, Scan.cut _,
      by simp [inorder]⟩
  | succ fuel ih =>
    intro path s log seen hs hgood
    obtain ⟨c1, c2⟩ := hstep s path hs hgood
    unfold inorder
    simp only [logged_ChangeDir]
    rcases hcd : conn.ChangeDir s path with ⟨s1, r⟩
    rw [hcd] at c1 c2
    simp only at c1 c2
    cases r with
    | some err =>
      exact ⟨[Call.ChangeDir path (some err)], false, by simp, by simpa using c1,
        Scan.refused _ _, by simp⟩
    | none =>
      obtain ⟨c3, c4⟩ := c2 rfl
      simp only [logged_List]
      rcases hls : conn.List s1 ".".toList with ⟨s2, res⟩
      rw [hls] at c3 c4
      simp only at c3 c4
      cases res with
      | error err =>
        exact ⟨[Call.ChangeDir path none, Call.ListDir ".".toList (.error err)], false,
          by simp, by simpa using c3, Scan.unlisted _ _ c4, by simp⟩
      | ok entries =>
        simp only
        obtain ⟨d, b, h1, h2, h3, h4⟩ := forEntries_scan conn Inv Good P dir fuel hjoin ih path
          hgood entries s2
          (log ++ [Call.ChangeDir path none] ++ [Call.ListDir ".".toList (.ok entries)]) seen c3
        refine ⟨Call.ChangeDir path none :: Call.ListDir ".".toList (.ok entries) :: d, b,
          ?_, h2, Scan.listed c4 h3, h4⟩
        rw [h1]; simp

theorem traverse_returned_iff {σ : Type} (conn : ServerConn σ) (fuel : Nat) (dir : GoString)
    (s : σ) :
    (inorder conn dir fuel dir (s, [])).2 = .returned none ↔
      ∃ seen, (traverse conn fuel dir s).2 = some (some seen, none) := by
  unfold traverse
  rcases inorder conn dir fuel dir (s, []) with ⟨st, (_ | e) | _⟩ <;> simp

theorem cleanElems_Join (p name : GoString) (hp : p.head? = some '/')
    (hn : plainName name = true) : cleanElems (Join p name) = cleanElems p ++ [name] := by
  have hne : p ≠ [] := by
    intro h; rw [h] at hp; cases hp
  have hq : (p ++ '/' :: name).head? = some '/' := by
    cases p with
    | nil => exact absurd rfl hne
    | cons c cs => simpa using hp
  have hplain : ∀ x ∈ cleanElems p ++ [name], plainName x = true := by
    intro x hx
    rcases List.mem_append.1 hx with h | h
    · rw [cleanElems_rooted p hp] at h
      exact foldl_cleanStep_true_plain _ (splitPath_noSlash_mem p) [] (by simp) x h
    · rw [List.mem_singleton] at h; rw [h]; exact hn
  have hel : cleanElems (p ++ '/' :: name) = cleanElems p ++ [name] := by
    rw [cleanElems_rooted _ hq, cleanElems_rooted p hp, splitPath_append, List.foldl_append,
      splitPath_noSlash name (plainName_spec name hn).2.1, List.foldl_cons, List.foldl_nil,
      cleanStep_plain true _ name hn]
  unfold Join
  rw [if_pos hne, Clean_of_elems true _ (cleanElems p ++ [name]) (by simp) (by simp [hq]) hel]
  exact cleanElems_barePath _ hplain

/-- C5 (re-anchoring), as amended: on any server the call log of `traverse` is
that of a scan of the root in which every `List` call is `List(".")` and comes
right after a successful `ChangeDir` to the accumulated path of the directory
being listed: the root itself, and for each entry of kind `Folder` followed in
the listing of a directory with accumulated path `p`, the path
`Join(p, entry.Name)`. When the destination root, with its separator appended,
is absolute (begins with `/`), each of these paths is absolute and, on the
reference server, the listing obtained is the listing of the directory that
path names from the root, for siblings listed after a descent as for any other
directory, whatever cursor the descent left. That directory is the one the
entry stands for: for an absolute `p` and an entry with a plain name, the
elements of `Join(p, entry.Name)` are those of `p` followed by the name. -/
theorem reanchoring (fuel : Nat) (dest : GoString) :
    (∀ (σ : Type) (conn : ServerConn σ) (s : σ), ∃ b,
      Scan (fun _ _ => True) (normDest dest)
        (traverse (logged conn) fuel (normDest dest) (s, [])).1.2 b ∧
      (b = true ↔ ∃ seen,
        (traverse (logged conn) fuel (normDest dest) (s, [])).2 = some (some seen, none))) ∧
    ((normDest dest).head? = some '/' → ∀ r0 : Remote, ∃ b,
      Scan (ReAnchored r0.dirs r0.files) (normDest dest)
        (traverse (logged refServer) fuel (normDest dest) (r0, [])).1.2 b ∧
      (b = true ↔ ∃ seen,
        (traverse (logged refServer) fuel (normDest dest) (r0, [])).2 =
          some (some seen, none))) ∧
    (∀ p name : GoString, p.head? = some '/' → plainName name = true →
      cleanElems (Join p name) = cleanElems p ++ [name]) := by
  refine ⟨?_, ?_, cleanElems_Join⟩
  · intro σ conn s
    obtain ⟨d, b, h1, -, h2, h3⟩ := inorder_scan conn (fun _ => True) (fun _ => True)
      (fun _ _ => True) (normDest dest) (fun _ _ _ => trivial)
      (fun _ _ _ _ => ⟨trivial, fun _ => ⟨trivial, trivial⟩⟩) fuel (normDest dest) s [] []
      trivial trivial
    rw [traverse_log_eq, h1, ← traverse_returned_iff]
    exact ⟨b, by simpa using h2, h3.symm⟩
  · intro hroot r0
    obtain ⟨d, b, h1, -, h2, h3⟩ := inorder_scan refServer
      (fun s => s.dirs = r0.dirs ∧ s.files = r0.files) (fun p => p.head? = some '/')
      (ReAnchored r0.dirs r0.files) (normDest dest) (fun p n hp => Join_rooted p n hp)
      (by
        intro s p hs hp
        obtain ⟨hd, hf⟩ := hs
        rw [refServer_ChangeDir_rooted s p hp]
        by_cases hdir : s.isDir (cleanElems p) = true
        · rw [if_pos hdir]
          have hdir1 : (Remote.mk s.dirs s.files (cleanElems p)).isDir
              (Remote.mk s.dirs s.files (cleanElems p)).cwd = true := hdir
          refine ⟨⟨hd, hf⟩, fun _ => ?_⟩
          rw [refServer_List_dot _ hdir1]
          refine ⟨⟨hd, hf⟩, hp, ?_⟩
          simp only [Except.ok.injEq]
          unfold Remote.ls
          simp only [hd, hf]
        · rw [if_neg hdir]
          exact ⟨⟨hd, hf⟩, fun h => by simp at h⟩)
      fuel (normDest dest) r0 [] [] ⟨rfl, rfl⟩ hroot
    rw [traverse_log_eq, h1, ← traverse_returned_iff]
    exact ⟨b, by simpa using h2, h3.symm⟩

set_option maxRecDepth 100000 in
/-- C5 at a concrete tree: the absolute root `/site` over the directories
`/site/pub`, `/site/pub/deep` and `/site/deep`; the entry `deep` of `/site/pub`
is entered as `/site/pub/deep`, and `/site/deep`, the sibling of `/site/pub`, is
listed after the return from the descent into `/site/pub`. -/
theorem reanchoring_witness :
    (normDest "/site".toList).head? = some '/' ∧
    (traverse (logged refServer) 5 (normDest "/site".toList) (nestedTree, [])).1.2 =
      [Call.ChangeDir "/site/".toList none,
        Call.ListDir ".".toList
          (.ok [⟨"pub".toList, EntryTypeFolder⟩, ⟨"deep".toList, EntryTypeFolder⟩]),
        Call.ChangeDir "/site/pub".toList none,
        Call.ListDir ".".toList (.ok [⟨"deep".toList, EntryTypeFolder⟩]),
        Call.ChangeDir "/site/pub/deep".toList none,
        Call.ListDir ".".toList (.ok [⟨"c.txt".toList, EntryTypeFile⟩]),
        Call.ChangeDir "/site/deep".toList none,
        Call.ListDir ".".toList (.ok [])] ∧
    ∃ b, Scan (ReAnchored nestedTree.dirs nestedTree.files) (normDest "/site".toList)
        (traverse (logged refServer) 5 (normDest "/site".toList) (nestedTree, [])).1.2 b ∧
      (b = true ↔ ∃ seen,
        (traverse (logged refServer) 5 (normDest "/site".toList) (nestedTree, [])).2 =
          some (some seen, none)) :=
  ⟨by decide, by decide, (reanchoring 5 "/site".toList).2.1 (by decide) nestedTree⟩

set_option maxRecDepth 100000 in
/-- C5 fails for a relative root: with destination `.` on a server whose login
directory holds the sibling directories `x` and `y`, the scan enters `x`,
returns, and asks for `y`; the server resolves `y` against the cursor left in
`x`, so the existing sibling `/y` is never listed and the scan fails. -/
theorem reanchoring_counterexample :
    siblings.isDir ["y".toList] = true ∧
    siblings.resolve "y".toList = ["y".toList] ∧
    traverse (logged refServer) 5 (normDest ".".toList) (siblings, []) =
      ((⟨siblings.dirs, siblings.files, ["x".toList]⟩,
        [Call.ChangeDir "./".toList none,
          Call.ListDir ".".toList
            (.ok [⟨"x".toList, EntryTypeFolder⟩, ⟨"y".toList, EntryTypeFolder⟩]),
          Call.ChangeDir "x".toList none,
          Call.ListDir ".".toList (.ok []),
          Call.ChangeDir "y".toList
            (some (.errorString "550 Failed to change directory.".toList))]),
        some (none, some (Errorf "failed to change to directory ".toList "./".toList
          (.errorString "550 Failed to change directory.".toList)))) ∧
    ¬ ∃ b, Scan (ReAnchored siblings.dirs siblings.files) (normDest ".".toList)
      (traverse (logged refServer) 5 (normDest ".".toList) (siblings, [])).1.2 b := by
  refine ⟨by decide, by decide, by decide, ?_⟩
  rintro ⟨b, h⟩
  have hlog : (traverse (logged refServer) 5 (normDest ".".toList) (siblings, [])).1.2 =
      [Call.ChangeDir "./".toList none,
        Call.ListDir ".".toList
          (.ok [⟨"x".toList, EntryTypeFolder⟩, ⟨"y".toList, EntryTypeFolder⟩]),
        Call.ChangeDir "x".toList none,
        Call.ListDir ".".toList (.ok []),
        Call.ChangeDir "y".toList
          (some (.errorString "550 Failed to change directory.".toList))] := by decide
  rw [hlog] at h
  cases h with
  | listed hp _ => exact absurd hp.1 (by decide)

end FtpSync
